import Mathlib

/-!
Huffman coder (`src/backend/huffman.cpp`)

A shallow embedding of the codec of `huffman.cpp` and theorems about it.

* A file is the list of its bytes; `compressFile` maps the content of the input file to the
  content of the output file, `decompressFile` maps the content of a container to an `Outcome`.
* `unsigned long long` / `uint64_t` arithmetic wraps modulo `2 ^ 64`, `uint16_t` modulo `2 ^ 16`,
  `uint8_t` modulo `2 ^ 8`.
* Multi-byte integers are written in the byte order of the platform; the embedding fixes
  little-endian.
* A code (`std::string` over the characters `'0'` and `'1'`) is a `List Bool`, `'0'` being
  `false` and `'1'` being `true`.
* `std::priority_queue` is the binary heap of the library `g++` links (libstdc++): `push` and
  `pop` are `std::push_heap` and `std::pop_heap` on the vector of the queue, embedded statement
  by statement, so that nodes `Cmp` does not order leave the queue in the order they leave it in
  the program.
* Opening the files, the report printed on `stdout` and `freeTree` are not modelled.
-/

namespace Huffman

/-! ## Data model -/

/-- An `unsigned char` / `uint8_t`. -/
abbrev Byte := Fin 256

/-- The number of values of `uint64_t` (`ull`). -/
abbrev U64 : Nat := 2 ^ 64

/-- The number of values of `uint16_t`. -/
abbrev U16 : Nat := 2 ^ 16

/-- A `Node` of the source, reached through a non-null `Node *`. `leaf s f` is what the
constructor `Node(int s, ull f)` builds (`left = right = nullptr`); `inner f l r` is what
`Node(Node *l, Node *r)` builds (`symbol = -1`, both children present). -/
inductive Node where
  | leaf (symbol : Int) (freq : Nat) : Node
  | inner (freq : Nat) (left right : Node) : Node
  deriving DecidableEq, Repr

namespace Node

/-- Field `symbol`: `0..255` for a leaf, `-1` for an internal node. -/
def symbol : Node → Int
  | leaf s _ => s
  | inner _ _ _ => -1

/-- Field `freq`. -/
def freq : Node → Nat
  | leaf _ f => f
  | inner f _ _ => f

/-- Field `left`; `none` is `nullptr`. -/
def left : Node → Option Node
  | leaf _ _ => none
  | inner _ l _ => some l

/-- Field `right`; `none` is `nullptr`. -/
def right : Node → Option Node
  | leaf _ _ => none
  | inner _ _ r => some r

/-- The constructor `Node(Node *l, Node *r)`: `symbol(-1), freq(l->freq + r->freq)`. -/
def merge (l r : Node) : Node := inner ((l.freq + r.freq) % U64) l r

/-- The test `n->left == nullptr && n->right == nullptr`. -/
def isLeaf (n : Node) : Bool := n.left.isNone && n.right.isNone

end Node

/-- The comparator `Cmp::operator()`. -/
def Cmp (a b : Node) : Bool :=
  if a.freq = b.freq then decide (a.symbol > b.symbol) else decide (a.freq > b.freq)

/-! ## `std::priority_queue<Node *, vector<Node *>, Cmp>`

The queue is the container adaptor of the C++ standard library over a `vector<Node *> c`:
`push(x)` is `c.push_back(x); std::push_heap(c.begin(), c.end(), comp);`, `pop()` is
`std::pop_heap(c.begin(), c.end(), comp); c.pop_back();`, `top()` is `c.front()` and `size()` is
`c.size()`. The program is compiled with `g++` (line 2 of the source); `std::push_heap` and
`std::pop_heap` are those of its library, libstdc++ (`bits/stl_heap.h`), which the definitions
below follow statement by statement. Which of several nodes that `Cmp` does not order (internal
nodes of equal frequency) is on top is decided by these algorithms. -/

/-- The vector `c` of the queue, `c.front()` first. -/
abbrev PQ := List Node

/-- The element `*(__first + i)` of the vector `first`. The heap functions use indices inside the
vector only; outside (where C++ leaves the access undefined) the value is arbitrary. -/
def deref (first : List Node) (i : Nat) : Node := first.getD i (Node.leaf 0 0)

/-- The function `std::__push_heap(__first, __holeIndex, __topIndex, __value, __comp)`:
`__parent = (__holeIndex - 1) / 2;` then the loop
`while (__holeIndex > __topIndex && __comp(__first + __parent, __value))`, which moves the parent
into the hole and the hole to the parent, then `*(__first + __holeIndex) = __value`. The index
type is signed and its division truncates, so `(0 - 1) / 2` is `0` as in `Nat`. The last argument
bounds the number of iterations; the callers pass `holeIndex`, which every iteration decreases
while it is positive, so that the bound is never reached (`push_heap_fuel`). -/
def __push_heap (first : List Node) (holeIndex topIndex : Nat) (value : Node) : Nat → List Node
  | 0 => first.set holeIndex value
  | fuel + 1 =>
    let parent := (holeIndex - 1) / 2
    if holeIndex > topIndex ∧ Cmp (deref first parent) value then
      __push_heap (first.set holeIndex (deref first parent)) parent topIndex value fuel
    else first.set holeIndex value

/-- The function `std::push_heap(__first, __last, __comp)` on the whole vector:
`__value = *(__last - 1); __push_heap(__first, (__last - __first) - 1, 0, __value, __cmp);`. -/
def push_heap (c : List Node) : List Node :=
  let value := deref c (c.length - 1)
  __push_heap c (c.length - 1) 0 value (c.length - 1)

/-- The loop `while (__secondChild < (__len - 1) / 2)` of `std::__adjust_heap`: the child that
`__comp` does not order before the other is moved into the hole and the hole moves to it. The
variables `__holeIndex` and `__secondChild` are equal whenever the condition is tested; the
result is the vector and their common value after the loop. The first argument bounds the number
of iterations; the caller passes `len`, below which the hole stays while it grows, so that the
bound is never reached (`adjust_descend_fuel`). -/
def adjust_descend (len : Nat) : Nat → List Node → Nat → List Node × Nat
  | 0, first, holeIndex => (first, holeIndex)
  | fuel + 1, first, holeIndex =>
    if holeIndex < (len - 1) / 2 then
      let secondChild := 2 * (holeIndex + 1)
      let secondChild :=
        if Cmp (deref first secondChild) (deref first (secondChild - 1)) then secondChild - 1
        else secondChild
      adjust_descend len fuel (first.set holeIndex (deref first secondChild)) secondChild
    else (first, holeIndex)

/-- The function `std::__adjust_heap(__first, __holeIndex, __len, __value, __comp)`: the loop
`adjust_descend`, then `if ((__len & 1) == 0 && __secondChild == (__len - 2) / 2)` the only child
of the hole is moved into it, then `__push_heap(__first, __holeIndex, __topIndex, __value, __cmp)`
with `__topIndex` the hole index the function was called with. It is called with `__len >= 1`
only, where the signed `(__len - 2) / 2` and the one in `Nat` agree. -/
def __adjust_heap (first : List Node) (holeIndex len : Nat) (value : Node) : List Node :=
  let topIndex := holeIndex
  let (first, secondChild) := adjust_descend len len first holeIndex
  let holeIndex := secondChild
  if len % 2 = 0 ∧ secondChild = (len - 2) / 2 then
    let secondChild := 2 * (secondChild + 1)
    __push_heap (first.set holeIndex (deref first (secondChild - 1))) (secondChild - 1) topIndex value
      (secondChild - 1)
  else __push_heap first holeIndex topIndex value holeIndex

/-- The function `std::__pop_heap(__first, __last, __result, __comp)`, the iterators given as
indices into the vector `first`: `__value = *__result; *__result = *__first;
__adjust_heap(__first, 0, __last - __first, __value, __comp);`. -/
def __pop_heap (first : List Node) (last result : Nat) : List Node :=
  let value := deref first result
  __adjust_heap (first.set result (deref first 0)) 0 last value

/-- The function `std::pop_heap(__first, __last, __comp)` on the whole vector:
`if (__last - __first > 1) { --__last; __pop_heap(__first, __last, __last, __cmp); }`. -/
def pop_heap (c : List Node) : List Node :=
  if c.length > 1 then __pop_heap c (c.length - 1) (c.length - 1) else c

namespace PQ

/-- The method `push`: `c.push_back(x); std::push_heap(c.begin(), c.end(), comp);`. -/
def push (q : PQ) (n : Node) : PQ := push_heap (q ++ [n])

/-- The method `top`: `c.front()`; `none` on an empty queue, where the behaviour of `top` is
undefined. -/
def top : PQ → Option Node
  | [] => none
  | x :: _ => some x

/-- The method `pop`: `std::pop_heap(c.begin(), c.end(), comp); c.pop_back();`. -/
def pop (q : PQ) : PQ := (pop_heap q).dropLast

end PQ

/-! ## Shared steps of `compressFile` and `decompressFile` -/

/-- A frequency table `array<uint64_t, 256> freq`. -/
abbrev FreqTable := Mathlib.Vector Nat 256

/-- The table `array<uint64_t, 256> freq{}`. -/
def zeroFreq : FreqTable := Mathlib.Vector.replicate 256 0

/-- The loop `for (int b = 0; b < 256; ++b) if (freq[b] > 0) pq.push(new Node(b, freq[b]));`
on an empty queue. -/
def fillQueue (freq : FreqTable) : PQ :=
  (List.finRange 256).foldl
    (fun pq b => if freq.get b > 0 then PQ.push pq (Node.leaf (b.val : Int) (freq.get b)) else pq) []

/-- The loop `while (pq.size() > 1) { a = top; pop; b = top; pop; push(new Node(a, b)); }`.
The first argument bounds the number of iterations; the callers pass the size of the queue, which
every iteration decreases by one. `none`: `top` of an empty queue, or the bound was reached with
the loop condition still true (`mergeLoop_spec` shows that neither happens on a non-empty queue). -/
def mergeLoop : Nat → PQ → Option PQ
  | 0, pq => if pq.length > 1 then none else some pq
  | fuel + 1, pq =>
    if pq.length > 1 then do
      let a ← PQ.top pq
      let pq := PQ.pop pq
      let b ← PQ.top pq
      let pq := PQ.pop pq
      mergeLoop fuel (PQ.push pq (Node.merge a b))
    else some pq

/-- The tree both functions build from a frequency table: fill the queue, run the merge loop,
`Node *root = pq.top();` (the same statements in `compressFile`, lines 110-113 and 125-133, and
in `decompressFile`, lines 254-267). `none` when the queue is empty (`top` is then undefined;
`compressFile` returns before it gets there). -/
def buildTree (freq : FreqTable) : Option Node := do
  let pq ← mergeLoop (fillQueue freq).length (fillQueue freq)
  PQ.top pq

/-! ## `buildCodes` -/

/-- A code table `array<string, 256> codes`, indexed by `root->symbol`. -/
abbrev CodeTable := Int → List Bool

/-- The table after `for (auto &s : codes) s.clear();`. -/
def emptyCodes : CodeTable := fun _ => []

/-- The function `buildCodes(Node *root, array<string, 256> &codes, string &tmp)`; the two
reference parameters are passed in and returned. The `nullptr` case does not arise: every child
of an internal node is present. -/
def buildCodes : Node → CodeTable × List Bool → CodeTable × List Bool
  | Node.leaf s _, (codes, tmp) =>
    let tmp := if tmp.isEmpty then [false] else tmp
    (Function.update codes s tmp, tmp)
  | Node.inner _ l r, (codes, tmp) =>
    let tmp := tmp ++ [false]
    let (codes, tmp) := buildCodes l (codes, tmp)
    let tmp := tmp.dropLast
    let tmp := tmp ++ [true]
    let (codes, tmp) := buildCodes r (codes, tmp)
    (codes, tmp.dropLast)

/-! ## Writing and reading integers -/

/-- The bytes `write_uint16` writes for the value `v` (little-endian). -/
def write_uint16 (v : Nat) : List Byte := [Fin.ofNat v, Fin.ofNat (v / 256)]

/-- The bytes `write_uint64` writes for the value `v` (little-endian). -/
def write_uint64 (v : Nat) : List Byte :=
  [Fin.ofNat v, Fin.ofNat (v / 256 ^ 1), Fin.ofNat (v / 256 ^ 2), Fin.ofNat (v / 256 ^ 3),
   Fin.ofNat (v / 256 ^ 4), Fin.ofNat (v / 256 ^ 5), Fin.ofNat (v / 256 ^ 6),
   Fin.ofNat (v / 256 ^ 7)]

/-- The function `read_uint16` on the unread rest of the stream: the value and the new rest.
`none` when fewer than two bytes are left: the read fails and the value returned is
indeterminate. -/
def read_uint16 : List Byte → Option (Nat × List Byte)
  | b0 :: b1 :: rest => some (b0.val + 256 * b1.val, rest)
  | _ => none

/-- The function `read_uint64` on the unread rest of the stream; `none` when fewer than eight
bytes are left. -/
def read_uint64 : List Byte → Option (Nat × List Byte)
  | b0 :: b1 :: b2 :: b3 :: b4 :: b5 :: b6 :: b7 :: rest =>
    some (b0.val + 256 * (b1.val + 256 * (b2.val + 256 * (b3.val + 256 * (b4.val
      + 256 * (b5.val + 256 * (b6.val + 256 * b7.val)))))), rest)
  | _ => none

/-- The tag `"HFM1"`. -/
def magic : List Byte := [72, 70, 77, 49]

/-! ## `compressFile` -/

/-- The loop `for (unsigned char b : data) freq[b]++;` on the zero table. -/
def countFreq (data : List Byte) : FreqTable :=
  data.foldl (fun freq b => freq.set b ((freq.get b + 1) % U64)) zeroFreq

/-- The loop `for (int i = 0; i < 256; ++i) if (freq[i] > 0) distinct++;` on
`uint16_t distinct = 0`. -/
def countDistinct (freq : FreqTable) : Nat :=
  (List.finRange 256).foldl (fun distinct i => if freq.get i > 0 then (distinct + 1) % U16 else distinct) 0

/-- The bytes written by the loop over the header entries: for every `i` with `freq[i] > 0`, in
ascending order, the byte `sym` and `write_uint64(out, freq[i])`. -/
def writeEntries (freq : FreqTable) : List Byte :=
  (List.finRange 256).foldl
    (fun out i => if freq.get i > 0 then out ++ [i] ++ write_uint64 (freq.get i) else out) []

/-- The loop `for (unsigned char b : data) totalBits += codes[b].size();` on
`uint64_t totalBits = 0`. -/
def sumBits (codes : CodeTable) (data : List Byte) : Nat :=
  data.foldl (fun totalBits b => (totalBits + (codes (b.val : Int)).length) % U64) 0

/-- The state of the bit packer: the bytes put so far, `uint8_t outByte`, `int bitCount`. -/
structure PackState where
  out : List Byte
  outByte : Nat
  bitCount : Nat
  deriving DecidableEq, Repr

/-- The body of `for (char c : code)`: shift, set the low bit for `'1'`, flush a full byte. -/
def packBit (st : PackState) (c : Bool) : PackState :=
  let outByte := (st.outByte <<< 1) % 256
  let outByte := if c then outByte ||| 1 else outByte
  let bitCount := st.bitCount + 1
  if bitCount = 8 then ⟨st.out ++ [Fin.ofNat outByte], 0, 0⟩ else ⟨st.out, outByte, bitCount⟩

/-- The payload: the loop `for (unsigned char b : data) for (char c : codes[b])` from
`outByte = 0, bitCount = 0`, then the flush of a partial last byte. -/
def packData (codes : CodeTable) (data : List Byte) : List Byte :=
  let st := data.foldl (fun st b => (codes (b.val : Int)).foldl packBit st) ⟨[], 0, 0⟩
  if st.bitCount > 0 then st.out ++ [Fin.ofNat ((st.outByte <<< (8 - st.bitCount)) % 256)]
  else st.out

/-- The function `compressFile` on the content `data` of the input file: the content of the
output file. `none` stands for undefined behaviour in the tree construction
(`compressFile_total` shows that it does not happen). -/
def compressFile (data : List Byte) : Option (List Byte) :=
  let freq := countFreq data
  if (fillQueue freq).isEmpty then
    some (magic ++ write_uint16 0 ++ write_uint64 0)
  else do
    let root ← buildTree freq
    let codes := (buildCodes root (emptyCodes, [])).1
    let header := magic ++ write_uint16 (countDistinct freq) ++ writeEntries freq
    some (header ++ write_uint64 (sumBits codes data) ++ packData codes data)

/-! ## `decompressFile` -/

/-- Undefined behaviour `decompressFile` can run into. -/
inductive UB where
  /-- a header field is read after the stream ended: its value is indeterminate -/
  | truncatedHeader
  /-- `pq.top()` on an empty queue -/
  | emptyQueue
  /-- `curr->left` where `curr` is `nullptr` -/
  | nullChild
  deriving DecidableEq, Repr

/-- What `decompressFile` does. -/
inductive Outcome where
  /-- "Not a valid Huffman file", `return 1`; the output file is never opened -/
  | invalidFormat
  /-- `return 0`, the output file holds `out` -/
  | success (out : List Byte)
  /-- undefined behaviour -/
  | undefined (e : UB)
  deriving DecidableEq, Repr

/-- The call `in.read(magic, 4)`: the four bytes and the rest; `none` when the read fails. -/
def readMagic : List Byte → Option (List Byte × List Byte)
  | b0 :: b1 :: b2 :: b3 :: rest => some ([b0, b1, b2, b3], rest)
  | _ => none

/-- The loop `for (int i = 0; i < distinct; ++i) { read sym; freq[sym] = read_uint64(in); }`:
the table and the unread rest; `none` when the stream ends inside an entry. -/
def readEntries : Nat → List Byte → FreqTable → Option (FreqTable × List Byte)
  | 0, rest, freq => some (freq, rest)
  | _ + 1, [], _ => none
  | n + 1, sym :: rest, freq =>
    match read_uint64 rest with
    | none => none
    | some (f, rest) => readEntries n rest (freq.set sym f)

/-- The state of the bit walk: `Node *curr`, `uint64_t bitsRead`, the bytes put so far. -/
structure WalkState where
  curr : Node
  bitsRead : Nat
  out : List Byte
  deriving DecidableEq, Repr

/-- The byte `static_cast<char>(symbol)`. -/
def symbolByte (symbol : Int) : Byte := Fin.ofNat (symbol % 256).toNat

/-- The loop `for (int i = 7; i >= 0 && bitsRead < totalBits; --i)` over one byte; the first
argument is `i + 1`. `none`: the child taken is `nullptr` and is dereferenced. `bitsRead++`
cannot wrap, `bitsRead` being below the 64-bit value `totalBits`. -/
def walkBits (root : Node) (totalBits : Nat) (byte : Byte) : Nat → WalkState → Option WalkState
  | 0, st => some st
  | i + 1, st =>
    if st.bitsRead < totalBits then
      let bit := (byte.val >>> i) &&& 1
      match (if bit ≠ 0 then st.curr.right else st.curr.left) with
      | none => none
      | some curr =>
        if curr.isLeaf then
          walkBits root totalBits byte i ⟨root, st.bitsRead + 1, st.out ++ [symbolByte curr.symbol]⟩
        else
          walkBits root totalBits byte i ⟨curr, st.bitsRead + 1, st.out⟩
    else some st

/-- The loop `while (bitsRead < totalBits && in.good()) { in.get(ch); if (!in) break; ... }` over
the unread rest of the stream. -/
def walkBytes (root : Node) (totalBits : Nat) : List Byte → WalkState → Option WalkState
  | [], st => some st
  | byte :: rest, st =>
    if st.bitsRead < totalBits then
      match walkBits root totalBits byte 8 st with
      | none => none
      | some st => walkBytes root totalBits rest st
    else some st

/-- The header fields `decompressFile` reads after the tag: `uint16_t distinct`, the table
`freq` filled from the entries, `uint64_t totalBits`. -/
structure Header where
  distinct : Nat
  freq : FreqTable
  totalBits : Nat

/-- The reads of `decompressFile` up to `uint64_t totalBits = read_uint64(in);`: the tag and its
check, `distinct`, the entries, `totalBits`. The outcome when the function stops there, else the
header fields and the unread rest of the stream. -/
def readHeader (file : List Byte) : Except Outcome (Header × List Byte) :=
  match readMagic file with
  | none => Except.error Outcome.invalidFormat
  | some (tag, rest) =>
    if tag ≠ magic then Except.error Outcome.invalidFormat
    else
      match read_uint16 rest with
      | none => Except.error (Outcome.undefined UB.truncatedHeader)
      | some (distinct, rest) =>
        match readEntries distinct rest zeroFreq with
        | none => Except.error (Outcome.undefined UB.truncatedHeader)
        | some (freq, rest) =>
          match read_uint64 rest with
          | none => Except.error (Outcome.undefined UB.truncatedHeader)
          | some (totalBits, payload) => Except.ok (⟨distinct, freq, totalBits⟩, payload)

/-- The function `decompressFile` on the content `file` of the input file. -/
def decompressFile (file : List Byte) : Outcome :=
  match readHeader file with
  | Except.error o => o
  | Except.ok (h, payload) =>
    if h.distinct = 0 ∨ h.totalBits = 0 then Outcome.success []
    else
      match buildTree h.freq with
      | none => Outcome.undefined UB.emptyQueue
      | some root =>
        match walkBytes root h.totalBits payload ⟨root, 0, []⟩ with
        | none => Outcome.undefined UB.nullChild
        | some st => Outcome.success st.out

/-! ## Vocabulary of the statements -/

/-- The leaves of a tree from left to right, each with its symbol and frequency. -/
def Node.leaves : Node → List (Int × Nat)
  | Node.leaf s f => [(s, f)]
  | Node.inner _ l r => l.leaves ++ r.leaves

/-- The leaves of a tree from left to right, each with its symbol and the turns that lead to it
from the root (`false` for left, `true` for right), after the turns `pre`. -/
def Node.paths : Node → List Bool → List (Int × List Bool)
  | Node.leaf s _, pre => [(s, pre)]
  | Node.inner _ l r, pre => l.paths (pre ++ [false]) ++ r.paths (pre ++ [true])

/-- The byte values with a nonzero entry in a frequency table, in ascending order. -/
def presentSymbols (freq : FreqTable) : List Byte :=
  (List.finRange 256).filter (fun b => decide (freq.get b > 0))

/-- The bits `k - 1, ..., 0` of a byte, highest first, each read as `(byte >> i) & 1`. -/
def lowBits (b : Byte) : Nat → List Bool
  | 0 => []
  | i + 1 => decide ((b.val >>> i) &&& 1 ≠ 0) :: lowBits b i

/-- The bits of a byte, most significant first. -/
def bitsOfByte (b : Byte) : List Bool := lowBits b 8

/-- The bits of a byte sequence, most significant bit of the first byte first. -/
def bitsOfBytes (bytes : List Byte) : List Bool := bytes.flatMap bitsOfByte

/-- The code table `compressFile` computes for the input `data`; the empty table when there is
no tree. -/
def codesOf (data : List Byte) : CodeTable :=
  match buildTree (countFreq data) with
  | none => emptyCodes
  | some root => (buildCodes root (emptyCodes, [])).1

/-- The concatenation, in input order, of the codes of the bytes of `data`. -/
def codeBits (codes : CodeTable) (data : List Byte) : List Bool :=
  data.flatMap (fun b => codes (b.val : Int))

/-- The bit walk of `decompressFile` on a sequence of bits: from the cursor and the output so
far to the cursor and the output after the last bit; `none` when a missing child is reached. -/
def walkList (root : Node) : List Bool → Node × List Byte → Option (Node × List Byte)
  | [], st => some st
  | bit :: bits, (curr, out) =>
    match (if bit then curr.right else curr.left) with
    | none => none
    | some c =>
      if c.isLeaf then walkList root bits (root, out ++ [symbolByte c.symbol])
      else walkList root bits (c, out)

/-- The value of `outByte` after the bits `p` were shifted into `o` by `packBit`. -/
def shiftIn (o : Nat) (p : List Bool) : Nat :=
  p.foldl (fun o c => if c then ((o <<< 1) % 256) ||| 1 else (o <<< 1) % 256) o

/-- The container with the header of the table `freq` (the tag, the number of nonzero entries,
the entries in ascending order), the bit count `totalBits` and the payload `payload`, laid out as
`compressFile` writes it. -/
def container (freq : FreqTable) (totalBits : Nat) (payload : List Byte) : List Byte :=
  magic ++ write_uint16 (countDistinct freq) ++ writeEntries freq ++ write_uint64 totalBits
    ++ payload

/-- The codes `buildCodes` assigns from the root of a tree, leaf by leaf from left to right: the
turns to each leaf, and the one-bit code `0` when the root is itself a leaf. -/
def Node.codePaths : Node → List (Int × List Bool)
  | Node.leaf s _ => [(s, [false])]
  | Node.inner f l r => (Node.inner f l r).paths []

/-- The entries `compressFile` writes into the header for a table: the byte values with a
nonzero entry in ascending order, each with its frequency. -/
def headerEntries (freq : FreqTable) : List (Byte × Nat) :=
  (presentSymbols freq).map (fun b => (b, freq.get b))

/-- The order of extraction: `a` is not after `b` under ascending frequency and, for equal
frequencies, ascending symbol value. -/
def Node.keyLe (a b : Node) : Prop :=
  a.freq < b.freq ∨ (a.freq = b.freq ∧ a.symbol ≤ b.symbol)

/-- The sum of the frequencies of the leaves of a tree. -/
def Node.weight (n : Node) : Nat := (n.leaves.map Prod.snd).sum

/-- The nodes of a tree: the root and the nodes of its subtrees. -/
def Node.subtrees : Node → List Node
  | Node.leaf s f => [Node.leaf s f]
  | Node.inner f l r => Node.inner f l r :: (l.subtrees ++ r.subtrees)

/-- The frequency of the node is the sum of the frequencies of its leaves, and that of every
internal node below it is the sum of the frequencies of its two children. -/
def Node.Exact (n : Node) : Prop :=
  n.freq = n.weight
    ∧ ∀ m ∈ n.subtrees, m.isLeaf = false →
        ∃ l r, m.left = some l ∧ m.right = some r ∧ m.freq = l.freq + r.freq

/-- The cost of a tree: the sum over its leaves of the frequency times the depth, computed as
the sum over its internal nodes of the weights of the two children. -/
def Node.cost : Node → Nat
  | Node.leaf _ _ => 0
  | Node.inner _ l r => l.cost + r.cost + l.weight + r.weight

/-- The Kraft sum of a list of (weight, code length) pairs, scaled by `2 ^ N`. -/
def kraftSum (N : Nat) (L : List (Nat × Nat)) : Nat := (L.map (fun e => 2 ^ (N - e.2))).sum

/-- The code lengths of the list are at most `N` and satisfy the inequality of Kraft, which the
lengths of every prefix-free code satisfy. -/
def Kraft (N : Nat) (L : List (Nat × Nat)) : Prop := (∀ e ∈ L, e.2 ≤ N) ∧ kraftSum N L ≤ 2 ^ N

/-- The cost of a list of (weight, code length) pairs: the sum of weight times length. -/
def lenCost (L : List (Nat × Nat)) : Nat := (L.map (fun e => e.1 * e.2)).sum

/-- The vector is a heap under `Cmp`, as `std::is_heap` tests it: `Cmp` orders no element
after its parent, the parent of the element at index `i` being at index `(i - 1) / 2`. -/
def PQ.IsHeap (c : PQ) : Prop :=
  ∀ i, i < c.length → 0 < i → Cmp (deref c ((i - 1) / 2)) (deref c i) = false

instance (c : PQ) : Decidable (PQ.IsHeap c) :=
  inferInstanceAs (Decidable (∀ i, i < c.length → 0 < i →
    Cmp (deref c ((i - 1) / 2)) (deref c i) = false))

/-- The rest of a bit string that starts with the bit `b`. -/
def stripBit (b : Bool) : List Bool → Option (List Bool)
  | [] => none
  | x :: t => if x = b then some t else none

/-! # Proofs -/

/-! ## Frequency table and queue -/

theorem foldl_cond_append {α β : Type} (p : α → Bool) (f : α → List β) (l : List α) (init : List β) :
    l.foldl (fun acc a => if p a then acc ++ f a else acc) init
      = init ++ (l.filter p).flatMap f := by
  induction l generalizing init with
  | nil => simp
  | cons a l ih =>
    simp only [List.foldl_cons, ih, List.filter_cons]
    by_cases h : p a <;> simp [h]

theorem zeroFreq_get (b : Byte) : zeroFreq.get b = 0 := by
  unfold zeroFreq
  rw [Mathlib.Vector.get_replicate]

theorem countFreq_foldl (S : List Byte) (t : FreqTable) (b : Byte) (ht : t.get b < U64) :
    (S.foldl (fun freq b => freq.set b ((freq.get b + 1) % U64)) t).get b
      = (t.get b + S.count b) % U64 := by
  induction S generalizing t with
  | nil => simp [Nat.mod_eq_of_lt ht]
  | cons a S ih =>
    rw [List.foldl_cons, ih]
    · by_cases h : a = b
      · subst h
        simp only [Mathlib.Vector.get_set_same, List.count_cons_self, Nat.mod_add_mod]
        congr 1; omega
      · have h2 : (a == b) = false := by simpa using h
        simp only [Mathlib.Vector.get_set_of_ne h, List.count_cons, h2]
        simp
    · by_cases h : a = b
      · subst h; simp [Mathlib.Vector.get_set_same]; exact Nat.mod_lt _ (by decide)
      · simpa [Mathlib.Vector.get_set_of_ne h] using ht

theorem countFreq_get (S : List Byte) (b : Byte) : (countFreq S).get b = S.count b % U64 := by
  unfold countFreq
  rw [countFreq_foldl]
  · rw [zeroFreq_get, Nat.zero_add]
  · rw [zeroFreq_get]; decide

/-! ## The order of `Cmp` -/

theorem Cmp_eq_true_iff (a b : Node) : Cmp a b = true ↔ ¬ a.keyLe b := by
  unfold Cmp Node.keyLe
  by_cases h : a.freq = b.freq
  · simp only [h, ↓reduceIte, decide_eq_true_eq, lt_self_iff_false, true_and, false_or, not_le,
      gt_iff_lt]
  · simp only [h, ↓reduceIte, decide_eq_true_eq, false_and, or_false, not_lt, gt_iff_lt]
    omega

theorem Node.keyLe_refl (a : Node) : a.keyLe a := Or.inr ⟨rfl, le_refl _⟩

theorem Node.keyLe_total (a b : Node) : a.keyLe b ∨ b.keyLe a := by
  unfold Node.keyLe
  omega

theorem Node.keyLe_trans {a b c : Node} (h1 : a.keyLe b) (h2 : b.keyLe c) : a.keyLe c := by
  unfold Node.keyLe at *
  omega

theorem Cmp_eq_false_iff (a b : Node) : Cmp a b = false ↔ a.keyLe b := by
  rw [← not_iff_not, Bool.not_eq_false, Cmp_eq_true_iff]

theorem deref_set (c : List Node) (i j : Nat) (v : Node) :
    deref (c.set i v) j = if j = i ∧ i < c.length then v else deref c j := by
  unfold deref
  rw [List.getD_eq_getElem?_getD, List.getD_eq_getElem?_getD, List.getElem?_set]
  by_cases h : i = j
  · subst h
    by_cases h2 : i < c.length
    · simp [h2]
    · simp [h2]
      rw [List.getElem?_eq_none (by omega)]
      rfl
  · have : ¬ (j = i ∧ i < c.length) := fun hh => h hh.1.symm
    simp [h, this]

theorem deref_set_ne (c : List Node) (i j : Nat) (v : Node) (h : j ≠ i) :
    deref (c.set i v) j = deref c j := by
  rw [deref_set, if_neg (fun hh => h hh.1)]

theorem deref_set_eq (c : List Node) (i : Nat) (v : Node) (h : i < c.length) :
    deref (c.set i v) i = v := by
  rw [deref_set, if_pos ⟨rfl, h⟩]

theorem deref_mem (c : List Node) (i : Nat) (h : i < c.length) : deref c i ∈ c := by
  unfold deref
  rw [List.getD_eq_getElem _ _ h]
  exact List.getElem_mem h

theorem count_set (c : List Node) (i : Nat) (v x : Node) (h : i < c.length) :
    (c.set i v).count x + (if deref c i = x then 1 else 0)
      = c.count x + (if v = x then 1 else 0) := by
  induction c generalizing i with
  | nil => simp at h
  | cons a c ih =>
    cases i with
    | zero =>
      simp only [List.set_cons_zero, List.count_cons, deref, List.getD_cons_zero, beq_iff_eq]
      omega
    | succ i =>
      have := ih i (by simpa using h)
      simp only [List.set_cons_succ, List.count_cons, deref, List.getD_cons_succ] at this ⊢
      omega

theorem set_set_perm (c : List Node) (h p : Nat) (v : Node) (hp : p ≠ h) (hh : h < c.length)
    (hpl : p < c.length) :
    ((c.set h (deref c p)).set p v).Perm (c.set h v) := by
  rw [List.perm_iff_count]
  intro x
  have h1 := count_set (c.set h (deref c p)) p v x (by simpa using hpl)
  have h2 := count_set c h (deref c p) x hh
  have h3 := count_set c h v x hh
  rw [deref_set] at h1
  have : ¬ (p = h ∧ h < c.length) := fun hh => hp hh.1
  rw [if_neg this] at h1
  omega

theorem push_heap_length (v : Node) (top : Nat) : ∀ (fuel : Nat) (c : List Node) (h : Nat),
    (__push_heap c h top v fuel).length = c.length := by
  intro fuel
  induction fuel with
  | zero => intro c h; simp [__push_heap]
  | succ fuel ih =>
    intro c h
    unfold __push_heap
    simp only
    split
    · rw [ih, List.length_set]
    · simp

theorem push_heap_perm (v : Node) (top : Nat) : ∀ (fuel : Nat) (c : List Node) (h : Nat),
    h < c.length → (__push_heap c h top v fuel).Perm (c.set h v) := by
  intro fuel
  induction fuel with
  | zero => intro c h _; simp [__push_heap]
  | succ fuel ih =>
    intro c h hh
    unfold __push_heap
    simp only
    split
    · rename_i hc
      have hp : (h - 1) / 2 < h := by omega
      refine (ih _ _ (by rw [List.length_set]; omega)).trans ?_
      exact set_set_perm c h _ v (by omega) hh (by omega)
    · exact List.Perm.refl _

theorem push_heap_deref_above (v : Node) (top : Nat) : ∀ (fuel : Nat) (c : List Node) (h j : Nat),
    h < j → deref (__push_heap c h top v fuel) j = deref c j := by
  intro fuel
  induction fuel with
  | zero =>
    intro c h j hj
    simp only [__push_heap, deref_set]
    rw [if_neg (by omega)]
  | succ fuel ih =>
    intro c h j hj
    unfold __push_heap
    simp only
    split
    · rw [ih _ _ _ (by omega), deref_set, if_neg (by omega)]
    · rw [deref_set, if_neg (by omega)]

theorem set_keyLe (len : Nat) (v : Node) (c : List Node) (h : Nat) (hh : h < len)
    (hl : len ≤ c.length)
    (hA : ∀ i, 0 < i → i < len → i ≠ h → (i - 1) / 2 ≠ h →
      (deref c ((i - 1) / 2)).keyLe (deref c i))
    (hB : ∀ i, 0 < i → i < len → (i - 1) / 2 = h → v.keyLe (deref c i))
    (hE : 0 < h → (deref c ((h - 1) / 2)).keyLe v) :
    ∀ i, 0 < i → i < len → (deref (c.set h v) ((i - 1) / 2)).keyLe (deref (c.set h v) i) := by
  intro i hi0 hil
  by_cases h1 : i = h
  · subst h1
    rw [deref_set_ne c i ((i - 1) / 2) v (by omega), deref_set_eq c i v (by omega)]
    exact hE hi0
  · rw [deref_set_ne c h i v h1]
    by_cases h2 : (i - 1) / 2 = h
    · rw [h2, deref_set_eq c h v (by omega)]
      exact hB i hi0 hil h2
    · rw [deref_set_ne c h _ v h2]
      exact hA i hi0 hil h1 h2

theorem push_heap_keyLe (len : Nat) (v : Node) : ∀ (fuel : Nat) (c : List Node) (h : Nat),
    h ≤ fuel → h < len → len ≤ c.length →
    (∀ i, 0 < i → i < len → i ≠ h → (i - 1) / 2 ≠ h →
      (deref c ((i - 1) / 2)).keyLe (deref c i)) →
    (∀ i, 0 < i → i < len → (i - 1) / 2 = h → v.keyLe (deref c i)) →
    (0 < h → ∀ i, 0 < i → i < len → (i - 1) / 2 = h →
      (deref c ((h - 1) / 2)).keyLe (deref c i)) →
    ∀ i, 0 < i → i < len →
      (deref (__push_heap c h 0 v fuel) ((i - 1) / 2)).keyLe (deref (__push_heap c h 0 v fuel) i) := by
  intro fuel
  induction fuel with
  | zero =>
    intro c h hf hh hl hA hB hC
    have h0 : h = 0 := by omega
    subst h0
    simp only [__push_heap]
    exact set_keyLe len v c 0 hh hl hA hB (fun h => absurd h (by omega))
  | succ fuel ih =>
    intro c h hf hh hl hA hB hC
    unfold __push_heap
    simp only
    split
    · rename_i hc
      obtain ⟨h0, hcmp⟩ := hc
      have hp : (h - 1) / 2 < h := by omega
      have hvp : v.keyLe (deref c ((h - 1) / 2)) := by
        rcases Node.keyLe_total v (deref c ((h - 1) / 2)) with h | h
        · exact h
        · exact absurd h ((Cmp_eq_true_iff _ _).1 hcmp)
      apply ih _ _ (by omega) (by omega) (by rw [List.length_set]; exact hl)
      · intro i hi0 hil hi1 hi2
        have h1 : i ≠ h := fun h1 => hi2 (h1 ▸ rfl)
        rw [deref_set_ne c h i _ h1]
        by_cases h2 : (i - 1) / 2 = h
        · rw [h2, deref_set_eq c h _ (by omega)]
          exact hC h0 i hi0 hil h2
        · rw [deref_set_ne c h _ _ h2]
          exact hA i hi0 hil h1 h2
      · intro i hi0 hil hi1
        by_cases h1 : i = h
        · rw [h1, deref_set_eq c h _ (by omega)]
          exact hvp
        · rw [deref_set_ne c h i _ h1]
          refine Node.keyLe_trans hvp ?_
          rw [← hi1]
          exact hA i hi0 hil h1 (by omega)
      · intro hp0 i hi0 hil hi1
        have hpp : (deref c (((h - 1) / 2 - 1) / 2)).keyLe (deref c ((h - 1) / 2)) :=
          hA _ hp0 (by omega) (by omega) (by omega)
        rw [deref_set_ne c h (((h - 1) / 2 - 1) / 2) _ (by omega)]
        by_cases h1 : i = h
        · rw [h1, deref_set_eq c h _ (by omega)]
          exact hpp
        · rw [deref_set_ne c h i _ h1]
          refine Node.keyLe_trans hpp ?_
          rw [← hi1]
          exact hA i hi0 hil h1 (by omega)
    · rename_i hc
      apply set_keyLe len v c h hh hl hA hB
      intro h0
      by_contra hn
      exact hc ⟨h0, (Cmp_eq_true_iff _ _).2 hn⟩

/-- Moving the child `k` of the hole `h` into the hole keeps the order of the heap outside the
hole, which is then at `k`. -/
theorem move_child_keyLe (len : Nat) (c : List Node) (h k : Nat) (hk0 : 0 < k) (hkl : k < len)
    (hl : len ≤ c.length) (hkh : (k - 1) / 2 = h)
    (hA : ∀ i, 0 < i → i < len → i ≠ h → (i - 1) / 2 ≠ h →
      (deref c ((i - 1) / 2)).keyLe (deref c i))
    (hC : 0 < h → ∀ i, 0 < i → i < len → (i - 1) / 2 = h →
      (deref c ((h - 1) / 2)).keyLe (deref c i))
    (hS : ∀ i, 0 < i → i < len → (i - 1) / 2 = h → i ≠ k → (deref c k).keyLe (deref c i)) :
    (∀ i, 0 < i → i < len → i ≠ k → (i - 1) / 2 ≠ k →
      (deref (c.set h (deref c k)) ((i - 1) / 2)).keyLe (deref (c.set h (deref c k)) i))
    ∧ (∀ i, 0 < i → i < len → (i - 1) / 2 = k →
      (deref (c.set h (deref c k)) ((k - 1) / 2)).keyLe (deref (c.set h (deref c k)) i)) := by
  have hhk : h < k := by omega
  refine ⟨?_, ?_⟩
  · intro i hi0 hil hik hpk
    by_cases h1 : i = h
    · subst h1
      rw [deref_set_ne c i ((i - 1) / 2) _ (by omega), deref_set_eq c i _ (by omega)]
      exact hC hi0 k hk0 hkl hkh
    · rw [deref_set_ne c h i _ h1]
      by_cases h2 : (i - 1) / 2 = h
      · rw [h2, deref_set_eq c h _ (by omega)]
        exact hS i hi0 hil h2 hik
      · rw [deref_set_ne c h _ _ h2]
        exact hA i hi0 hil h1 h2
  · intro i hi0 hil hpk
    rw [hkh, deref_set_eq c h _ (by omega), deref_set_ne c h i _ (by omega)]
    have := hA i hi0 hil (by omega) (by omega)
    rw [hpk] at this
    exact this

theorem adjust_descend_child (len : Nat) (c : List Node) (h : Nat) :
    ∃ k, (if Cmp (deref c (2 * (h + 1))) (deref c (2 * (h + 1) - 1)) = true
          then 2 * (h + 1) - 1 else 2 * (h + 1)) = k
      ∧ (k = 2 * h + 1 ∨ k = 2 * h + 2)
      ∧ ∀ i, 0 < i → i < len → (i - 1) / 2 = h → i ≠ k → (deref c k).keyLe (deref c i) := by
  refine ⟨_, rfl, ?_, ?_⟩
  · split <;> omega
  · intro i hi0 hil hih hik
    by_cases hcmp : Cmp (deref c (2 * (h + 1))) (deref c (2 * (h + 1) - 1)) = true
    · rw [if_pos hcmp] at hik ⊢
      have hi : i = 2 * (h + 1) := by omega
      rw [hi]
      rcases Node.keyLe_total (deref c (2 * (h + 1) - 1)) (deref c (2 * (h + 1))) with h | h
      · exact h
      · exact absurd h ((Cmp_eq_true_iff _ _).1 hcmp)
    · rw [if_neg hcmp] at hik ⊢
      have hi : i = 2 * (h + 1) - 1 := by omega
      rw [hi]
      exact (Cmp_eq_false_iff _ _).1 (by simpa using hcmp)

theorem adjust_descend_shape (len : Nat) : ∀ (fuel : Nat) (c : List Node) (h : Nat),
    len ≤ h + fuel → h < len → len ≤ c.length →
    (adjust_descend len fuel c h).1.length = c.length
    ∧ (adjust_descend len fuel c h).2 < len
    ∧ ¬ (adjust_descend len fuel c h).2 < (len - 1) / 2
    ∧ (∀ v, ((adjust_descend len fuel c h).1.set (adjust_descend len fuel c h).2 v).Perm
        (c.set h v))
    ∧ (∀ j, len ≤ j → deref (adjust_descend len fuel c h).1 j = deref c j) := by
  intro fuel
  induction fuel with
  | zero =>
    intro c h hf hh
    omega
  | succ fuel ih =>
    intro c h hf hh hl
    unfold adjust_descend
    by_cases hc : h < (len - 1) / 2
    · simp only [hc, ↓reduceIte]
      obtain ⟨k, hk, hk1, -⟩ := adjust_descend_child len c h
      rw [hk]
      obtain ⟨i1, i2, i3, i6, i7⟩ := ih (c.set h (deref c k)) k (by omega) (by omega)
        (by rw [List.length_set]; exact hl)
      refine ⟨by rw [i1, List.length_set], i2, i3, ?_, ?_⟩
      · intro v
        exact (i6 v).trans (set_set_perm c h k v (by omega) (by omega) (by omega))
      · intro j hj
        rw [i7 j hj, deref_set_ne c h j _ (by omega)]
    · rw [if_neg hc]
      exact ⟨rfl, hh, hc, fun v => List.Perm.refl _, fun _ _ => rfl⟩

theorem adjust_descend_keyLe (len : Nat) : ∀ (fuel : Nat) (c : List Node) (h : Nat),
    len ≤ h + fuel → h < len → len ≤ c.length →
    (∀ i, 0 < i → i < len → i ≠ h → (i - 1) / 2 ≠ h →
      (deref c ((i - 1) / 2)).keyLe (deref c i)) →
    (0 < h → ∀ i, 0 < i → i < len → (i - 1) / 2 = h →
      (deref c ((h - 1) / 2)).keyLe (deref c i)) →
    (∀ i, 0 < i → i < len → i ≠ (adjust_descend len fuel c h).2 →
        (i - 1) / 2 ≠ (adjust_descend len fuel c h).2 →
        (deref (adjust_descend len fuel c h).1 ((i - 1) / 2)).keyLe
          (deref (adjust_descend len fuel c h).1 i))
    ∧ (0 < (adjust_descend len fuel c h).2 → ∀ i, 0 < i → i < len →
        (i - 1) / 2 = (adjust_descend len fuel c h).2 →
        (deref (adjust_descend len fuel c h).1 (((adjust_descend len fuel c h).2 - 1) / 2)).keyLe
          (deref (adjust_descend len fuel c h).1 i)) := by
  intro fuel
  induction fuel with
  | zero =>
    intro c h hf hh
    omega
  | succ fuel ih =>
    intro c h hf hh hl hA hC
    unfold adjust_descend
    by_cases hc : h < (len - 1) / 2
    · simp only [hc, ↓reduceIte]
      obtain ⟨k, hk, hk1, hS⟩ := adjust_descend_child len c h
      rw [hk]
      obtain ⟨hA', hC'⟩ := move_child_keyLe len c h k (by omega) (by omega) hl (by omega) hA hC hS
      exact ih (c.set h (deref c k)) k (by omega) (by omega)
        (by rw [List.length_set]; exact hl) hA' (fun _ => hC')
    · rw [if_neg hc]
      exact ⟨hA, hC⟩

theorem adjust_heap_shape (len : Nat) (c : List Node) (v : Node) (h1 : 1 ≤ len)
    (hl : len ≤ c.length) :
    (__adjust_heap c 0 len v).length = c.length
    ∧ (__adjust_heap c 0 len v).Perm (c.set 0 v)
    ∧ ∀ j, len ≤ j → deref (__adjust_heap c 0 len v) j = deref c j := by
  obtain ⟨i1, i2, i3, i6, i7⟩ := adjust_descend_shape len len c 0 (by omega) (by omega) hl
  unfold __adjust_heap
  rcases hd : adjust_descend len len c 0 with ⟨c', h'⟩
  rw [hd] at i1 i2 i3 i6 i7
  simp only at i1 i2 i3 i6 i7 ⊢
  split
  · rename_i hs
    have hk : 2 * (h' + 1) - 1 < len := by omega
    refine ⟨by rw [push_heap_length, List.length_set, i1], ?_, ?_⟩
    · refine (push_heap_perm v 0 _ _ _ (by rw [List.length_set]; omega)).trans ?_
      exact (set_set_perm c' h' _ v (by omega) (by omega) (by omega)).trans (i6 v)
    · intro j hj
      rw [push_heap_deref_above v 0 _ _ _ j (by omega), deref_set_ne c' h' j _ (by omega), i7 j hj]
  · refine ⟨by rw [push_heap_length, i1], ?_, ?_⟩
    · exact (push_heap_perm v 0 _ _ _ (by omega)).trans (i6 v)
    · intro j hj
      rw [push_heap_deref_above v 0 _ _ _ j (by omega), i7 j hj]

theorem adjust_heap_keyLe (len : Nat) (c : List Node) (v : Node) (h1 : 1 ≤ len)
    (hl : len ≤ c.length)
    (hA : ∀ i, 0 < i → i < len → (i - 1) / 2 ≠ 0 → (deref c ((i - 1) / 2)).keyLe (deref c i)) :
    ∀ i, 0 < i → i < len →
      (deref (__adjust_heap c 0 len v) ((i - 1) / 2)).keyLe (deref (__adjust_heap c 0 len v) i) := by
  obtain ⟨i1, i2, i3, -, -⟩ := adjust_descend_shape len len c 0 (by omega) (by omega) hl
  obtain ⟨i4, i5⟩ := adjust_descend_keyLe len len c 0 (by omega) (by omega) hl
    (fun i hi0 hil _ hp => hA i hi0 hil hp) (fun h => absurd h (by omega))
  unfold __adjust_heap
  rcases hd : adjust_descend len len c 0 with ⟨c', h'⟩
  rw [hd] at i1 i2 i3 i4 i5
  simp only at i1 i2 i3 i4 i5 ⊢
  split
  · rename_i hs
    have hk : 2 * (h' + 1) - 1 < len := by omega
    obtain ⟨hA', hC'⟩ := move_child_keyLe len c' h' (2 * (h' + 1) - 1) (by omega) hk
      (by omega) (by omega) i4 i5 (fun i hi0 hil hp hik => by omega)
    exact push_heap_keyLe len v _ _ _ (le_refl _) hk (by rw [List.length_set]; omega) hA'
      (fun i hi0 hil hp => by omega) (fun _ => hC')
  · rename_i hs
    exact push_heap_keyLe len v _ _ _ (le_refl _) i2 (by omega) i4
      (fun i hi0 hil hp => by omega) (fun _ i hi0 hil hp => by omega)

theorem deref_append_left (q : List Node) (l : List Node) (i : Nat) (h : i < q.length) :
    deref (q ++ l) i = deref q i := by
  unfold deref
  rw [List.getD_eq_getElem?_getD, List.getD_eq_getElem?_getD, List.getElem?_append_left h]

theorem deref_concat_length (q : List Node) (x : Node) : deref (q ++ [x]) q.length = x := by
  unfold deref
  rw [List.getD_eq_getElem?_getD]
  simp

theorem deref_dropLast (r : List Node) (i : Nat) (h : i + 1 < r.length) :
    deref r.dropLast i = deref r i := by
  unfold deref
  rw [List.getD_eq_getElem?_getD, List.getD_eq_getElem?_getD, List.dropLast_eq_take,
    List.getElem?_take_of_lt (by omega)]

theorem set_deref_self (c : List Node) (i : Nat) : c.set i (deref c i) = c := by
  apply List.ext_getElem?
  intro j
  rw [List.getElem?_set]
  by_cases h : i = j
  · subst h
    by_cases h2 : i < c.length
    · simp [h2, deref, List.getD_eq_getElem?_getD, List.getElem?_eq_getElem h2]
    · simp [h2]
      omega
  · simp [h]

theorem eq_dropLast_append_deref (r : List Node) (h : r ≠ []) :
    r = r.dropLast ++ [deref r (r.length - 1)] := by
  have h1 : deref r (r.length - 1) = r.getLast h := by
    unfold deref
    rw [List.getD_eq_getElem?_getD, List.getLast_eq_getElem,
      List.getElem?_eq_getElem (by have := List.length_pos.2 h; omega)]
    rfl
  rw [h1, List.dropLast_append_getLast]

/-- The bound on the iterations of `__push_heap` is never reached: every bound from the hole
index on gives the same vector. -/
theorem push_heap_fuel (v : Node) (top : Nat) : ∀ (fuel1 fuel2 : Nat) (c : List Node) (h : Nat),
    h ≤ fuel1 → h ≤ fuel2 → __push_heap c h top v fuel1 = __push_heap c h top v fuel2 := by
  intro fuel1
  induction fuel1 with
  | zero =>
    intro fuel2 c h h1 _
    have h0 : h = 0 := by omega
    subst h0
    cases fuel2 with
    | zero => rfl
    | succ j =>
      unfold __push_heap
      simp
  | succ k ih =>
    intro fuel2 c h h1 h2
    cases fuel2 with
    | zero =>
      have h0 : h = 0 := by omega
      subst h0
      unfold __push_heap
      simp
    | succ j =>
      rw [__push_heap, __push_heap]
      split
      · rename_i hc
        exact ih j _ _ (by omega) (by omega)
      · rfl

/-- The bound on the iterations of the loop of `__adjust_heap` is never reached: every bound
from `len - holeIndex` on gives the same result. -/
theorem adjust_descend_fuel (len : Nat) : ∀ (fuel1 fuel2 : Nat) (c : List Node) (h : Nat),
    len ≤ h + fuel1 → len ≤ h + fuel2 →
    adjust_descend len fuel1 c h = adjust_descend len fuel2 c h := by
  intro fuel1
  induction fuel1 with
  | zero =>
    intro fuel2 c h h1 _
    cases fuel2 with
    | zero => rfl
    | succ j =>
      unfold adjust_descend
      rw [if_neg (by omega)]
  | succ k ih =>
    intro fuel2 c h h1 h2
    cases fuel2 with
    | zero =>
      unfold adjust_descend
      rw [if_neg (by omega)]
    | succ j =>
      rw [adjust_descend, adjust_descend]
      split
      · rename_i hc
        obtain ⟨x, hx, hx1, -⟩ := adjust_descend_child len c h
        simp only [hx]
        exact ih j _ _ (by omega) (by omega)
      · rfl

theorem PQ.push_length (q : PQ) (x : Node) : (PQ.push q x).length = q.length + 1 := by
  unfold PQ.push push_heap
  simp only [push_heap_length, List.length_append, List.length_singleton]

theorem PQ.push_perm (q : PQ) (x : Node) : (PQ.push q x).Perm (x :: q) := by
  unfold PQ.push push_heap
  simp only [List.length_append, List.length_singleton, Nat.add_sub_cancel]
  refine (push_heap_perm _ 0 _ _ _ (by simp)).trans ?_
  rw [set_deref_self]
  exact List.perm_append_singleton _ _

theorem PQ.isHeap_nil : PQ.IsHeap [] := by
  intro i hi
  simp at hi

theorem PQ.push_isHeap (q : PQ) (x : Node) (hq : PQ.IsHeap q) : PQ.IsHeap (PQ.push q x) := by
  intro i hil hi0
  rw [PQ.push_length] at hil
  rw [Cmp_eq_false_iff]
  unfold PQ.push push_heap
  simp only [List.length_append, List.length_singleton, Nat.add_sub_cancel]
  rw [deref_concat_length]
  apply push_heap_keyLe (q.length + 1) x q.length (q ++ [x]) q.length (le_refl _) (by omega)
    (by simp) ?_ ?_ ?_ i hi0 hil
  · intro i hi0 hil hi1 hi2
    rw [deref_append_left q _ i (by omega), deref_append_left q _ _ (by omega)]
    exact (Cmp_eq_false_iff _ _).1 (hq i (by omega) hi0)
  · intro i hi0 hil hp
    omega
  · intro _ i hi0 hil hp
    omega

theorem PQ.pop_eq (q : PQ) (h : 1 < q.length) :
    PQ.pop q = (__adjust_heap (q.set (q.length - 1) (deref q 0)) 0 (q.length - 1)
      (deref q (q.length - 1))).dropLast := by
  unfold PQ.pop pop_heap __pop_heap
  rw [if_pos h]

theorem PQ.top_eq (q : PQ) (h : q ≠ []) : PQ.top q = some (deref q 0) := by
  cases q with
  | nil => exact absurd rfl h
  | cons x xs => rfl

theorem PQ.top_pop (q : PQ) (h : q ≠ []) :
    ∃ a, PQ.top q = some a ∧ List.Perm q (a :: PQ.pop q) := by
  refine ⟨deref q 0, PQ.top_eq q h, ?_⟩
  have hpos := List.length_pos.2 h
  by_cases h1 : 1 < q.length
  · rw [PQ.pop_eq q h1]
    obtain ⟨s1, s2, s3⟩ := adjust_heap_shape (q.length - 1) (q.set (q.length - 1) (deref q 0))
      (deref q (q.length - 1)) (by omega) (by rw [List.length_set]; omega)
    generalize __adjust_heap (q.set (q.length - 1) (deref q 0)) 0 (q.length - 1)
      (deref q (q.length - 1)) = r at s1 s2 s3
    rw [List.length_set] at s1
    have hr : r ≠ [] := by
      intro h0; rw [h0] at s1; simp at s1; omega
    have hlast : deref r (r.length - 1) = deref q 0 := by
      rw [s1, s3 _ (le_refl _), deref_set_eq _ _ _ (by omega)]
    have hq : List.Perm q r := by
      refine List.Perm.symm (s2.trans ?_)
      have := set_set_perm q (q.length - 1) 0 (deref q (q.length - 1)) (by omega) (by omega)
        (by omega)
      rw [set_deref_self] at this
      exact this
    refine hq.trans ?_
    have := eq_dropLast_append_deref r hr
    rw [hlast] at this
    rw [this]
    simp only [List.dropLast_concat]
    exact List.perm_append_singleton _ _
  · match q, h, h1 with
    | [x], _, _ => exact List.Perm.refl _
    | _ :: _ :: _, _, h1 => simp at h1

theorem PQ.pop_isHeap (q : PQ) (hq : PQ.IsHeap q) : PQ.IsHeap (PQ.pop q) := by
  by_cases h1 : 1 < q.length
  · rw [PQ.pop_eq q h1]
    obtain ⟨s1, -, -⟩ := adjust_heap_shape (q.length - 1) (q.set (q.length - 1) (deref q 0))
      (deref q (q.length - 1)) (by omega) (by rw [List.length_set]; omega)
    have hk := adjust_heap_keyLe (q.length - 1) (q.set (q.length - 1) (deref q 0))
      (deref q (q.length - 1)) (by omega) (by rw [List.length_set]; omega) (by
        intro i hi0 hil _
        rw [deref_set_ne _ _ _ _ (by omega), deref_set_ne _ _ _ _ (by omega)]
        exact (Cmp_eq_false_iff _ _).1 (hq i (by omega) hi0))
    generalize __adjust_heap (q.set (q.length - 1) (deref q 0)) 0 (q.length - 1)
      (deref q (q.length - 1)) = r at s1 hk
    rw [List.length_set] at s1
    intro i hil hi0
    rw [List.length_dropLast, s1] at hil
    rw [Cmp_eq_false_iff, deref_dropLast r _ (by omega), deref_dropLast r _ (by omega)]
    exact hk i hi0 hil
  · have : PQ.pop q = [] := by
      match q, h1 with
      | [], _ => rfl
      | [x], _ => rfl
      | _ :: _ :: _, h1 => simp at h1
    rw [this]
    exact PQ.isHeap_nil

theorem PQ.isHeap_root (q : PQ) (hq : PQ.IsHeap q) :
    ∀ i, i < q.length → (deref q 0).keyLe (deref q i) := by
  intro i
  induction i using Nat.strong_induction_on with
  | _ i ih =>
    intro hi
    by_cases h0 : i = 0
    · subst h0; exact Node.keyLe_refl _
    · exact Node.keyLe_trans (ih ((i - 1) / 2) (by omega) (by omega))
        ((Cmp_eq_false_iff _ _).1 (hq i hi (by omega)))

theorem PQ.top_min (q : PQ) (a : Node) (hq : PQ.IsHeap q) (h : PQ.top q = some a) :
    ∀ y ∈ q, a.keyLe y := by
  have hne : q ≠ [] := by
    intro h0; rw [h0] at h; exact Option.noConfusion h
  rw [PQ.top_eq q hne] at h
  cases h
  intro y hy
  obtain ⟨i, hi, rfl⟩ := List.getElem_of_mem hy
  have := PQ.isHeap_root q hq i hi
  unfold deref at this ⊢
  rw [List.getD_eq_getElem _ _ hi] at this
  exact this

/-! ## The queue is filled as a heap with the leaves of the table -/

theorem fillQueue_foldl (freq : FreqTable) (l : List Byte) (q : PQ) :
    (l.foldl (fun pq b => if freq.get b > 0 then PQ.push pq (Node.leaf (b.val : Int) (freq.get b))
        else pq) q).Perm
      (q ++ (l.filter (fun b => decide (freq.get b > 0))).map
          (fun b => Node.leaf (b.val : Int) (freq.get b))) := by
  induction l generalizing q with
  | nil => simp
  | cons a l ih =>
    rw [List.foldl_cons]
    refine (ih _).trans ?_
    by_cases h : freq.get a > 0
    · simp only [h, ↓reduceIte, List.filter_cons, decide_True, List.map_cons]
      refine (List.Perm.append_right _ (PQ.push_perm q _)).trans ?_
      simp only [List.cons_append]
      exact List.perm_middle.symm
    · simp only [h, ↓reduceIte, List.filter_cons, decide_False]
      exact List.Perm.refl _

/-- The queue after the fill loop holds, in the order of the heap, the leaves of the byte values
with a nonzero entry. -/
theorem fillQueue_perm (freq : FreqTable) :
    (fillQueue freq).Perm
      ((presentSymbols freq).map (fun b => Node.leaf (b.val : Int) (freq.get b))) := by
  have h := fillQueue_foldl freq (List.finRange 256) []
  rw [List.nil_append] at h
  exact h

theorem fillQueue_isHeap_foldl (freq : FreqTable) (l : List Byte) (q : PQ) (hq : PQ.IsHeap q) :
    PQ.IsHeap (l.foldl (fun pq b =>
      if freq.get b > 0 then PQ.push pq (Node.leaf (b.val : Int) (freq.get b)) else pq) q) := by
  induction l generalizing q with
  | nil => exact hq
  | cons a l ih =>
    rw [List.foldl_cons]
    apply ih
    split
    · exact PQ.push_isHeap q _ hq
    · exact hq

/-- The queue after the fill loop is a heap. -/
theorem fillQueue_isHeap (freq : FreqTable) : PQ.IsHeap (fillQueue freq) :=
  fillQueue_isHeap_foldl freq (List.finRange 256) [] PQ.isHeap_nil

theorem Node.leaves_merge (a b : Node) : (Node.merge a b).leaves = a.leaves ++ b.leaves := rfl

theorem Node.leaves_ne_nil (n : Node) : n.leaves ≠ [] := by
  induction n with
  | leaf s f => simp [Node.leaves]
  | inner f l r ihl _ => simp [Node.leaves, ihl]

theorem mergeLoop_spec (fuel : Nat) (q : PQ) (hq : q ≠ []) (hf : q.length ≤ fuel + 1) :
    ∃ r, mergeLoop fuel q = some [r] ∧ List.Perm r.leaves (q.flatMap Node.leaves) := by
  induction fuel generalizing q with
  | zero =>
    match q, hq, hf with
    | [r], _, _ => exact ⟨r, by simp [mergeLoop], by simp⟩
    | _ :: _ :: _, _, hf => simp at hf
  | succ fuel ih =>
    match q, hq, hf with
    | [r], _, _ => exact ⟨r, by simp [mergeLoop], by simp⟩
    | x :: y :: ys, _, hf =>
      obtain ⟨a, ha, hpa⟩ := PQ.top_pop (x :: y :: ys) (by simp)
      have hlen1 : (PQ.pop (x :: y :: ys)).length = ys.length + 1 := by
        have := hpa.length_eq; simp at this; omega
      have hne1 : PQ.pop (x :: y :: ys) ≠ [] := by
        intro h; rw [h] at hlen1; simp at hlen1
      obtain ⟨b, hb, hpb⟩ := PQ.top_pop _ hne1
      have hlen2 : (PQ.pop (PQ.pop (x :: y :: ys))).length = ys.length := by
        have := hpb.length_eq; simp at this; omega
      obtain ⟨r, hr, hpr⟩ := ih (PQ.push (PQ.pop (PQ.pop (x :: y :: ys))) (Node.merge a b))
        (by intro h0; have := PQ.push_length (PQ.pop (PQ.pop (x :: y :: ys))) (Node.merge a b)
            rw [h0] at this; simp at this)
        (by rw [PQ.push_length, hlen2]; simp at hf; omega)
      refine ⟨r, ?_, ?_⟩
      · rw [mergeLoop]
        simp only [List.length_cons, gt_iff_lt, Nat.lt_add_left_iff_pos, Nat.zero_lt_succ, ↓reduceIte, ha, hb,
          Option.bind_eq_bind, Option.some_bind]
        exact hr
      · refine hpr.trans ?_
        have h1 : List.Perm ((x :: y :: ys).flatMap Node.leaves)
            ((a :: b :: PQ.pop (PQ.pop (x :: y :: ys))).flatMap Node.leaves) :=
          List.Perm.flatMap_right _ (hpa.trans (List.Perm.cons a hpb))
        refine List.Perm.trans ?_ h1.symm
        refine (List.Perm.flatMap_right _ (PQ.push_perm _ _)).trans ?_
        simp only [List.flatMap_cons, Node.leaves_merge, List.append_assoc]
        exact List.Perm.refl _

/-! ## Code assignment -/

/-- The turns before the subtree are a common prefix of its paths. -/
theorem Node.paths_pre (n : Node) (pre : List Bool) :
    n.paths pre = (n.paths []).map (fun p => (p.1, pre ++ p.2)) := by
  induction n generalizing pre with
  | leaf s f => simp [Node.paths]
  | inner f l r ihl ihr =>
    simp only [Node.paths, List.nil_append, List.map_append]
    rw [ihl (pre ++ [false]), ihr (pre ++ [true]), ihl [false], ihr [true]]
    simp [List.map_map, Function.comp_def]

theorem Node.paths_fst (n : Node) (pre : List Bool) :
    (n.paths pre).map Prod.fst = n.leaves.map Prod.fst := by
  induction n generalizing pre with
  | leaf s f => simp [Node.paths, Node.leaves]
  | inner f l r ihl ihr => simp [Node.paths, Node.leaves, ihl, ihr]

theorem buildCodes_eq (n : Node) (codes : CodeTable) (tmp : List Bool) (h : tmp ≠ []) :
    buildCodes n (codes, tmp)
      = ((n.paths tmp).foldl (fun c p => Function.update c p.1 p.2) codes, tmp) := by
  induction n generalizing codes tmp with
  | leaf s f =>
    cases tmp with
    | nil => exact absurd rfl h
    | cons b bs => simp [buildCodes, Node.paths]
  | inner f l r ihl ihr =>
    simp only [buildCodes, Node.paths, List.foldl_append]
    rw [ihl _ _ (by simp)]
    simp only [List.dropLast_concat]
    rw [ihr _ _ (by simp)]
    simp only [List.dropLast_concat]

theorem buildCodes_inner (f : Nat) (l r : Node) (codes : CodeTable) (tmp : List Bool) :
    buildCodes (Node.inner f l r) (codes, tmp)
      = (((Node.inner f l r).paths tmp).foldl (fun c p => Function.update c p.1 p.2) codes,
          tmp) := by
  simp only [buildCodes, Node.paths, List.foldl_append]
  rw [buildCodes_eq _ _ _ (by simp)]
  simp only [List.dropLast_concat]
  rw [buildCodes_eq _ _ _ (by simp)]
  simp only [List.dropLast_concat]

theorem foldl_update_not_mem {α β : Type} [DecidableEq α] (ps : List (α × β)) (c : α → β) (s : α)
    (h : s ∉ ps.map Prod.fst) :
    (ps.foldl (fun c p => Function.update c p.1 p.2) c) s = c s := by
  induction ps generalizing c with
  | nil => rfl
  | cons p ps ih =>
    simp only [List.map_cons, List.mem_cons, not_or] at h
    rw [List.foldl_cons, ih _ h.2, Function.update_noteq h.1]

theorem foldl_update_mem {α β : Type} [DecidableEq α] (ps : List (α × β)) (c : α → β) (s : α)
    (v : β) (hnd : (ps.map Prod.fst).Nodup) (h : (s, v) ∈ ps) :
    (ps.foldl (fun c p => Function.update c p.1 p.2) c) s = v := by
  induction ps generalizing c with
  | nil => simp at h
  | cons p ps ih =>
    simp only [List.map_cons, List.nodup_cons] at hnd
    rw [List.foldl_cons]
    rcases List.mem_cons.1 h with h | h
    · subst h
      rw [foldl_update_not_mem _ _ _ hnd.1, Function.update_same]
    · exact ih _ hnd.2 h

/-- A code is a prefix of another code of the same tree only if the two are the same leaf. -/
theorem Node.paths_prefix_free (n : Node) :
    (n.paths []).Pairwise (fun p q => ¬ p.2 <+: q.2 ∧ ¬ q.2 <+: p.2) := by
  induction n with
  | leaf s f => simp [Node.paths]
  | inner f l r ihl ihr =>
    simp only [Node.paths, List.nil_append]
    rw [Node.paths_pre l, Node.paths_pre r, List.pairwise_append]
    refine ⟨?_, ?_, ?_⟩
    · rw [List.pairwise_map]
      refine ihl.imp ?_
      intro p q hpq
      simpa [List.prefix_cons_inj] using hpq
    · rw [List.pairwise_map]
      refine ihr.imp ?_
      intro p q hpq
      simpa [List.prefix_cons_inj] using hpq
    · intro p hp q hq
      simp only [List.mem_map] at hp hq
      obtain ⟨p', _, rfl⟩ := hp
      obtain ⟨q', _, rfl⟩ := hq
      simp [List.cons_prefix_cons]

/-! ## The bit walk -/

theorem walkList_append (root : Node) (xs ys : List Bool) (st : Node × List Byte) :
    walkList root (xs ++ ys) st = (walkList root xs st).bind (walkList root ys) := by
  induction xs generalizing st with
  | nil => simp [walkList]
  | cons b xs ih =>
    obtain ⟨curr, out⟩ := st
    simp only [List.cons_append, walkList]
    split
    · rfl
    · split <;> exact ih _

theorem walkBits_eq (root : Node) (totalBits : Nat) (byte : Byte) (k : Nat) (st : WalkState) :
    walkBits root totalBits byte k st
      = (walkList root ((lowBits byte k).take (totalBits - st.bitsRead)) (st.curr, st.out)).map
          (fun r => ⟨r.1, st.bitsRead + min k (totalBits - st.bitsRead), r.2⟩) := by
  induction k generalizing st with
  | zero => simp [walkBits, lowBits, walkList]
  | succ i ih =>
    unfold walkBits
    by_cases h : st.bitsRead < totalBits
    · obtain ⟨n, hn⟩ : ∃ n, totalBits - st.bitsRead = n + 1 := ⟨totalBits - st.bitsRead - 1, by omega⟩
      simp only [h, ↓reduceIte, hn, lowBits, List.take_succ_cons, walkList, decide_eq_true_eq]
      split
      · rfl
      · rename_i c hc
        have hn' : totalBits - (st.bitsRead + 1) = n := by omega
        split
        · rw [ih]; simp only [hn']
          congr 1; funext r; congr 1; omega
        · rw [ih]; simp only [hn']
          congr 1; funext r; congr 1; omega
    · have h0 : totalBits - st.bitsRead = 0 := by omega
      simp [h, h0, walkList]

theorem walkBytes_eq (root : Node) (totalBits : Nat) (bytes : List Byte) (st : WalkState) :
    walkBytes root totalBits bytes st
      = (walkList root ((bitsOfBytes bytes).take (totalBits - st.bitsRead)) (st.curr, st.out)).map
          (fun r => ⟨r.1, st.bitsRead + min (8 * bytes.length) (totalBits - st.bitsRead), r.2⟩) := by
  induction bytes generalizing st with
  | nil => simp [walkBytes, bitsOfBytes, walkList]
  | cons b bs ih =>
    unfold walkBytes
    have hlen : (bitsOfByte b).length = 8 := rfl
    by_cases h : st.bitsRead < totalBits
    · simp only [h, ↓reduceIte, walkBits_eq]
      have hsplit : (bitsOfBytes (b :: bs)).take (totalBits - st.bitsRead)
          = (lowBits b 8).take (totalBits - st.bitsRead)
            ++ (bitsOfBytes bs).take (totalBits - st.bitsRead - 8) := by
        simp only [bitsOfBytes, List.flatMap_cons, List.take_append_eq_append_take, hlen]
        rfl
      rw [hsplit, walkList_append]
      cases hw : walkList root ((lowBits b 8).take (totalBits - st.bitsRead)) (st.curr, st.out) with
      | none => simp
      | some r =>
        simp only [Option.map_some', Option.some_bind]
        rw [ih]
        have h8 : totalBits - (st.bitsRead + min 8 (totalBits - st.bitsRead))
            = totalBits - st.bitsRead - 8 := by omega
        simp only [h8]
        congr 1; funext r; congr 1
        simp only [List.length_cons]; omega
    · have h0 : totalBits - st.bitsRead = 0 := by omega
      simp [h, h0, walkList]

@[simp] theorem Node.isLeaf_leaf (s : Int) (f : Nat) : (Node.leaf s f).isLeaf = true := rfl

@[simp] theorem Node.isLeaf_inner (f : Nat) (l r : Node) : (Node.inner f l r).isLeaf = false := rfl

theorem symbolByte_val (b : Byte) : symbolByte (b.val : Int) = b := by
  unfold symbolByte
  have h : ((b.val : Int) % 256).toNat = b.val := by
    have := b.isLt
    omega
  rw [h]
  apply Fin.ext
  simp [Fin.ofNat, Nat.mod_eq_of_lt b.isLt]

/-- Walking the turns that lead to a leaf, from an internal node, puts the symbol of that leaf
and returns to the root. -/
theorem walkList_path (root n : Node) (p : List Bool) (s : Int) (out : List Byte)
    (hp : (s, p) ∈ n.paths []) (hn : n.isLeaf = false) :
    walkList root p (n, out) = some (root, out ++ [symbolByte s]) := by
  induction n generalizing p with
  | leaf s' f => simp at hn
  | inner f l r ihl ihr =>
    simp only [Node.paths, List.nil_append, List.mem_append] at hp
    rcases hp with hp | hp
    · rw [Node.paths_pre] at hp
      simp only [List.mem_map, Prod.mk.injEq] at hp
      obtain ⟨⟨s', p'⟩, hmem, rfl, rfl⟩ := hp
      simp only [List.singleton_append, walkList, Bool.false_eq_true, ↓reduceIte, Node.left]
      cases l with
      | leaf sl fl =>
        simp only [Node.paths, List.mem_singleton, Prod.mk.injEq] at hmem
        obtain ⟨rfl, rfl⟩ := hmem
        simp [walkList, Node.symbol]
      | inner fl ll lr =>
        simp only [Node.isLeaf_inner, Bool.false_eq_true, ↓reduceIte]
        exact ihl _ hmem rfl
    · rw [Node.paths_pre] at hp
      simp only [List.mem_map, Prod.mk.injEq] at hp
      obtain ⟨⟨s', p'⟩, hmem, rfl, rfl⟩ := hp
      simp only [List.singleton_append, walkList, ↓reduceIte, Node.right]
      cases r with
      | leaf sr fr =>
        simp only [Node.paths, List.mem_singleton, Prod.mk.injEq] at hmem
        obtain ⟨rfl, rfl⟩ := hmem
        simp [walkList, Node.symbol]
      | inner fr rl rr =>
        simp only [Node.isLeaf_inner, Bool.false_eq_true, ↓reduceIte]
        exact ihr _ hmem rfl

/-- Walking the concatenated codes of `data` from the root puts `data`. -/
theorem walkList_codeBits (root : Node) (codes : CodeTable) (data : List Byte) (out : List Byte)
    (hroot : root.isLeaf = false)
    (hcodes : ∀ b ∈ data, ((b.val : Int), codes (b.val : Int)) ∈ root.paths []) :
    walkList root (codeBits codes data) (root, out) = some (root, out ++ data) := by
  induction data generalizing out with
  | nil => simp [codeBits, walkList]
  | cons b bs ih =>
    have hb := hcodes b (List.mem_cons_self _ _)
    have : codeBits codes (b :: bs) = codes (b.val : Int) ++ codeBits codes bs := by
      simp [codeBits]
    rw [this, walkList_append, walkList_path root root _ _ out hb hroot]
    simp only [Option.some_bind]
    rw [ih _ (fun c hc => hcodes c (List.mem_cons_of_mem _ hc)), symbolByte_val]
    simp

/-! ## Bit packing -/

theorem bitsOfByte_shiftIn (b0 b1 b2 b3 b4 b5 b6 b7 : Bool) :
    bitsOfByte (Fin.ofNat (shiftIn 0 [b0, b1, b2, b3, b4, b5, b6, b7]))
      = [b0, b1, b2, b3, b4, b5, b6, b7] := by
  revert b0 b1 b2 b3 b4 b5 b6 b7
  decide

theorem bitsOfByte_shiftIn_eight (p : List Bool) (h : p.length = 8) :
    bitsOfByte (Fin.ofNat (shiftIn 0 p)) = p := by
  match p, h with
  | [b0, b1, b2, b3, b4, b5, b6, b7], _ => exact bitsOfByte_shiftIn b0 b1 b2 b3 b4 b5 b6 b7

theorem bitsOfByte_flush (p : List Bool) (h0 : 0 < p.length) (h8 : p.length < 8) :
    bitsOfByte (Fin.ofNat ((shiftIn 0 p <<< (8 - p.length)) % 256))
      = p ++ List.replicate (8 - p.length) false := by
  match p, h0, h8 with
  | [b0], _, _ => revert b0; decide
  | [b0, b1], _, _ => revert b0 b1; decide
  | [b0, b1, b2], _, _ => revert b0 b1 b2; decide
  | [b0, b1, b2, b3], _, _ => revert b0 b1 b2 b3; decide
  | [b0, b1, b2, b3, b4], _, _ => revert b0 b1 b2 b3 b4; decide
  | [b0, b1, b2, b3, b4, b5], _, _ => revert b0 b1 b2 b3 b4 b5; decide
  | [b0, b1, b2, b3, b4, b5, b6], _, _ => revert b0 b1 b2 b3 b4 b5 b6; decide
  | _ :: _ :: _ :: _ :: _ :: _ :: _ :: _ :: _, _, h8 => simp at h8; omega

theorem shiftIn_concat (o : Nat) (p : List Bool) (c : Bool) :
    shiftIn o (p ++ [c])
      = if c then ((shiftIn o p <<< 1) % 256) ||| 1 else (shiftIn o p <<< 1) % 256 := by
  simp [shiftIn, List.foldl_append]

theorem bitsOfBytes_append (xs ys : List Byte) :
    bitsOfBytes (xs ++ ys) = bitsOfBytes xs ++ bitsOfBytes ys := by
  simp [bitsOfBytes]

theorem bitsOfBytes_length (xs : List Byte) : (bitsOfBytes xs).length = 8 * xs.length := by
  induction xs with
  | nil => rfl
  | cons x xs ih =>
    have : bitsOfBytes (x :: xs) = bitsOfByte x ++ bitsOfBytes xs := rfl
    rw [this, List.length_append, ih]
    have : (bitsOfByte x).length = 8 := rfl
    rw [this, List.length_cons]; omega

/-- The packer keeps the bits: the bytes put, followed by the bits waiting in `outByte`, are the
bits packed so far. -/
theorem packBit_foldl (bits : List Bool) (st : PackState) (p : List Bool)
    (hc : st.bitCount = p.length) (h8 : p.length < 8) (ho : st.outByte = shiftIn 0 p) :
    ∃ q : List Bool, (bits.foldl packBit st).bitCount = q.length ∧ q.length < 8
      ∧ (bits.foldl packBit st).outByte = shiftIn 0 q
      ∧ bitsOfBytes (bits.foldl packBit st).out ++ q = bitsOfBytes st.out ++ p ++ bits := by
  induction bits generalizing st p with
  | nil => exact ⟨p, hc, h8, ho, by simp⟩
  | cons c bits ih =>
    rw [List.foldl_cons]
    have hstep : (if c then ((st.outByte <<< 1) % 256) ||| 1 else (st.outByte <<< 1) % 256)
        = shiftIn 0 (p ++ [c]) := by rw [shiftIn_concat, ho]
    by_cases hfull : p.length + 1 = 8
    · have hpb : packBit st c = ⟨st.out ++ [Fin.ofNat (shiftIn 0 (p ++ [c]))], 0, 0⟩ := by
        unfold packBit
        simp only [hc, hfull, ↓reduceIte]
        rw [← hstep]
      obtain ⟨q, h1, h2, h3, h4⟩ := ih (packBit st c) [] (by rw [hpb]; rfl) (by simp)
        (by rw [hpb]; rfl)
      refine ⟨q, h1, h2, h3, ?_⟩
      have : bitsOfBytes [Fin.ofNat (shiftIn 0 (p ++ [c]))] = p ++ [c] := by
        simp only [bitsOfBytes, List.flatMap_cons, List.flatMap_nil, List.append_nil]
        exact bitsOfByte_shiftIn_eight _ (by simp [hfull])
      rw [h4, hpb]
      show bitsOfBytes (st.out ++ [Fin.ofNat (shiftIn 0 (p ++ [c]))]) ++ [] ++ bits = _
      rw [bitsOfBytes_append, this]
      simp only [List.append_nil, List.append_assoc, List.singleton_append]
    · have hpb : packBit st c = ⟨st.out, shiftIn 0 (p ++ [c]), p.length + 1⟩ := by
        unfold packBit
        simp only [hc, hfull, ↓reduceIte]
        rw [← hstep]
      obtain ⟨q, h1, h2, h3, h4⟩ := ih (packBit st c) (p ++ [c]) (by rw [hpb]; simp)
        (by simp; omega) (by rw [hpb])
      refine ⟨q, h1, h2, h3, ?_⟩
      rw [h4, hpb]
      simp

theorem foldl_codes_eq (codes : CodeTable) (data : List Byte) (st : PackState) :
    data.foldl (fun st b => (codes (b.val : Int)).foldl packBit st) st
      = (codeBits codes data).foldl packBit st := by
  induction data generalizing st with
  | nil => rfl
  | cons b bs ih =>
    have : codeBits codes (b :: bs) = codes (b.val : Int) ++ codeBits codes bs := by
      simp [codeBits]
    rw [this, List.foldl_append, List.foldl_cons, ih]

/-- The bits of the payload are the concatenated codes followed by zero bits up to the next byte
boundary. -/
theorem bitsOfBytes_packData (codes : CodeTable) (data : List Byte) :
    bitsOfBytes (packData codes data)
      = codeBits codes data
        ++ List.replicate ((8 - (codeBits codes data).length % 8) % 8) false := by
  unfold packData
  simp only [foldl_codes_eq]
  obtain ⟨q, h1, h2, h3, h4⟩ := packBit_foldl (codeBits codes data) ⟨[], 0, 0⟩ [] rfl (by simp) rfl
  generalize (codeBits codes data).foldl packBit ⟨[], 0, 0⟩ = st at h1 h3 h4 ⊢
  have h4' : bitsOfBytes st.out ++ q = codeBits codes data := by
    rw [h4]; rfl
  have hlen := congrArg List.length h4'
  rw [List.length_append, bitsOfBytes_length] at hlen
  by_cases hq : 0 < q.length
  · have hcnt : st.bitCount > 0 := by rw [h1]; exact hq
    simp only [hcnt, ↓reduceIte]
    have hx : bitsOfBytes [Fin.ofNat ((st.outByte <<< (8 - st.bitCount)) % 256)]
        = q ++ List.replicate (8 - q.length) false := by
      simp only [bitsOfBytes, List.flatMap_cons, List.flatMap_nil, List.append_nil]
      rw [h1, h3]
      exact bitsOfByte_flush q hq h2
    rw [bitsOfBytes_append, hx, ← List.append_assoc, h4']
    have hpad : (8 - (codeBits codes data).length % 8) % 8 = 8 - q.length := by omega
    rw [hpad]
  · have hq0 : q = [] := List.length_eq_zero.1 (by omega)
    subst hq0
    have hcnt : ¬ st.bitCount > 0 := by rw [h1]; simp
    simp only [hcnt, ↓reduceIte]
    rw [List.append_nil] at h4'
    have hpad : (8 - (codeBits codes data).length % 8) % 8 = 0 := by
      simp only [List.length_nil] at hlen; omega
    rw [hpad, h4']
    simp

/-! ## The header -/

theorem ofNat_val (v : Nat) : ((Fin.ofNat v : Byte) : Nat) = v % 256 := rfl

theorem read_write_uint16 (v : Nat) (rest : List Byte) (hv : v < U16) :
    read_uint16 (write_uint16 v ++ rest) = some (v, rest) := by
  simp only [write_uint16, read_uint16, List.cons_append, List.nil_append, ofNat_val, Option.some.injEq,
    Prod.mk.injEq, and_true]
  simp only [U16] at hv
  omega

theorem read_write_uint64 (v : Nat) (rest : List Byte) (hv : v < U64) :
    read_uint64 (write_uint64 v ++ rest) = some (v, rest) := by
  simp only [write_uint64, read_uint64, List.cons_append, List.nil_append, ofNat_val, Option.some.injEq,
    Prod.mk.injEq, and_true]
  simp only [U64] at hv
  norm_num
  omega

theorem readMagic_magic (rest : List Byte) : readMagic (magic ++ rest) = some (magic, rest) := rfl

theorem writeEntries_aux (freq : FreqTable) (l : List Byte) :
    l.foldl (fun out i => if freq.get i > 0 then out ++ [i] ++ write_uint64 (freq.get i) else out) []
      = (l.filter (fun b => decide (freq.get b > 0))).flatMap
          (fun i => i :: write_uint64 (freq.get i)) := by
  have h := foldl_cond_append (fun b : Byte => decide (freq.get b > 0))
    (fun i => i :: write_uint64 (freq.get i)) l []
  simp only [decide_eq_true_eq, List.nil_append] at h
  rw [← h]
  congr 1
  funext out i
  simp

theorem writeEntries_eq (freq : FreqTable) :
    writeEntries freq
      = (presentSymbols freq).flatMap (fun i => i :: write_uint64 (freq.get i)) :=
  writeEntries_aux freq (List.finRange 256)

theorem countDistinct_aux (freq : FreqTable) (l : List Byte) (d : Nat)
    (h : d + l.length < U16) :
    l.foldl (fun distinct i => if freq.get i > 0 then (distinct + 1) % U16 else distinct) d
      = d + (l.filter (fun b => decide (freq.get b > 0))).length := by
  induction l generalizing d with
  | nil => simp
  | cons a l ih =>
    simp only [List.length_cons] at h
    rw [List.foldl_cons, List.filter_cons]
    by_cases ha : freq.get a > 0
    · simp only [ha, ↓reduceIte, decide_True, List.length_cons]
      rw [Nat.mod_eq_of_lt (by omega), ih _ (by omega)]
      omega
    · simp only [ha, ↓reduceIte, decide_False]
      exact ih _ (by omega)

theorem presentSymbols_length_le (freq : FreqTable) : (presentSymbols freq).length ≤ 256 := by
  unfold presentSymbols
  refine (List.length_filter_le _ _).trans ?_
  rw [List.length_finRange]

theorem countDistinct_eq (freq : FreqTable) :
    countDistinct freq = (presentSymbols freq).length := by
  have h := countDistinct_aux freq (List.finRange 256) 0
    (by rw [List.length_finRange]; decide)
  rw [Nat.zero_add] at h
  exact h

theorem readEntries_write (f : Byte → Nat) (hf : ∀ i, f i < U64) (l : List Byte)
    (rest : List Byte) (t : FreqTable) :
    readEntries l.length (l.flatMap (fun i => i :: write_uint64 (f i)) ++ rest) t
      = some (l.foldl (fun t i => t.set i (f i)) t, rest) := by
  induction l generalizing t with
  | nil => simp [readEntries]
  | cons a l ih =>
    have h : (a :: l).flatMap (fun i => i :: write_uint64 (f i)) ++ rest
        = a :: (write_uint64 (f a) ++ (l.flatMap (fun i => i :: write_uint64 (f i)) ++ rest)) := by
      simp only [List.flatMap_cons, List.cons_append, List.append_assoc]
    rw [List.length_cons, h, readEntries, read_write_uint64 _ _ (hf a)]
    exact ih _

theorem foldl_set_get (g : Byte → Nat) (l : List Byte) (t : FreqTable) (b : Byte) :
    (l.foldl (fun t i => t.set i (g i)) t).get b = if b ∈ l then g b else t.get b := by
  induction l generalizing t with
  | nil => simp
  | cons a l ih =>
    rw [List.foldl_cons, ih]
    by_cases hb : b ∈ l
    · simp [hb]
    · simp only [hb, ↓reduceIte, List.mem_cons, or_false]
      by_cases hab : b = a
      · subst hab; simp [Mathlib.Vector.get_set_same]
      · simp [hab, Mathlib.Vector.get_set_of_ne (Ne.symm hab)]

theorem mem_presentSymbols (freq : FreqTable) (b : Byte) :
    b ∈ presentSymbols freq ↔ 0 < freq.get b := by
  simp [presentSymbols, List.mem_finRange]

/-- Reading back the entries of a table gives the table. -/
theorem foldl_set_present (freq : FreqTable) :
    (presentSymbols freq).foldl (fun t i => t.set i (freq.get i)) zeroFreq = freq := by
  apply Mathlib.Vector.ext
  intro b
  rw [foldl_set_get (fun i => freq.get i)]
  by_cases hb : b ∈ presentSymbols freq
  · simp [hb]
  · simp only [hb, ↓reduceIte, zeroFreq_get]
    rw [mem_presentSymbols] at hb
    omega

/-! ## The tree -/

/-- The leaves a frequency table asks for: one per byte value with a nonzero entry. -/
theorem fillQueue_leaves (freq : FreqTable) :
    ((fillQueue freq).flatMap Node.leaves).Perm
      ((presentSymbols freq).map (fun b => ((b.val : Int), freq.get b))) := by
  refine (List.Perm.flatMap_right _ (fillQueue_perm freq)).trans ?_
  rw [List.flatMap_def, List.map_map]
  have : (Node.leaves ∘ fun b : Byte => Node.leaf (b.val : Int) (freq.get b))
      = fun b : Byte => [((b.val : Int), freq.get b)] := by
    funext b; rfl
  rw [this, ← List.flatMap_def, ← List.map_eq_flatMap]

theorem fillQueue_length (freq : FreqTable) :
    (fillQueue freq).length = (presentSymbols freq).length := by
  rw [(fillQueue_perm freq).length_eq, List.length_map]

theorem fillQueue_eq_nil (freq : FreqTable) (h : presentSymbols freq = []) :
    fillQueue freq = [] := by
  apply List.eq_nil_of_length_eq_zero
  rw [fillQueue_length, h]
  rfl

theorem fillQueue_eq_singleton (freq : FreqTable) (b : Byte) (h : presentSymbols freq = [b]) :
    fillQueue freq = [Node.leaf (b.val : Int) (freq.get b)] := by
  have := fillQueue_perm freq
  rw [h] at this
  exact List.perm_singleton.1 this

/-- The merge loop ends and leaves one tree, whose leaves are those of the table. -/
theorem buildTree_spec (freq : FreqTable) (h : presentSymbols freq ≠ []) :
    ∃ root, buildTree freq = some root
      ∧ List.Perm root.leaves ((presentSymbols freq).map (fun b => ((b.val : Int), freq.get b))) := by
  have hq : fillQueue freq ≠ [] := by
    intro h0
    have := fillQueue_length freq
    rw [h0] at this
    exact h (List.length_eq_zero.1 this.symm)
  obtain ⟨r, hr, hp⟩ := mergeLoop_spec (fillQueue freq).length (fillQueue freq) hq (by omega)
  refine ⟨r, ?_, ?_⟩
  · unfold buildTree
    rw [hr]
    rfl
  · exact hp.trans (fillQueue_leaves freq)

theorem buildTree_none (freq : FreqTable) (h : presentSymbols freq = []) :
    buildTree freq = none := by
  have hq : fillQueue freq = [] := fillQueue_eq_nil freq h
  unfold buildTree
  rw [hq]
  rfl

theorem Node.leaves_length_pos (n : Node) : 0 < n.leaves.length :=
  List.length_pos.2 n.leaves_ne_nil

theorem Node.isLeaf_of_leaves (n : Node) (h : 2 ≤ n.leaves.length) : n.isLeaf = false := by
  cases n with
  | leaf s f => simp [Node.leaves] at h
  | inner f l r => rfl

theorem presentSymbols_nodup (freq : FreqTable) : (presentSymbols freq).Nodup :=
  (List.nodup_finRange 256).filter _

theorem Node.paths_length (n : Node) (pre : List Bool) :
    (n.paths pre).length = n.leaves.length := by
  have := congrArg List.length (n.paths_fst pre)
  simpa using this

/-- A code is shorter than the number of leaves. -/
theorem Node.path_length_lt (n : Node) (s : Int) (p : List Bool) (h : (s, p) ∈ n.paths []) :
    p.length + 1 ≤ n.leaves.length := by
  induction n generalizing p with
  | leaf s' f =>
    simp only [Node.paths, List.mem_singleton, Prod.mk.injEq] at h
    rw [h.2]; simp [Node.leaves]
  | inner f l r ihl ihr =>
    simp only [Node.paths, List.nil_append, List.mem_append] at h
    simp only [Node.leaves, List.length_append]
    have hl := l.leaves_length_pos
    have hr := r.leaves_length_pos
    rcases h with h | h
    · rw [Node.paths_pre] at h
      simp only [List.mem_map, Prod.mk.injEq] at h
      obtain ⟨⟨s', p'⟩, hmem, rfl, rfl⟩ := h
      have := ihl _ hmem
      simp only [List.singleton_append, List.length_cons]
      omega
    · rw [Node.paths_pre] at h
      simp only [List.mem_map, Prod.mk.injEq] at h
      obtain ⟨⟨s', p'⟩, hmem, rfl, rfl⟩ := h
      have := ihr _ hmem
      simp only [List.singleton_append, List.length_cons]
      omega

/-! ## Reading a container -/

/-- The header of a container of a table with 64-bit entries is read back. -/
theorem readHeader_container (freq : FreqTable) (totalBits : Nat) (payload : List Byte)
    (hfreq : ∀ b, freq.get b < U64) (htb : totalBits < U64) :
    readHeader (container freq totalBits payload)
      = Except.ok (⟨(presentSymbols freq).length, freq, totalBits⟩, payload) := by
  have hd : countDistinct freq < U16 := by
    rw [countDistinct_eq]
    exact lt_of_le_of_lt (presentSymbols_length_le freq) (by decide)
  have hshape : container freq totalBits payload
      = magic ++ (write_uint16 (countDistinct freq)
          ++ ((presentSymbols freq).flatMap (fun i => i :: write_uint64 (freq.get i))
            ++ (write_uint64 totalBits ++ payload))) := by
    simp only [container, writeEntries_eq, List.append_assoc]
  unfold readHeader
  rw [hshape, readMagic_magic]
  simp only [ne_eq, not_true_eq_false, ↓reduceIte]
  rw [read_write_uint16 _ _ hd]
  simp only
  rw [countDistinct_eq, readEntries_write (fun i => freq.get i) hfreq]
  simp only
  rw [read_write_uint64 _ _ htb, foldl_set_present]

/-- What `decompressFile` does on a container whose header is that of a table with 64-bit
entries: the header fields are read back and the bit walk runs on the payload. -/
theorem decompressFile_container (freq : FreqTable) (totalBits : Nat) (payload : List Byte)
    (hfreq : ∀ b, freq.get b < U64) (htb : totalBits < U64) :
    decompressFile (container freq totalBits payload)
      = if (presentSymbols freq).length = 0 ∨ totalBits = 0 then Outcome.success []
        else
          match buildTree freq with
          | none => Outcome.undefined UB.emptyQueue
          | some root =>
            match walkBytes root totalBits payload ⟨root, 0, []⟩ with
            | none => Outcome.undefined UB.nullChild
            | some st => Outcome.success st.out := by
  have hh := readHeader_container freq totalBits payload hfreq htb
  by_cases hc : (presentSymbols freq).length = 0 ∨ totalBits = 0
  · rw [if_pos hc]
    unfold decompressFile
    simp only [hh, hc, ↓reduceIte]
  · rw [if_neg hc]
    unfold decompressFile
    simp only [hh, hc, ↓reduceIte]

/-! ## Frequencies of an input -/

theorem countFreq_lt (S : List Byte) (b : Byte) : (countFreq S).get b < U64 := by
  rw [countFreq_get]
  exact Nat.mod_lt _ (by decide)

theorem countFreq_get_of_lt (S : List Byte) (h : S.length < U64) (b : Byte) :
    (countFreq S).get b = S.count b := by
  rw [countFreq_get]
  exact Nat.mod_eq_of_lt (lt_of_le_of_lt (List.count_le_length _ _) h)

theorem mem_presentSymbols_countFreq (S : List Byte) (h : S.length < U64) (b : Byte) :
    b ∈ presentSymbols (countFreq S) ↔ b ∈ S := by
  rw [mem_presentSymbols, countFreq_get_of_lt S h, List.count_pos_iff]

theorem two_le_length_of_mem {α : Type} (l : List α) (a b : α) (ha : a ∈ l) (hb : b ∈ l)
    (hab : a ≠ b) : 2 ≤ l.length := by
  match l, ha, hb with
  | [], ha, _ => simp at ha
  | [x], ha, hb =>
    simp only [List.mem_singleton] at ha hb
    exact absurd (ha.trans hb.symm) hab
  | _ :: _ :: _, _, _ => simp

theorem Node.paths_inner_ne_nil (f : Nat) (l r : Node) (s : Int) (p : List Bool)
    (h : (s, p) ∈ (Node.inner f l r).paths []) : p ≠ [] := by
  simp only [Node.paths, List.nil_append, List.mem_append] at h
  rcases h with h | h <;>
  · rw [Node.paths_pre] at h
    simp only [List.mem_map, Prod.mk.injEq] at h
    obtain ⟨q, _, _, rfl⟩ := h
    simp

theorem sumBits_aux (codes : CodeTable) (data : List Byte) (t : Nat) :
    data.foldl (fun totalBits b => (totalBits + (codes (b.val : Int)).length) % U64) t
      = if data = [] then t else (t + (codeBits codes data).length) % U64 := by
  induction data generalizing t with
  | nil => simp
  | cons b bs ih =>
    rw [List.foldl_cons, ih]
    have : codeBits codes (b :: bs) = codes (b.val : Int) ++ codeBits codes bs := by
      simp [codeBits]
    by_cases hbs : bs = []
    · subst hbs
      simp [codeBits]
    · simp only [hbs, ↓reduceIte, reduceCtorEq, this, List.length_append, Nat.mod_add_mod]
      congr 1; omega

theorem sumBits_eq (codes : CodeTable) (data : List Byte) :
    sumBits codes data = (codeBits codes data).length % U64 := by
  unfold sumBits
  rw [sumBits_aux]
  by_cases h : data = []
  · subst h; simp [codeBits]
  · simp [h]

theorem codeBits_length_le (codes : CodeTable) (data : List Byte) (k : Nat)
    (h : ∀ b ∈ data, (codes (b.val : Int)).length ≤ k) :
    (codeBits codes data).length ≤ k * data.length := by
  induction data with
  | nil => simp [codeBits]
  | cons b bs ih =>
    have : codeBits codes (b :: bs) = codes (b.val : Int) ++ codeBits codes bs := by
      simp [codeBits]
    rw [this, List.length_append, List.length_cons]
    have h1 := h b (List.mem_cons_self _ _)
    have h2 := ih (fun c hc => h c (List.mem_cons_of_mem _ hc))
    rw [Nat.mul_succ]; omega

theorem codeBits_length_ge (codes : CodeTable) (data : List Byte)
    (h : ∀ b ∈ data, 1 ≤ (codes (b.val : Int)).length) :
    data.length ≤ (codeBits codes data).length := by
  induction data with
  | nil => simp
  | cons b bs ih =>
    have : codeBits codes (b :: bs) = codes (b.val : Int) ++ codeBits codes bs := by
      simp [codeBits]
    rw [this, List.length_append, List.length_cons]
    have h1 := h b (List.mem_cons_self _ _)
    have h2 := ih (fun c hc => h c (List.mem_cons_of_mem _ hc))
    omega

/-! ## `compressFile` on an input -/

theorem codesOf_eq (data : List Byte) (root : Node) (h : buildTree (countFreq data) = some root) :
    codesOf data = (buildCodes root (emptyCodes, [])).1 := by
  unfold codesOf
  rw [h]

theorem compressFile_eq (data : List Byte) (root : Node)
    (h : buildTree (countFreq data) = some root) :
    compressFile data
      = some (container (countFreq data) (sumBits (codesOf data) data)
          (packData (codesOf data) data)) := by
  have hne : presentSymbols (countFreq data) ≠ [] := by
    intro h0
    rw [buildTree_none _ h0] at h
    exact Option.noConfusion h
  have hq : (fillQueue (countFreq data)).isEmpty = false := by
    have hl := fillQueue_length (countFreq data)
    cases hf : fillQueue (countFreq data) with
    | nil =>
      rw [hf] at hl
      exact absurd (List.length_eq_zero.1 hl.symm) hne
    | cons a l => rfl
  unfold compressFile
  simp only [hq, Bool.false_eq_true, ↓reduceIte, h, Option.bind_eq_bind, Option.some_bind,
    codesOf_eq data root h, container]

/-- The symbols of the leaves of the tree of a table are the byte values with a nonzero entry,
each once. -/
theorem leaves_fst_perm (freq : FreqTable) (root : Node) (h : buildTree freq = some root) :
    List.Perm (root.leaves.map Prod.fst) ((presentSymbols freq).map (fun b => (b.val : Int))) := by
  have hne : presentSymbols freq ≠ [] := by
    intro h0
    rw [buildTree_none _ h0] at h
    exact Option.noConfusion h
  obtain ⟨r, hr, hp⟩ := buildTree_spec freq hne
  rw [h] at hr
  cases hr
  have := hp.map Prod.fst
  rwa [List.map_map] at this

theorem leaves_fst_nodup (freq : FreqTable) (root : Node) (h : buildTree freq = some root) :
    (root.leaves.map Prod.fst).Nodup := by
  rw [(leaves_fst_perm freq root h).nodup_iff]
  refine (presentSymbols_nodup freq).map ?_
  intro a b hab
  apply Fin.ext
  simp only at hab
  exact_mod_cast hab

theorem leaves_length (freq : FreqTable) (root : Node) (h : buildTree freq = some root) :
    root.leaves.length = (presentSymbols freq).length := by
  have := (leaves_fst_perm freq root h).length_eq
  simpa using this

/-- The code table built from a tree with at least two leaves holds, for every leaf, the turns
that lead to it. -/
theorem codes_mem_paths (freq : FreqTable) (root : Node) (h : buildTree freq = some root)
    (hroot : root.isLeaf = false) (b : Byte) (hb : b ∈ presentSymbols freq) :
    ((b.val : Int), (buildCodes root (emptyCodes, [])).1 (b.val : Int)) ∈ root.paths [] := by
  have hmem : (b.val : Int) ∈ (root.paths []).map Prod.fst := by
    rw [Node.paths_fst, (leaves_fst_perm freq root h).mem_iff]
    exact List.mem_map_of_mem _ hb
  obtain ⟨⟨s, p⟩, hsp, hs⟩ := List.mem_map.1 hmem
  simp only at hs
  subst hs
  have hnd : ((root.paths []).map Prod.fst).Nodup := by
    rw [Node.paths_fst]; exact leaves_fst_nodup freq root h
  cases root with
  | leaf s f => simp at hroot
  | inner f l r =>
    rw [buildCodes_inner]
    simp only
    rw [foldl_update_mem _ _ _ p hnd hsp]
    exact hsp

/-! ## The codes of an input -/

theorem buildCodes_root (root : Node) :
    (buildCodes root (emptyCodes, [])).1
      = root.codePaths.foldl (fun c p => Function.update c p.1 p.2) emptyCodes := by
  cases root with
  | leaf s f => rfl
  | inner f l r => rw [buildCodes_inner]; rfl

theorem Node.codePaths_fst (n : Node) : n.codePaths.map Prod.fst = n.leaves.map Prod.fst := by
  cases n with
  | leaf s f => rfl
  | inner f l r => exact Node.paths_fst _ _

theorem Node.codePaths_length (n : Node) (s : Int) (p : List Bool) (h : (s, p) ∈ n.codePaths) :
    1 ≤ p.length ∧ p.length ≤ n.leaves.length := by
  cases n with
  | leaf s' f =>
    simp only [Node.codePaths, List.mem_singleton, Prod.mk.injEq] at h
    rw [h.2]; simp [Node.leaves]
  | inner f l r =>
    simp only [Node.codePaths] at h
    have h1 := Node.paths_inner_ne_nil f l r s p h
    have h2 := Node.path_length_lt _ s p h
    exact ⟨List.length_pos.2 h1, by omega⟩

/-- The code table built from the tree of a table holds, for every byte value with a nonzero
entry, the code of its leaf. -/
theorem codes_mem_codePaths (freq : FreqTable) (root : Node) (h : buildTree freq = some root)
    (b : Byte) (hb : b ∈ presentSymbols freq) :
    ((b.val : Int), (buildCodes root (emptyCodes, [])).1 (b.val : Int)) ∈ root.codePaths := by
  have hmem : (b.val : Int) ∈ root.codePaths.map Prod.fst := by
    rw [Node.codePaths_fst, (leaves_fst_perm freq root h).mem_iff]
    exact List.mem_map_of_mem _ hb
  obtain ⟨⟨s, p⟩, hsp, hs⟩ := List.mem_map.1 hmem
  simp only at hs
  subst hs
  have hnd : (root.codePaths.map Prod.fst).Nodup := by
    rw [Node.codePaths_fst]; exact leaves_fst_nodup freq root h
  rw [buildCodes_root, foldl_update_mem _ _ _ p hnd hsp]
  exact hsp

/-- A byte value without a nonzero entry keeps the empty code. -/
theorem codes_not_present (freq : FreqTable) (root : Node) (h : buildTree freq = some root)
    (b : Byte) (hb : b ∉ presentSymbols freq) :
    (buildCodes root (emptyCodes, [])).1 (b.val : Int) = [] := by
  rw [buildCodes_root, foldl_update_not_mem]
  · rfl
  · rw [Node.codePaths_fst, (leaves_fst_perm freq root h).mem_iff]
    intro hmem
    obtain ⟨c, hc, hcb⟩ := List.mem_map.1 hmem
    have : c = b := by
      apply Fin.ext
      exact_mod_cast hcb
    exact hb (this ▸ hc)

/-- What `compressFile` computes for a non-empty input: a tree, and for every byte of the input
the code of its leaf, of at least one and at most 255 bits. -/
theorem encode_tree_facts (S : List Byte) (hU : S.length < U64) (hne : S ≠ []) :
    ∃ root, buildTree (countFreq S) = some root
      ∧ (∀ b ∈ S, ((b.val : Int), codesOf S (b.val : Int)) ∈ root.codePaths)
      ∧ (∀ b ∈ S, 1 ≤ (codesOf S (b.val : Int)).length ∧ (codesOf S (b.val : Int)).length ≤ 255) := by
  have hpres := mem_presentSymbols_countFreq S hU
  obtain ⟨a, ha⟩ := List.exists_mem_of_ne_nil S hne
  have hne' : presentSymbols (countFreq S) ≠ [] :=
    List.ne_nil_of_mem ((hpres a).2 ha)
  obtain ⟨root, hroot, -⟩ := buildTree_spec _ hne'
  have hll := leaves_length _ root hroot
  have hcodes : ∀ b ∈ S, ((b.val : Int), codesOf S (b.val : Int)) ∈ root.codePaths := by
    intro c hc
    rw [codesOf_eq S root hroot]
    exact codes_mem_codePaths _ root hroot c ((hpres c).2 hc)
  refine ⟨root, hroot, hcodes, ?_⟩
  intro c hc
  have h1 := root.codePaths_length _ _ (hcodes c hc)
  have h2 := presentSymbols_length_le (countFreq S)
  have h3 := root.path_length_lt
  refine ⟨h1.1, ?_⟩
  cases root with
  | leaf s f =>
    have := hcodes c hc
    simp only [Node.codePaths, List.mem_singleton, Prod.mk.injEq] at this
    rw [this.2]; simp
  | inner f l r =>
    have := Node.path_length_lt _ _ _ (hcodes c hc)
    omega

/-- The bit count `compressFile` writes is the number of bits of the concatenated codes. -/
theorem sumBits_of_lt (S : List Byte) (hlen : S.length < 2 ^ 56) (hne : S ≠ []) :
    sumBits (codesOf S) S = (codeBits (codesOf S) S).length
      ∧ 0 < (codeBits (codesOf S) S).length ∧ (codeBits (codesOf S) S).length < U64 := by
  have hU : S.length < U64 := lt_trans hlen (by decide)
  obtain ⟨root, -, -, hbounds⟩ := encode_tree_facts S hU hne
  have hle := codeBits_length_le (codesOf S) S 255 (fun c hc => (hbounds c hc).2)
  have hge := codeBits_length_ge (codesOf S) S (fun c hc => (hbounds c hc).1)
  have hSpos : 0 < S.length := List.length_pos.2 hne
  have hlt : (codeBits (codesOf S) S).length < U64 := by
    have : (2 : Nat) ^ 56 * 255 < U64 := by decide
    have h3 : 255 * S.length < 2 ^ 56 * 255 := by omega
    omega
  refine ⟨?_, by omega, hlt⟩
  rw [sumBits_eq, Nat.mod_eq_of_lt hlt]

/-! ## Round trip -/

/-- The bit walk over a payload that holds the codes of `S`, in a tree with an internal root,
puts `S`. -/
theorem walkBytes_packData (S : List Byte) (root : Node) (hleaf : root.isLeaf = false)
    (hcodes : ∀ b ∈ S, ((b.val : Int), codesOf S (b.val : Int)) ∈ root.paths []) :
    walkBytes root (codeBits (codesOf S) S).length (packData (codesOf S) S) ⟨root, 0, []⟩
      = some ⟨root, (codeBits (codesOf S) S).length, S⟩ := by
  rw [walkBytes_eq]
  simp only [Nat.sub_zero, Nat.zero_add]
  rw [bitsOfBytes_packData, List.take_left, walkList_codeBits root _ S [] hleaf hcodes]
  simp only [Option.map_some', List.nil_append, WalkState.mk.injEq, Option.some.injEq, true_and, and_true]
  have h1 := congrArg List.length (bitsOfBytes_packData (codesOf S) S)
  rw [bitsOfBytes_length, List.length_append] at h1
  omega

theorem two_distinct_inner (S : List Byte) (hU : S.length < U64)
    (h2 : ∃ a ∈ S, ∃ b ∈ S, a ≠ b) (root : Node) (hroot : buildTree (countFreq S) = some root) :
    root.isLeaf = false := by
  obtain ⟨a, ha, b, hb, hab⟩ := h2
  have hpres := mem_presentSymbols_countFreq S hU
  have hlen2 : 2 ≤ (presentSymbols (countFreq S)).length :=
    two_le_length_of_mem _ a b ((hpres a).2 ha) ((hpres b).2 hb) hab
  have hll := leaves_length _ root hroot
  exact root.isLeaf_of_leaves (by omega)

theorem Node.codePaths_of_inner (root : Node) (h : root.isLeaf = false) :
    root.codePaths = root.paths [] := by
  cases root with
  | leaf s f => simp at h
  | inner f l r => rfl

/-! ## One byte value -/

theorem eq_singleton_of_nodup {α : Type} [DecidableEq α] (l : List α) (b : α) (hl : l.Nodup)
    (h : ∀ x, x ∈ l ↔ x = b) : l = [b] := by
  have hp : List.Perm l [b] :=
    (List.perm_ext_iff_of_nodup hl (List.nodup_singleton b)).2 (fun x => by simp [h])
  exact List.perm_singleton.1 hp

theorem presentSymbols_replicate (n : Nat) (b : Byte) (h1 : 1 ≤ n) (hn : n < U64) :
    presentSymbols (countFreq (List.replicate n b)) = [b] := by
  apply eq_singleton_of_nodup _ _ (presentSymbols_nodup _)
  intro x
  rw [mem_presentSymbols_countFreq _ (by rw [List.length_replicate]; exact hn)]
  simp only [List.mem_replicate, ne_eq]
  constructor
  · exact fun h => h.2
  · exact fun h => ⟨by omega, h⟩

theorem buildTree_replicate (n : Nat) (b : Byte) (h1 : 1 ≤ n) (hn : n < U64) :
    buildTree (countFreq (List.replicate n b)) = some (Node.leaf (b.val : Int) n) := by
  have hq : fillQueue (countFreq (List.replicate n b)) = [Node.leaf (b.val : Int) n] := by
    rw [fillQueue_eq_singleton _ b (presentSymbols_replicate n b h1 hn),
      countFreq_get_of_lt _ (by rw [List.length_replicate]; exact hn), List.count_replicate_self]
  unfold buildTree
  rw [hq]
  rfl

theorem codesOf_replicate (n : Nat) (b : Byte) (h1 : 1 ≤ n) (hn : n < U64) :
    codesOf (List.replicate n b) = Function.update emptyCodes (b.val : Int) [false] := by
  rw [codesOf_eq _ _ (buildTree_replicate n b h1 hn)]
  rfl

theorem codeBits_replicate (n : Nat) (b : Byte) (h1 : 1 ≤ n) (hn : n < U64) :
    codeBits (codesOf (List.replicate n b)) (List.replicate n b) = List.replicate n false := by
  rw [codesOf_replicate n b h1 hn]
  unfold codeBits
  clear h1 hn
  induction n with
  | zero => rfl
  | succ k ih => rw [List.replicate_succ, List.flatMap_cons, ih, Function.update_same]; rfl

set_option maxRecDepth 100000 in
theorem byte_eq_zero_of_bits : ∀ x : Byte, bitsOfByte x = List.replicate 8 false → x = 0 := by
  decide

theorem bytes_eq_zero_of_bits (l : List Byte) (k : Nat)
    (h : bitsOfBytes l = List.replicate k false) : l = List.replicate l.length 0 := by
  induction l generalizing k with
  | nil => rfl
  | cons x xs ih =>
    have hx : bitsOfBytes (x :: xs) = bitsOfByte x ++ bitsOfBytes xs := rfl
    rw [hx] at h
    have hlen := congrArg List.length h
    have h8 : (bitsOfByte x).length = 8 := rfl
    rw [List.length_append, h8, List.length_replicate] at hlen
    obtain ⟨m, rfl⟩ : ∃ m, k = 8 + m := ⟨k - 8, by omega⟩
    rw [List.replicate_add] at h
    have h' := List.append_inj h (by rw [h8, List.length_replicate])
    rw [List.length_cons, List.replicate_succ, byte_eq_zero_of_bits x h'.1, ← ih m h'.2]

theorem packData_replicate (n : Nat) (b : Byte) (h1 : 1 ≤ n) (hn : n < U64) :
    packData (codesOf (List.replicate n b)) (List.replicate n b)
      = List.replicate ((n + 7) / 8) 0 := by
  have h := bitsOfBytes_packData (codesOf (List.replicate n b)) (List.replicate n b)
  rw [codeBits_replicate n b h1 hn, List.append_replicate_replicate] at h
  have hlen := congrArg List.length h
  rw [bitsOfBytes_length, List.length_replicate, List.length_replicate] at hlen
  rw [bytes_eq_zero_of_bits _ _ h]
  congr 1
  omega

theorem sumBits_replicate (n : Nat) (b : Byte) (h1 : 1 ≤ n) (hn : n < U64) :
    sumBits (codesOf (List.replicate n b)) (List.replicate n b) = n := by
  rw [sumBits_eq, codeBits_replicate n b h1 hn, List.length_replicate, Nat.mod_eq_of_lt hn]

theorem container_replicate (n : Nat) (b : Byte) (h1 : 1 ≤ n) (hn : n < U64)
    (totalBits : Nat) (payload : List Byte) :
    container (countFreq (List.replicate n b)) totalBits payload
      = magic ++ write_uint16 1 ++ (b :: write_uint64 n) ++ write_uint64 totalBits ++ payload := by
  unfold container
  rw [countDistinct_eq, writeEntries_eq, presentSymbols_replicate n b h1 hn]
  simp only [List.length_singleton, List.flatMap_cons, List.flatMap_nil, List.append_nil]
  rw [countFreq_get_of_lt _ (by rw [List.length_replicate]; exact hn), List.count_replicate_self]

/-- The container `compressFile` writes for `n` copies of one byte value. -/
theorem compressFile_replicate (n : Nat) (b : Byte) (h1 : 1 ≤ n) (hn : n < U64) :
    compressFile (List.replicate n b)
      = some (magic ++ write_uint16 1 ++ (b :: write_uint64 n) ++ write_uint64 n
          ++ List.replicate ((n + 7) / 8) 0) := by
  rw [compressFile_eq _ _ (buildTree_replicate n b h1 hn), sumBits_replicate n b h1 hn,
    packData_replicate n b h1 hn, container_replicate n b h1 hn]

/-- The bit walk from a root that is a leaf dereferences a null child at the first bit. -/
theorem walkBytes_leaf (s : Int) (f : Nat) (totalBits : Nat) (x : Byte) (xs : List Byte)
    (h : 0 < totalBits) :
    walkBytes (Node.leaf s f) totalBits (x :: xs) ⟨Node.leaf s f, 0, []⟩ = none := by
  simp [walkBytes, walkBits, h, Node.left, Node.right]

/-- On the container of `n` copies of one byte value, `decompressFile` dereferences a null
child. -/
theorem decompressFile_replicate (n : Nat) (b : Byte) (h1 : 1 ≤ n) (hn : n < U64) :
    decompressFile (magic ++ write_uint16 1 ++ (b :: write_uint64 n) ++ write_uint64 n
        ++ List.replicate ((n + 7) / 8) 0)
      = Outcome.undefined UB.nullChild := by
  rw [← container_replicate n b h1 hn, decompressFile_container _ _ _ (countFreq_lt _) hn,
    presentSymbols_replicate n b h1 hn, buildTree_replicate n b h1 hn]
  have hc : ¬ (([b] : List Byte).length = 0 ∨ n = 0) := by simp; omega
  rw [if_neg hc]
  obtain ⟨m, hm⟩ : ∃ m, (n + 7) / 8 = m + 1 := ⟨(n + 7) / 8 - 1, by omega⟩
  simp only [hm, List.replicate_succ]
  rw [walkBytes_leaf _ _ _ _ _ (by omega)]

/-! ## The empty input -/

theorem presentSymbols_zeroFreq : presentSymbols zeroFreq = [] := by
  unfold presentSymbols
  rw [List.filter_eq_nil_iff]
  intro b _
  rw [zeroFreq_get]
  decide

theorem compressFile_nil : compressFile [] = some (magic ++ write_uint16 0 ++ write_uint64 0) := by
  have hq : fillQueue (countFreq []) = [] := fillQueue_eq_nil _ presentSymbols_zeroFreq
  unfold compressFile
  simp only [hq, List.isEmpty_nil, ↓reduceIte]

theorem container_zeroFreq :
    container zeroFreq 0 [] = magic ++ write_uint16 0 ++ write_uint64 0 := by
  unfold container
  rw [countDistinct_eq, writeEntries_eq, presentSymbols_zeroFreq]
  rfl

/-! ## The header entries of an input -/

theorem presentSymbols_perm_dedup (S : List Byte) (hU : S.length < U64) :
    List.Perm (presentSymbols (countFreq S)) S.dedup :=
  (List.perm_ext_iff_of_nodup (presentSymbols_nodup _) (List.nodup_dedup S)).2
    (fun b => by rw [mem_presentSymbols_countFreq S hU, List.mem_dedup])

theorem sum_present_counts (S : List Byte) (hU : S.length < U64) :
    ((presentSymbols (countFreq S)).map (fun b => S.count b)).sum = S.length := by
  rw [((presentSymbols_perm_dedup S hU).map _).sum_eq]
  exact List.sum_map_count_dedup_eq_length S

theorem presentSymbols_sorted (freq : FreqTable) :
    (presentSymbols freq).Pairwise (· < ·) :=
  (List.pairwise_lt_finRange 256).filter _

theorem writeEntries_countFreq (S : List Byte) (hU : S.length < U64) :
    writeEntries (countFreq S)
      = (presentSymbols (countFreq S)).flatMap (fun b => b :: write_uint64 (S.count b)) := by
  rw [writeEntries_eq]
  congr 1
  funext b
  rw [countFreq_get_of_lt S hU]

/-! ## The bits of the payload -/

set_option maxRecDepth 100000 in
theorem bitsOfByte_getElem? : ∀ (x : Byte) (j : Fin 8),
    (bitsOfByte x)[j.val]? = some (x.val.testBit (7 - j.val)) := by
  decide

theorem bitsOfBytes_getElem? (l : List Byte) (j : Nat) :
    (bitsOfBytes l)[j]? = (l[j / 8]?).map (fun x => x.val.testBit (7 - j % 8)) := by
  induction l generalizing j with
  | nil => simp [bitsOfBytes]
  | cons x xs ih =>
    have hx : bitsOfBytes (x :: xs) = bitsOfByte x ++ bitsOfBytes xs := rfl
    have h8 : (bitsOfByte x).length = 8 := rfl
    rw [hx]
    by_cases hj : j < 8
    · rw [List.getElem?_append_left (by rw [h8]; exact hj)]
      have h0 : j / 8 = 0 := by omega
      have h1 : j % 8 = j := by omega
      rw [h0, h1, List.getElem?_cons_zero, Option.map_some']
      exact bitsOfByte_getElem? x ⟨j, hj⟩
    · rw [List.getElem?_append_right (by rw [h8]; omega), h8, ih]
      obtain ⟨k, hk⟩ : ∃ k, j / 8 = k + 1 := ⟨j / 8 - 1, by omega⟩
      have h0 : (j - 8) / 8 = k := by omega
      have h1 : (j - 8) % 8 = j % 8 := by omega
      rw [h0, h1, hk, List.getElem?_cons_succ]

/-! ## The layout of the container -/

theorem sumBits_lt (codes : CodeTable) (data : List Byte) : sumBits codes data < U64 := by
  rw [sumBits_eq]
  exact Nat.mod_lt _ (by decide)

theorem compressFile_layout (S : List Byte) (hU : S.length < U64) (hne : S ≠ []) :
    compressFile S
      = some (magic ++ write_uint16 (presentSymbols (countFreq S)).length
          ++ (presentSymbols (countFreq S)).flatMap (fun b => b :: write_uint64 (S.count b))
          ++ write_uint64 (sumBits (codesOf S) S) ++ packData (codesOf S) S) := by
  obtain ⟨root, hroot, -, -⟩ := encode_tree_facts S hU hne
  rw [compressFile_eq S root hroot]
  unfold container
  rw [countDistinct_eq, writeEntries_countFreq S hU]

theorem readMagic_of_take_ne (file : List Byte) (h : file.take 4 ≠ magic) :
    readMagic file = none ∨ ∃ tag rest, readMagic file = some (tag, rest) ∧ tag ≠ magic := by
  match file, h with
  | [], _ => exact Or.inl rfl
  | [_], _ => exact Or.inl rfl
  | [_, _], _ => exact Or.inl rfl
  | [_, _, _], _ => exact Or.inl rfl
  | b0 :: b1 :: b2 :: b3 :: rest, h => exact Or.inr ⟨[b0, b1, b2, b3], rest, rfl, h⟩

/-! ## The bit walk on any payload -/

/-- From an internal cursor in a tree with an internal root, the walk never takes a missing
child, and the cursor is internal again after every bit. -/
theorem walkList_inner (root : Node) (hroot : root.isLeaf = false) (bits : List Bool)
    (n : Node) (out : List Byte) (hn : n.isLeaf = false) :
    ∃ n' out', walkList root bits (n, out) = some (n', out') ∧ n'.isLeaf = false := by
  induction bits generalizing n out with
  | nil => exact ⟨n, out, rfl, hn⟩
  | cons b bs ih =>
    cases n with
    | leaf s f => simp at hn
    | inner f l r =>
      cases b with
      | false =>
        simp only [walkList, Bool.false_eq_true, ↓reduceIte, Node.left]
        by_cases hl : l.isLeaf = true
        · simp only [hl, ↓reduceIte]
          exact ih root _ hroot
        · simp only [hl, Bool.false_eq_true, ↓reduceIte]
          exact ih l _ (by simpa using hl)
      | true =>
        simp only [walkList, ↓reduceIte, Node.right]
        by_cases hr : r.isLeaf = true
        · simp only [hr, ↓reduceIte]
          exact ih root _ hroot
        · simp only [hr, Bool.false_eq_true, ↓reduceIte]
          exact ih r _ (by simpa using hr)

theorem two_present_of_ne (freq : FreqTable) (a b : Byte) (hab : a ≠ b)
    (ha : 0 < freq.get a) (hb : 0 < freq.get b) : 2 ≤ (presentSymbols freq).length :=
  two_le_length_of_mem _ a b ((mem_presentSymbols freq a).2 ha) ((mem_presentSymbols freq b).2 hb)
    hab

/-- The tree of a table with two nonzero entries exists and its root is internal. -/
theorem buildTree_inner (freq : FreqTable) (h2 : 2 ≤ (presentSymbols freq).length) :
    ∃ root, buildTree freq = some root ∧ root.isLeaf = false := by
  have hne : presentSymbols freq ≠ [] := by
    intro h0; rw [h0] at h2; simp at h2
  obtain ⟨root, hroot, -⟩ := buildTree_spec freq hne
  have := leaves_length freq root hroot
  exact ⟨root, hroot, root.isLeaf_of_leaves (by omega)⟩

/-- The outcome of `decompressFile` on a container of a table with two nonzero entries is the
output of the bit walk over the first `totalBits` bits of the payload. -/
theorem decompressFile_walkList (freq : FreqTable) (totalBits : Nat) (payload : List Byte)
    (hfreq : ∀ b, freq.get b < U64) (htb : totalBits < U64) (root : Node)
    (hroot : buildTree freq = some root) (hleaf : root.isLeaf = false) :
    ∃ n out, walkList root ((bitsOfBytes payload).take totalBits) (root, []) = some (n, out)
      ∧ n.isLeaf = false
      ∧ decompressFile (container freq totalBits payload) = Outcome.success out := by
  obtain ⟨n, out, hw, hn⟩ :=
    walkList_inner root hleaf ((bitsOfBytes payload).take totalBits) root [] hleaf
  refine ⟨n, out, hw, hn, ?_⟩
  rw [decompressFile_container freq totalBits payload hfreq htb]
  by_cases h0 : totalBits = 0
  · subst h0
    simp only [List.take_zero, walkList, Option.some.injEq, Prod.mk.injEq] at hw
    simp [hw.2.symm]
  · have hc : ¬ ((presentSymbols freq).length = 0 ∨ totalBits = 0) := by
      have := leaves_length freq root hroot
      have := root.leaves_length_pos
      omega
    rw [if_neg hc, hroot]
    simp only
    rw [walkBytes_eq]
    simp only [Nat.sub_zero, hw, Option.map_some']

/-! ## The bit walk on a truncated payload -/

theorem bitsOfBytes_take (l : List Byte) (k : Nat) :
    bitsOfBytes (l.take k) = (bitsOfBytes l).take (8 * k) := by
  induction l generalizing k with
  | nil => simp [bitsOfBytes]
  | cons x xs ih =>
    cases k with
    | zero => simp [bitsOfBytes]
    | succ k =>
      have hx : ∀ ys : List Byte, bitsOfBytes (x :: ys) = bitsOfByte x ++ bitsOfBytes ys :=
        fun _ => rfl
      have h8 : (bitsOfByte x).length = 8 := rfl
      have h1 : (bitsOfByte x).take (8 * (k + 1)) = bitsOfByte x :=
        List.take_of_length_le (by rw [h8]; omega)
      have h2 : 8 * (k + 1) - (bitsOfByte x).length = 8 * k := by rw [h8]; omega
      rw [List.take_succ_cons, hx, hx, ih, List.take_append_eq_append_take, h1, h2]

/-- Walking fewer turns than lead to a leaf, from an internal node, puts nothing. -/
theorem walkList_strict_prefix (root n : Node) (p : List Bool) (s : Int) (out : List Byte)
    (m : Nat) (hp : (s, p) ∈ n.paths []) (hn : n.isLeaf = false) (hm : m < p.length) :
    ∃ n', walkList root (p.take m) (n, out) = some (n', out) := by
  induction n generalizing p m with
  | leaf s' f => simp at hn
  | inner f l r ihl ihr =>
    cases m with
    | zero => exact ⟨_, rfl⟩
    | succ m =>
      simp only [Node.paths, List.nil_append, List.mem_append] at hp
      rcases hp with hp | hp
      · rw [Node.paths_pre] at hp
        simp only [List.mem_map, Prod.mk.injEq] at hp
        obtain ⟨⟨s', p'⟩, hmem, rfl, rfl⟩ := hp
        have hm2 : m < p'.length := by simpa using hm
        simp only [List.singleton_append, List.take_succ_cons, walkList, Bool.false_eq_true,
          ↓reduceIte, Node.left]
        cases l with
        | leaf sl fl =>
          simp only [Node.paths, List.mem_singleton, Prod.mk.injEq] at hmem
          obtain ⟨-, rfl⟩ := hmem
          simp at hm2
        | inner fl ll lr =>
          simp only [Node.isLeaf_inner, Bool.false_eq_true, ↓reduceIte]
          exact ihl _ _ hmem rfl hm2
      · rw [Node.paths_pre] at hp
        simp only [List.mem_map, Prod.mk.injEq] at hp
        obtain ⟨⟨s', p'⟩, hmem, rfl, rfl⟩ := hp
        have hm2 : m < p'.length := by simpa using hm
        simp only [List.singleton_append, List.take_succ_cons, walkList, ↓reduceIte, Node.right]
        cases r with
        | leaf sr fr =>
          simp only [Node.paths, List.mem_singleton, Prod.mk.injEq] at hmem
          obtain ⟨-, rfl⟩ := hmem
          simp at hm2
        | inner fr rl rr =>
          simp only [Node.isLeaf_inner, Bool.false_eq_true, ↓reduceIte]
          exact ihr _ _ hmem rfl hm2

theorem codeBits_cons (codes : CodeTable) (b : Byte) (bs : List Byte) :
    codeBits codes (b :: bs) = codes (b.val : Int) ++ codeBits codes bs := by
  simp [codeBits]

/-- Walking the first `m` bits of the concatenated codes of `data` puts the longest prefix of
`data` whose codes lie within these bits. -/
theorem walkList_take_codeBits (root : Node) (codes : CodeTable) (data : List Byte)
    (out : List Byte) (m : Nat) (hroot : root.isLeaf = false)
    (hcodes : ∀ b ∈ data, ((b.val : Int), codes (b.val : Int)) ∈ root.paths []) :
    ∃ j n, j ≤ data.length
      ∧ walkList root ((codeBits codes data).take m) (root, out) = some (n, out ++ data.take j)
      ∧ (codeBits codes (data.take j)).length ≤ m
      ∧ (j < data.length → m < (codeBits codes (data.take (j + 1))).length) := by
  induction data generalizing out m with
  | nil => exact ⟨0, root, le_refl _, by simp [codeBits, walkList], by simp [codeBits], by simp⟩
  | cons b bs ih =>
    have hb := hcodes b (List.mem_cons_self _ _)
    rw [codeBits_cons]
    by_cases hm : (codes (b.val : Int)).length ≤ m
    · obtain ⟨j, n, hj, hw, h1, h2⟩ := ih (out ++ [b]) (m - (codes (b.val : Int)).length)
        (fun c hc => hcodes c (List.mem_cons_of_mem _ hc))
      refine ⟨j + 1, n, by simp; omega, ?_, ?_, ?_⟩
      · rw [List.take_append_eq_append_take, List.take_of_length_le hm, walkList_append,
          walkList_path root root _ _ out hb hroot, symbolByte_val]
        simp only [Option.some_bind, hw, List.take_succ_cons, List.append_assoc,
          List.singleton_append]
      · rw [List.take_succ_cons, codeBits_cons, List.length_append]
        omega
      · intro hlt
        have := h2 (by simpa using hlt)
        rw [List.take_succ_cons, codeBits_cons, List.length_append]
        omega
    · have hm' : m < (codes (b.val : Int)).length := by omega
      obtain ⟨n, hw⟩ := walkList_strict_prefix root root _ _ out m hb hroot hm'
      refine ⟨0, n, by simp, ?_, by simp [codeBits], ?_⟩
      · rw [List.take_append_of_le_length (by omega), hw]
        simp
      · intro _
        simp only [Nat.zero_add, List.take_succ_cons, List.take_zero, codeBits_cons,
          List.length_append]
        omega

/-! ## The order of extraction -/

/-- One iteration of the merge loop on a queue of at least two nodes: two nodes are extracted
and the loop goes on with the rest and their merge; when the queue is a heap, the node extracted
first is a minimum of the queue, the node extracted second is a minimum of the rest, and the
queue the loop goes on with is a heap again. -/
theorem mergeLoop_step (q : PQ) (h : 2 ≤ q.length) :
    ∃ a b, PQ.top q = some a ∧ PQ.top (PQ.pop q) = some b
      ∧ List.Perm q (a :: PQ.pop q) ∧ List.Perm (PQ.pop q) (b :: PQ.pop (PQ.pop q))
      ∧ (PQ.IsHeap q → (∀ y ∈ q, a.keyLe y) ∧ (∀ y ∈ PQ.pop q, b.keyLe y)
          ∧ PQ.IsHeap (PQ.push (PQ.pop (PQ.pop q)) (Node.merge a b)))
      ∧ ∀ fuel, mergeLoop (fuel + 1) q
          = mergeLoop fuel (PQ.push (PQ.pop (PQ.pop q)) (Node.merge a b)) := by
  have hq : q ≠ [] := by
    intro h0; rw [h0] at h; simp at h
  obtain ⟨a, ha, hpa⟩ := PQ.top_pop q hq
  have hlen1 : (PQ.pop q).length + 1 = q.length := by
    have := hpa.length_eq; simp at this; omega
  have hq1 : PQ.pop q ≠ [] := by
    intro h0; rw [h0] at hlen1; simp at hlen1; omega
  obtain ⟨b, hb, hpb⟩ := PQ.top_pop _ hq1
  refine ⟨a, b, ha, hb, hpa, hpb, fun hh => ⟨PQ.top_min q a hh ha,
    PQ.top_min _ b (PQ.pop_isHeap q hh) hb,
    PQ.push_isHeap _ _ (PQ.pop_isHeap _ (PQ.pop_isHeap q hh))⟩, ?_⟩
  intro fuel
  rw [mergeLoop]
  have h1 : q.length > 1 := by omega
  simp only [h1, ↓reduceIte, ha, hb, Option.bind_eq_bind, Option.some_bind]

/-! ## Examples -/

set_option maxRecDepth 1000000 in
theorem buildTree_example_ties :
    buildTree (countFreq [65, 65, 66, 66, 67, 67])
      = some (Node.inner 6 (Node.leaf 67 2) (Node.inner 4 (Node.leaf 65 2) (Node.leaf 66 2))) := by
  decide

set_option maxRecDepth 1000000 in
theorem buildTree_example_inner :
    buildTree (countFreq [65, 66, 67, 67])
      = some (Node.inner 4 (Node.inner 2 (Node.leaf 65 1) (Node.leaf 66 1)) (Node.leaf 67 2)) := by
  decide

theorem codes_example_ties :
    codesOf [65, 65, 66, 66, 67, 67] 67 = [false]
      ∧ codesOf [65, 65, 66, 66, 67, 67] 65 = [true, false]
      ∧ codesOf [65, 65, 66, 66, 67, 67] 66 = [true, true] := by
  rw [codesOf_eq _ _ buildTree_example_ties]
  decide

theorem codes_example_inner :
    codesOf [65, 66, 67, 67] 65 = [false, false]
      ∧ codesOf [65, 66, 67, 67] 66 = [false, true]
      ∧ codesOf [65, 66, 67, 67] 67 = [true] := by
  rw [codesOf_eq _ _ buildTree_example_inner]
  decide

set_option maxRecDepth 1000000 in
/-- Internal nodes of equal frequency, which `Cmp` does not order: on the input
`0, 1, 2, 3, 4, 5` the three merges of two leaves have the frequency 2; the heap gives up the
merge of `2` and `3` first and the merge of `0` and `1` second. -/
theorem buildTree_example_equal_merges :
    buildTree (countFreq [0, 1, 2, 3, 4, 5])
      = some (Node.inner 6 (Node.inner 2 (Node.leaf 4 1) (Node.leaf 5 1))
          (Node.inner 4 (Node.inner 2 (Node.leaf 2 1) (Node.leaf 3 1))
            (Node.inner 2 (Node.leaf 0 1) (Node.leaf 1 1)))) := by
  decide

set_option maxRecDepth 1000000 in
/-- The container of the input `0, 1, 2, 3, 4, 5`: six entries, 16 bits, the payload
`0xDE, 0x51`. -/
theorem compressFile_example_equal_merges :
    compressFile [0, 1, 2, 3, 4, 5]
      = some (magic ++ write_uint16 6
          ++ [0, 1, 0, 0, 0, 0, 0, 0, 0, 1, 1, 0, 0, 0, 0, 0, 0, 0, 2, 1, 0, 0, 0, 0, 0, 0, 0,
              3, 1, 0, 0, 0, 0, 0, 0, 0, 4, 1, 0, 0, 0, 0, 0, 0, 0, 5, 1, 0, 0, 0, 0, 0, 0, 0]
          ++ write_uint64 16 ++ [0xDE, 0x51]) := by
  decide

set_option maxRecDepth 1000000 in
/-- The queue of the input `0, 1, 2, 3, 4, 5, 6, 6` after three iterations of the merge loop
holds the leaf of `6` and three merges, all of frequency 2. -/
theorem mergeLoop_example_equal_merges :
    mergeLoop 6 (fillQueue (countFreq [0, 1, 2, 3, 4, 5, 6, 6]))
      = mergeLoop 3 [Node.merge (Node.leaf 2 1) (Node.leaf 3 1),
          Node.merge (Node.leaf 0 1) (Node.leaf 1 1), Node.leaf 6 2,
          Node.merge (Node.leaf 4 1) (Node.leaf 5 1)] := by
  decide

/-- The heap of the leaf `6: 2` and the merges of `2, 3`, of `0, 1` and of `4, 5`, each of
frequency 2, gives up the merge of `2` and `3` first and the merge of `0` and `1` second; the
leaf stays behind the three merges. -/
theorem top_example_equal_merges :
    PQ.top [Node.merge (Node.leaf 2 1) (Node.leaf 3 1),
        Node.merge (Node.leaf 0 1) (Node.leaf 1 1), Node.leaf 6 2,
        Node.merge (Node.leaf 4 1) (Node.leaf 5 1)]
      = some (Node.merge (Node.leaf 2 1) (Node.leaf 3 1))
    ∧ PQ.top (PQ.pop [Node.merge (Node.leaf 2 1) (Node.leaf 3 1),
        Node.merge (Node.leaf 0 1) (Node.leaf 1 1), Node.leaf 6 2,
        Node.merge (Node.leaf 4 1) (Node.leaf 5 1)])
      = some (Node.merge (Node.leaf 0 1) (Node.leaf 1 1)) := by
  decide

set_option maxRecDepth 1000000 in
/-- On the input `0, 1, 3, 4, 5, 6, 7, 7, 8` the code of `0` has three bits. -/
theorem codesOf_example_length :
    codesOf [0, 1, 3, 4, 5, 6, 7, 7, 8] 0 = [false, true, false] := by
  decide

/-! ## Invariants of the merge loop -/

/-- A property of the queue that does not depend on the order of its elements and survives the
merge of two elements holds for the queue the merge loop ends with. -/
theorem mergeLoop_invariant (P : PQ → Prop) (hperm : ∀ q q', List.Perm q q' → P q → P q')
    (hstep : ∀ a b rest, P (a :: b :: rest) → P (Node.merge a b :: rest)) :
    ∀ fuel q r, P q → mergeLoop fuel q = some r → P r := by
  intro fuel
  induction fuel with
  | zero =>
    intro q r hP h
    unfold mergeLoop at h
    split at h
    · exact Option.noConfusion h
    · cases h; exact hP
  | succ fuel ih =>
    intro q r hP h
    by_cases hq : 2 ≤ q.length
    · obtain ⟨a, b, -, -, hpa, hpb, -, hloop⟩ := mergeLoop_step q hq
      rw [hloop fuel] at h
      refine ih _ r ?_ h
      have h1 : P (a :: b :: PQ.pop (PQ.pop q)) :=
        hperm _ _ (hpa.trans (List.Perm.cons a hpb)) hP
      exact hperm _ _ (PQ.push_perm _ _).symm (hstep a b _ h1)
    · unfold mergeLoop at h
      have : ¬ q.length > 1 := by omega
      simp only [this, ↓reduceIte, Option.some.injEq] at h
      cases h; exact hP

theorem Node.weight_merge (a b : Node) : (Node.merge a b).weight = a.weight + b.weight := by
  simp [Node.weight, Node.merge, Node.leaves]

theorem Node.exact_leaf (s : Int) (f : Nat) : (Node.leaf s f).Exact := by
  refine ⟨by simp [Node.weight, Node.leaves, Node.freq], ?_⟩
  intro m hm hl
  simp only [Node.subtrees, List.mem_singleton] at hm
  subst hm
  simp at hl

theorem Node.exact_merge (a b : Node) (ha : a.Exact) (hb : b.Exact)
    (h : a.weight + b.weight < U64) : (Node.merge a b).Exact := by
  have hf : (Node.merge a b).freq = a.freq + b.freq := by
    show (a.freq + b.freq) % U64 = a.freq + b.freq
    rw [ha.1, hb.1]
    exact Nat.mod_eq_of_lt h
  refine ⟨by rw [hf, Node.weight_merge, ha.1, hb.1], ?_⟩
  intro m hm hl
  simp only [Node.merge, Node.subtrees, List.mem_cons, List.mem_append] at hm
  rcases hm with rfl | hm | hm
  · exact ⟨a, b, rfl, rfl, hf⟩
  · exact ha.2 m hm hl
  · exact hb.2 m hm hl

/-- The tree of a queue of exact nodes of total weight below `2 ^ 64` is exact and has that
weight. -/
theorem mergeLoop_exact (fuel : Nat) (q : PQ) (r : PQ) (W : Nat) (hW : W < U64)
    (hq : ∀ n ∈ q, n.Exact) (hsum : (q.map Node.weight).sum = W)
    (h : mergeLoop fuel q = some r) :
    (∀ n ∈ r, n.Exact) ∧ (r.map Node.weight).sum = W := by
  refine mergeLoop_invariant (fun q => (∀ n ∈ q, n.Exact) ∧ (q.map Node.weight).sum = W)
    ?_ ?_ fuel q r ⟨hq, hsum⟩ h
  · intro q q' hp ⟨h1, h2⟩
    exact ⟨fun n hn => h1 n (hp.mem_iff.2 hn), by rw [← h2]; exact ((hp.map _).sum_eq).symm⟩
  · intro a b rest ⟨h1, h2⟩
    have ha := h1 a (List.mem_cons_self _ _)
    have hb := h1 b (List.mem_cons_of_mem _ (List.mem_cons_self _ _))
    simp only [List.map_cons, List.sum_cons] at h2
    refine ⟨?_, ?_⟩
    · intro n hn
      rcases List.mem_cons.1 hn with rfl | hn
      · exact Node.exact_merge a b ha hb (by omega)
      · exact h1 n (List.mem_cons_of_mem _ (List.mem_cons_of_mem _ hn))
    · simp only [List.map_cons, List.sum_cons, Node.weight_merge]
      omega

/-- The tree of an input of fewer than `2 ^ 64` bytes is exact and its weight is the length of the
input. -/
theorem buildTree_exact (S : List Byte) (hU : S.length < U64) (root : Node)
    (hroot : buildTree (countFreq S) = some root) :
    root.Exact ∧ root.weight = S.length := by
  unfold buildTree at hroot
  cases hm : mergeLoop (fillQueue (countFreq S)).length (fillQueue (countFreq S)) with
  | none => rw [hm] at hroot; exact Option.noConfusion hroot
  | some r =>
    rw [hm] at hroot
    have hne : presentSymbols (countFreq S) ≠ [] := by
      intro h0
      have hq : fillQueue (countFreq S) = [] := fillQueue_eq_nil _ h0
      rw [hq] at hm
      simp only [List.length_nil, mergeLoop, gt_iff_lt, Nat.not_lt_zero, ↓reduceIte,
        Option.some.injEq] at hm
      subst hm
      exact Option.noConfusion hroot
    have hq : fillQueue (countFreq S) ≠ [] := by
      intro h0
      have := fillQueue_length (countFreq S)
      rw [h0] at this
      exact hne (List.length_eq_zero.1 this.symm)
    obtain ⟨r', hr', -⟩ := mergeLoop_spec _ _ hq (Nat.le_succ _)
    rw [hm] at hr'
    cases hr'
    have hroot' : root = r' := by
      simp only [Option.bind_eq_bind, Option.some_bind, PQ.top, Option.some.injEq] at hroot
      exact hroot.symm
    subst hroot'
    have hex := mergeLoop_exact _ _ _ S.length hU ?_ ?_ hm
    · refine ⟨hex.1 root (List.mem_singleton_self _), ?_⟩
      simpa using hex.2
    · intro n hn
      rw [(fillQueue_perm _).mem_iff] at hn
      obtain ⟨b, -, rfl⟩ := List.mem_map.1 hn
      exact Node.exact_leaf _ _
    · rw [((fillQueue_perm _).map _).sum_eq, List.map_map]
      have : (Node.weight ∘ fun b : Byte => Node.leaf (b.val : Int) ((countFreq S).get b))
          = fun b => S.count b := by
        funext b
        simp [Node.weight, Node.leaves, countFreq_get_of_lt S hU]
      rw [this]
      exact sum_present_counts S hU

/-! ## Code lengths under the inequality of Kraft -/

theorem kraftSum_perm (N : Nat) {L L' : List (Nat × Nat)} (h : List.Perm L L') :
    kraftSum N L = kraftSum N L' :=
  (h.map _).sum_eq

theorem lenCost_perm {L L' : List (Nat × Nat)} (h : List.Perm L L') : lenCost L = lenCost L' :=
  (h.map _).sum_eq

theorem kraftSum_cons (N : Nat) (e : Nat × Nat) (L : List (Nat × Nat)) :
    kraftSum N (e :: L) = 2 ^ (N - e.2) + kraftSum N L := by
  simp [kraftSum]

theorem lenCost_cons (e : Nat × Nat) (L : List (Nat × Nat)) :
    lenCost (e :: L) = e.1 * e.2 + lenCost L := by
  simp [lenCost]

theorem Kraft.perm {N : Nat} {L L' : List (Nat × Nat)} (h : List.Perm L L') (hk : Kraft N L) :
    Kraft N L' :=
  ⟨fun e he => hk.1 e (h.mem_iff.2 he), by rw [← kraftSum_perm N h]; exact hk.2⟩

theorem exists_max_snd (L : List (Nat × Nat)) (h : L ≠ []) :
    ∃ e0 ∈ L, ∀ e ∈ L, e.2 ≤ e0.2 := by
  induction L with
  | nil => exact absurd rfl h
  | cons x xs ih =>
    by_cases hxs : xs = []
    · subst hxs
      exact ⟨x, List.mem_singleton_self _, fun e he => by
        rw [List.mem_singleton.1 he]⟩
    · obtain ⟨e0, he0, hmax⟩ := ih hxs
      by_cases hx : x.2 ≤ e0.2
      · refine ⟨e0, List.mem_cons_of_mem _ he0, ?_⟩
        intro e he
        rcases List.mem_cons.1 he with rfl | he
        · exact hx
        · exact hmax e he
      · refine ⟨x, List.mem_cons_self _ _, ?_⟩
        intro e he
        rcases List.mem_cons.1 he with rfl | he
        · exact le_refl _
        · have := hmax e he
          omega

/-- The scaled Kraft sum of code lengths below `D` is a multiple of `2 ^ (N - D + 1)`. -/
theorem kraftSum_dvd (N D : Nat) (hD : D ≤ N) (L : List (Nat × Nat)) (h : ∀ e ∈ L, e.2 < D) :
    2 ^ (N - D + 1) ∣ kraftSum N L := by
  induction L with
  | nil => simp [kraftSum]
  | cons x xs ih =>
    rw [kraftSum_cons]
    refine Dvd.dvd.add ?_ (ih (fun e he => h e (List.mem_cons_of_mem _ he)))
    have := h x (List.mem_cons_self _ _)
    exact Nat.pow_dvd_pow 2 (by omega)

/-- The one entry of greatest code length can do with one bit less. -/
theorem kraft_lower (N : Nat) (w D : Nat) (L0 : List (Nat × Nat)) (hD1 : 1 ≤ D)
    (hk : Kraft N ((w, D) :: L0)) (h : ∀ e ∈ L0, e.2 < D) :
    Kraft N ((w, D - 1) :: L0) := by
  have hDN : D ≤ N := hk.1 (w, D) (List.mem_cons_self _ _)
  refine ⟨?_, ?_⟩
  · intro e he
    rcases List.mem_cons.1 he with rfl | he
    · simp only; omega
    · exact hk.1 e (List.mem_cons_of_mem _ he)
  · have hsum := hk.2
    rw [kraftSum_cons] at hsum ⊢
    simp only at hsum ⊢
    obtain ⟨k, hk'⟩ := kraftSum_dvd N D hDN L0 h
    have hu : (2 : Nat) ^ (N - D + 1) = 2 * 2 ^ (N - D) := by
      rw [pow_succ]; ring
    have hN : (2 : Nat) ^ N = 2 * 2 ^ (N - D) * 2 ^ (D - 1) := by
      rw [← hu, ← pow_add]; congr 1; omega
    have hND : N - (D - 1) = N - D + 1 := by omega
    have hpos : 0 < (2 : Nat) ^ (N - D) := Nat.pow_pos (by decide)
    rw [hu] at hk'
    rw [hND, hu, hk', hN]
    rw [hk', hN] at hsum
    generalize (2 : Nat) ^ (N - D) = u at hsum hpos ⊢
    generalize (2 : Nat) ^ (D - 1) = m at hsum ⊢
    have h1 : u * (1 + 2 * k) ≤ u * (2 * m) := by
      calc u * (1 + 2 * k) = u + 2 * u * k := by ring
        _ ≤ 2 * u * m := hsum
        _ = u * (2 * m) := by ring
    have h2 : 1 + 2 * k ≤ 2 * m := Nat.le_of_mul_le_mul_left h1 hpos
    have h3 : k + 1 ≤ m := by omega
    calc 2 * u + 2 * u * k = 2 * u * (k + 1) := by ring
      _ ≤ 2 * u * m := Nat.mul_le_mul_left _ h3

/-- Code lengths that satisfy the inequality of Kraft can be shortened, without changing the
weights, until the greatest length `D` occurs at least twice. -/
theorem kraft_two_max (N : Nat) : ∀ (T : Nat) (L : List (Nat × Nat)),
    (L.map Prod.snd).sum ≤ T → 2 ≤ L.length → Kraft N L →
    ∃ L1 D, Kraft N L1 ∧ List.Perm (L1.map Prod.fst) (L.map Prod.fst)
      ∧ lenCost L1 ≤ lenCost L ∧ (∀ e ∈ L1, e.2 ≤ D) ∧ 2 ≤ (L1.map Prod.snd).count D
      ∧ 1 ≤ D := by
  intro T
  induction T with
  | zero =>
    intro L hT hlen hk
    exfalso
    match L, hlen with
    | e0 :: e1 :: rest, _ =>
      simp only [List.map_cons, List.sum_cons] at hT
      have h0 : e0.2 = 0 := by omega
      have h1 : e1.2 = 0 := by omega
      have := hk.2
      rw [kraftSum_cons, kraftSum_cons, h0, h1] at this
      have hpos : 0 < (2 : Nat) ^ N := Nat.pow_pos (by decide)
      simp only [Nat.sub_zero] at this
      omega
  | succ T ih =>
    intro L hT hlen hk
    have hne : L ≠ [] := by
      intro h0; rw [h0] at hlen; simp at hlen
    obtain ⟨e0, he0, hmax⟩ := exists_max_snd L hne
    obtain ⟨L0, hp⟩ : ∃ L0, List.Perm L (e0 :: L0) := ⟨_, List.perm_cons_erase he0⟩
    by_cases hD : e0.2 ∈ L0.map Prod.snd
    · -- the greatest length occurs twice
      have hcount : 2 ≤ (L.map Prod.snd).count e0.2 := by
        rw [(hp.map Prod.snd).count_eq, List.map_cons, List.count_cons_self]
        have := List.count_pos_iff.2 hD
        omega
      by_cases hD0 : e0.2 = 0
      · exfalso
        obtain ⟨e1, he1, he1D⟩ := List.mem_map.1 hD
        obtain ⟨L1, hp1⟩ : ∃ L1, List.Perm L0 (e1 :: L1) := ⟨_, List.perm_cons_erase he1⟩
        have hk2 := hk.2
        rw [kraftSum_perm N (hp.trans (List.Perm.cons e0 hp1)), kraftSum_cons, kraftSum_cons,
          he1D, hD0] at hk2
        have hpos : 0 < (2 : Nat) ^ N := Nat.pow_pos (by decide)
        simp only [Nat.sub_zero] at hk2
        omega
      · exact ⟨L, e0.2, hk, List.Perm.refl _, le_refl _, hmax, hcount, by omega⟩
    · -- the greatest length occurs once: lower it
      have hlt : ∀ e ∈ L0, e.2 < e0.2 := by
        intro e he
        have h1 := hmax e (hp.mem_iff.2 (List.mem_cons_of_mem _ he))
        have h2 : e.2 ≠ e0.2 := fun h => hD (List.mem_map.2 ⟨e, he, h⟩)
        omega
      have hlen0 : L0.length + 1 = L.length := by
        have := hp.length_eq; simp at this; omega
      have hne0 : L0 ≠ [] := by
        intro h0; rw [h0] at hlen0; simp at hlen0; omega
      obtain ⟨e1, he1⟩ := List.exists_mem_of_ne_nil _ hne0
      have hD1 : 1 ≤ e0.2 := by have := hlt e1 he1; omega
      have hk0 : Kraft N ((e0.1, e0.2) :: L0) := hk.perm hp
      have hk1 := kraft_lower N e0.1 e0.2 L0 hD1 hk0 hlt
      have hsum1 : (((e0.1, e0.2 - 1) :: L0).map Prod.snd).sum ≤ T := by
        have := (hp.map Prod.snd).sum_eq
        simp only [List.map_cons, List.sum_cons] at this ⊢
        omega
      obtain ⟨L2, D, hk2, hp2, hc2, hmax2, hcount2, hD2⟩ :=
        ih ((e0.1, e0.2 - 1) :: L0) hsum1 (by simp; omega) hk1
      refine ⟨L2, D, hk2, hp2.trans ?_, hc2.trans ?_, hmax2, hcount2, hD2⟩
      · exact (hp.map Prod.fst).symm
      · rw [lenCost_perm hp, lenCost_cons, lenCost_cons]
        simp only
        exact Nat.add_le_add_right (Nat.mul_le_mul_left _ (Nat.sub_le _ _)) _

/-- In a list with an entry of the greatest length `D`, the least weight `w` can take a slot of
length `D` without a higher cost: what is left are the other weights on the other slots. -/
theorem kraft_place (M : List (Nat × Nat)) (D w : Nat) (hmax : ∀ e ∈ M, e.2 ≤ D)
    (hD : D ∈ M.map Prod.snd) (hw : w ∈ M.map Prod.fst) (hmin : ∀ e ∈ M, w ≤ e.1) :
    ∃ M', List.Perm (M.map Prod.fst) (w :: M'.map Prod.fst)
      ∧ List.Perm (M.map Prod.snd) (D :: M'.map Prod.snd)
      ∧ lenCost ((w, D) :: M') ≤ lenCost M := by
  obtain ⟨ew, hew, rfl⟩ := List.mem_map.1 hw
  obtain ⟨M0, hp⟩ : ∃ M0, List.Perm M (ew :: M0) := ⟨_, List.perm_cons_erase hew⟩
  by_cases hd : ew.2 = D
  · refine ⟨M0, hp.map Prod.fst, ?_, ?_⟩
    · have := hp.map Prod.snd
      rw [List.map_cons, hd] at this
      exact this
    · rw [lenCost_perm hp, lenCost_cons, lenCost_cons, hd]
  · obtain ⟨e, he, heD⟩ := List.mem_map.1 hD
    have hne : e ≠ ew := fun h => hd (h ▸ heD)
    have he1 : e ∈ M0 := by
      rcases List.mem_cons.1 (hp.mem_iff.1 he) with h | h
      · exact absurd h hne
      · exact h
    obtain ⟨M1, hp1⟩ : ∃ M1, List.Perm M0 (e :: M1) := ⟨_, List.perm_cons_erase he1⟩
    have hp2 : List.Perm M (ew :: e :: M1) := hp.trans (List.Perm.cons ew hp1)
    refine ⟨(e.1, ew.2) :: M1, ?_, ?_, ?_⟩
    · exact hp2.map Prod.fst
    · have := hp2.map Prod.snd
      simp only [List.map_cons] at this ⊢
      rw [heD] at this
      exact this.trans (List.Perm.swap _ _ _)
    · rw [lenCost_perm hp2]
      simp only [lenCost_cons]
      have h1 : ew.1 ≤ e.1 := hmin e he
      have h2 : ew.2 ≤ D := hmax ew hew
      rw [heD]
      obtain ⟨k, hk⟩ : ∃ k, D = ew.2 + k := ⟨D - ew.2, by omega⟩
      rw [hk]
      have h3 : ew.1 * k ≤ e.1 * k := Nat.mul_le_mul_right _ h1
      simp only [Nat.mul_add]
      omega

theorem kraftSum_eq_of_snd (N : Nat) (L : List (Nat × Nat)) (ds : List Nat)
    (h : List.Perm (L.map Prod.snd) ds) :
    kraftSum N L = (ds.map (fun d => 2 ^ (N - d))).sum := by
  rw [← (h.map _).sum_eq, List.map_map]
  rfl

/-- The exchange step of the optimality proof: when `a` and `b` are the two least weights of a
list of code lengths that satisfies the inequality of Kraft, there are code lengths for the
weights with `a` and `b` replaced by `a + b` that satisfy it too and cost at least `a + b`
less. -/
theorem kraft_merge (N : Nat) (L : List (Nat × Nat)) (a b : Nat) (rest : List Nat)
    (hk : Kraft N L) (hp : List.Perm (L.map Prod.fst) (a :: b :: rest))
    (ha : ∀ x ∈ b :: rest, a ≤ x) (hb : ∀ x ∈ rest, b ≤ x) :
    ∃ L', Kraft N L' ∧ List.Perm (L'.map Prod.fst) ((a + b) :: rest)
      ∧ lenCost L' + a + b ≤ lenCost L := by
  have hlen : 2 ≤ L.length := by
    have := hp.length_eq
    simp at this
    omega
  obtain ⟨L1, D, hk1, hp1, hc1, hmax1, hcount1, hD1⟩ :=
    kraft_two_max N _ L (le_refl _) hlen hk
  have hpa : List.Perm (L1.map Prod.fst) (a :: b :: rest) := hp1.trans hp
  have hDmem : D ∈ L1.map Prod.snd := List.count_pos_iff.1 (by omega)
  have hDN : D ≤ N := by
    obtain ⟨e, he, heD⟩ := List.mem_map.1 hDmem
    rw [← heD]; exact hk1.1 e he
  -- place `a`
  obtain ⟨M1, hf1, hs1, hcost1⟩ := kraft_place L1 D a hmax1 hDmem
    (hpa.mem_iff.2 (List.mem_cons_self _ _))
    (fun e he => by
      rcases List.mem_cons.1 (hpa.mem_iff.1 (List.mem_map_of_mem Prod.fst he)) with h | h
      · exact le_of_eq h.symm
      · exact ha _ h)
  have hpb : List.Perm (M1.map Prod.fst) (b :: rest) := (hf1.symm.trans hpa).cons_inv
  have hmaxL1 : ∀ d ∈ L1.map Prod.snd, d ≤ D := by
    intro d hd
    obtain ⟨e, he, rfl⟩ := List.mem_map.1 hd
    exact hmax1 e he
  have hmaxM1 : ∀ e ∈ M1, e.2 ≤ D := fun e he =>
    hmaxL1 _ (hs1.mem_iff.2 (List.mem_cons_of_mem _ (List.mem_map_of_mem Prod.snd he)))
  have hDmem1 : D ∈ M1.map Prod.snd := by
    have h := hs1.count_eq D
    rw [List.count_cons_self] at h
    exact List.count_pos_iff.1 (by omega)
  -- place `b`
  obtain ⟨M2, hf2, hs2, hcost2⟩ := kraft_place M1 D b hmaxM1 hDmem1
    (hpb.mem_iff.2 (List.mem_cons_self _ _))
    (fun e he => by
      rcases List.mem_cons.1 (hpb.mem_iff.1 (List.mem_map_of_mem Prod.fst he)) with h | h
      · exact le_of_eq h.symm
      · exact hb _ h)
  have hpr : List.Perm (M2.map Prod.fst) rest := (hf2.symm.trans hpb).cons_inv.symm.symm
  have hsnd : List.Perm (L1.map Prod.snd) (D :: D :: M2.map Prod.snd) :=
    hs1.trans (List.Perm.cons D hs2)
  refine ⟨(a + b, D - 1) :: M2, ⟨?_, ?_⟩, ?_, ?_⟩
  · intro e he
    rcases List.mem_cons.1 he with rfl | he
    · simp only; omega
    · have : e.2 ≤ D :=
        hmaxL1 _ (hsnd.mem_iff.2 (List.mem_cons_of_mem _ (List.mem_cons_of_mem _
          (List.mem_map_of_mem Prod.snd he))))
      omega
  · have h1 := hk1.2
    rw [kraftSum_eq_of_snd N L1 _ hsnd] at h1
    rw [kraftSum_cons]
    simp only [List.map_cons, List.sum_cons] at h1 ⊢
    have h2 : kraftSum N M2 = ((M2.map Prod.snd).map (fun d => 2 ^ (N - d))).sum :=
      kraftSum_eq_of_snd N M2 _ (List.Perm.refl _)
    rw [h2]
    have h3 : (2 : Nat) ^ (N - (D - 1)) = 2 ^ (N - D) + 2 ^ (N - D) := by
      have : N - (D - 1) = (N - D) + 1 := by omega
      rw [this, pow_succ]; ring
    rw [h3]
    omega
  · simp only [List.map_cons]
    exact List.Perm.cons _ hpr
  · rw [lenCost_cons] at hcost1 hcost2 ⊢
    simp only at hcost1 hcost2 ⊢
    obtain ⟨k, rfl⟩ : ∃ k, D = k + 1 := ⟨D - 1, by omega⟩
    simp only [Nat.add_sub_cancel]
    have e1 : (a + b) * k + lenCost M2 + a + b = a * (k + 1) + (b * (k + 1) + lenCost M2) := by
      ring
    rw [e1]
    omega

/-! ## Optimality of the merge loop -/

theorem Node.cost_merge (a b : Node) :
    (Node.merge a b).cost = a.cost + b.cost + a.weight + b.weight := rfl

theorem Node.keyLe_freq {a b : Node} (h : a.keyLe b) : a.freq ≤ b.freq := by
  unfold Node.keyLe at h
  omega

/-- The tree the merge loop makes of a queue costs no more than the trees of the queue hung at
any depths that satisfy the inequality of Kraft. -/
theorem mergeLoop_optimal (N : Nat) : ∀ (fuel : Nat) (q : PQ) (r : Node), PQ.IsHeap q →
    (∀ n ∈ q, n.Exact) → (q.map Node.weight).sum < U64 → mergeLoop fuel q = some [r] →
    ∀ L : List (Nat × Nat), Kraft N L → List.Perm (L.map Prod.fst) (q.map Node.weight) →
      r.cost ≤ (q.map Node.cost).sum + lenCost L := by
  intro fuel
  induction fuel with
  | zero =>
    intro q r _ _ _ h L _ _
    unfold mergeLoop at h
    split at h
    · exact Option.noConfusion h
    · cases h
      simp
  | succ fuel ih =>
    intro q r hheap hex hsum h L hk hp
    by_cases hq : 2 ≤ q.length
    · obtain ⟨a, b, -, -, hpa, hpb, hmin, hloop⟩ := mergeLoop_step q hq
      obtain ⟨hmina, hminb, hheap'⟩ := hmin hheap
      rw [hloop fuel] at h
      have hperm : List.Perm q (a :: b :: PQ.pop (PQ.pop q)) :=
        hpa.trans (List.Perm.cons a hpb)
      generalize PQ.pop (PQ.pop q) = rest at hperm h hpb hheap'
      have hpush := PQ.push_perm rest (Node.merge a b)
      have haq : a ∈ q := hperm.mem_iff.2 (List.mem_cons_self _ _)
      have hbq : b ∈ q := hperm.mem_iff.2 (List.mem_cons_of_mem _ (List.mem_cons_self _ _))
      have hrq : ∀ n ∈ rest, n ∈ q := fun n hn =>
        hperm.mem_iff.2 (List.mem_cons_of_mem _ (List.mem_cons_of_mem _ hn))
      have hea := hex a haq
      have heb := hex b hbq
      have hw : (q.map Node.weight).sum = a.weight + b.weight + (rest.map Node.weight).sum := by
        rw [(hperm.map Node.weight).sum_eq]
        simp only [List.map_cons, List.sum_cons]
        omega
      have hc : (q.map Node.cost).sum = a.cost + b.cost + (rest.map Node.cost).sum := by
        rw [(hperm.map Node.cost).sum_eq]
        simp only [List.map_cons, List.sum_cons]
        omega
      have hem : (Node.merge a b).Exact := Node.exact_merge a b hea heb (by omega)
      -- the two least weights
      have hpw : List.Perm (L.map Prod.fst) (a.weight :: b.weight :: rest.map Node.weight) :=
        hp.trans (hperm.map Node.weight)
      have ha' : ∀ x ∈ b.weight :: rest.map Node.weight, a.weight ≤ x := by
        intro x hx
        rcases List.mem_cons.1 hx with rfl | hx
        · have := Node.keyLe_freq (hmina b hbq)
          rw [hea.1, heb.1] at this
          exact this
        · obtain ⟨n, hn, rfl⟩ := List.mem_map.1 hx
          have := Node.keyLe_freq (hmina n (hrq n hn))
          rw [hea.1, (hex n (hrq n hn)).1] at this
          exact this
      have hb' : ∀ x ∈ rest.map Node.weight, b.weight ≤ x := by
        intro x hx
        obtain ⟨n, hn, rfl⟩ := List.mem_map.1 hx
        have := Node.keyLe_freq (hminb n (hpb.mem_iff.2 (List.mem_cons_of_mem _ hn)))
        rw [heb.1, (hex n (hrq n hn)).1] at this
        exact this
      obtain ⟨L', hk', hp', hcost'⟩ := kraft_merge N L _ _ _ hk hpw ha' hb'
      have hq' : ∀ n ∈ PQ.push rest (Node.merge a b), n.Exact := by
        intro n hn
        rcases List.mem_cons.1 (hpush.mem_iff.1 hn) with rfl | hn
        · exact hem
        · exact hex n (hrq n hn)
      have hsumeq : ((PQ.push rest (Node.merge a b)).map Node.weight).sum
          = a.weight + b.weight + (rest.map Node.weight).sum := by
        rw [(hpush.map Node.weight).sum_eq]
        simp only [List.map_cons, List.sum_cons, Node.weight_merge]
      have hcosteq : ((PQ.push rest (Node.merge a b)).map Node.cost).sum
          = a.cost + b.cost + a.weight + b.weight + (rest.map Node.cost).sum := by
        rw [(hpush.map Node.cost).sum_eq]
        simp only [List.map_cons, List.sum_cons, Node.cost_merge]
      have hsum' : ((PQ.push rest (Node.merge a b)).map Node.weight).sum < U64 := by
        rw [hsumeq]
        omega
      have hpL' : List.Perm (L'.map Prod.fst) ((PQ.push rest (Node.merge a b)).map Node.weight) := by
        refine hp'.trans ?_
        have := (hpush.map Node.weight).symm
        simp only [List.map_cons, Node.weight_merge] at this
        exact this
      have := ih _ r hheap' hq' hsum' h L' hk' hpL'
      rw [hcosteq] at this
      omega
    · unfold mergeLoop at h
      have : ¬ q.length > 1 := by omega
      simp only [this, ↓reduceIte, Option.some.injEq] at h
      subst h
      simp

/-! ## The inequality of Kraft for prefix-free codes -/

theorem sum_stripBit (N : Nat) (C : List (List Bool)) (h : ∀ c ∈ C, c ≠ []) :
    (C.map (fun c => 2 ^ (N + 1 - c.length))).sum
      = ((C.filterMap (stripBit false)).map (fun c => 2 ^ (N - c.length))).sum
        + ((C.filterMap (stripBit true)).map (fun c => 2 ^ (N - c.length))).sum := by
  induction C with
  | nil => rfl
  | cons c C ih =>
    have ih' := ih (fun d hd => h d (List.mem_cons_of_mem _ hd))
    cases c with
    | nil => exact absurd rfl (h [] (List.mem_cons_self _ _))
    | cons x t =>
      cases x with
      | false =>
        simp only [List.map_cons, List.sum_cons, List.filterMap_cons, stripBit, ↓reduceIte,
          List.length_cons, Nat.add_sub_add_right, Bool.false_eq_true, ih']
        omega
      | true =>
        simp only [List.map_cons, List.sum_cons, List.filterMap_cons, stripBit, ↓reduceIte,
          List.length_cons, Nat.add_sub_add_right, Bool.true_eq_false, ih']
        omega

theorem mem_filterMap_stripBit (b : Bool) (C : List (List Bool)) (t : List Bool)
    (h : t ∈ C.filterMap (stripBit b)) : (b :: t) ∈ C := by
  obtain ⟨c, hc, hs⟩ := List.mem_filterMap.1 h
  cases c with
  | nil => simp [stripBit] at hs
  | cons x t' =>
    simp only [stripBit] at hs
    split at hs
    · rename_i hx
      simp only [Option.some.injEq] at hs
      subst hs; subst hx
      exact hc
    · exact Option.noConfusion hs

theorem pairwise_stripBit (b : Bool) (C : List (List Bool))
    (h : C.Pairwise (fun c d => ¬ c <+: d ∧ ¬ d <+: c)) :
    (C.filterMap (stripBit b)).Pairwise (fun c d => ¬ c <+: d ∧ ¬ d <+: c) := by
  refine List.Pairwise.filterMap (stripBit b) ?_ h
  intro c d hcd t ht u hu
  cases c with
  | nil => simp [stripBit] at ht
  | cons x c' =>
    cases d with
    | nil => simp [stripBit] at hu
    | cons y d' =>
      simp only [stripBit, Option.mem_def] at ht hu
      split at ht
      · split at hu
        · rename_i hx hy
          simp only [Option.some.injEq] at ht hu
          subst ht; subst hu; subst hx; subst hy
          simpa [List.prefix_cons_inj] using hcd
        · exact Option.noConfusion hu
      · exact Option.noConfusion ht

/-- The inequality of Kraft: the code lengths `l` of a prefix-free list of codes of at most `N`
bits satisfy `∑ 2 ^ (N - l) ≤ 2 ^ N`. -/
theorem kraft_of_prefix_free : ∀ (N : Nat) (C : List (List Bool)),
    (∀ c ∈ C, c.length ≤ N) → C.Pairwise (fun c d => ¬ c <+: d ∧ ¬ d <+: c) →
    (C.map (fun c => 2 ^ (N - c.length))).sum ≤ 2 ^ N := by
  intro N
  induction N with
  | zero =>
    intro C hlen hpw
    match C, hlen, hpw with
    | [], _, _ => simp
    | [c], _, _ => simp
    | c :: d :: rest, hlen, hpw =>
      exfalso
      have hc : c = [] := List.length_eq_zero.1 (Nat.le_zero.1 (hlen c (List.mem_cons_self _ _)))
      have := (List.pairwise_cons.1 hpw).1 d (List.mem_cons_self _ _)
      rw [hc] at this
      exact this.1 (List.nil_prefix)
  | succ N ih =>
    intro C hlen hpw
    by_cases hnil : [] ∈ C
    · -- the empty code is the only code
      have hsymm : Symmetric (fun c d : List Bool => ¬ c <+: d ∧ ¬ d <+: c) :=
        fun c d h => ⟨h.2, h.1⟩
      obtain ⟨C0, hp⟩ : ∃ C0, List.Perm C ([] :: C0) := ⟨_, List.perm_cons_erase hnil⟩
      have hpw' := (hp.pairwise_iff (fun {c d} h => hsymm h)).1 hpw
      have hC0 : C0 = [] := by
        cases C0 with
        | nil => rfl
        | cons d rest =>
          exfalso
          exact ((List.pairwise_cons.1 hpw').1 d (List.mem_cons_self _ _)).1 List.nil_prefix
      rw [hC0] at hp
      rw [((hp.map _).sum_eq)]
      simp
    · have hne : ∀ c ∈ C, c ≠ [] := fun c hc h => hnil (h ▸ hc)
      rw [sum_stripBit N C hne]
      have h0 := ih (C.filterMap (stripBit false))
        (fun t ht => by
          have := hlen _ (mem_filterMap_stripBit false C t ht)
          simp only [List.length_cons] at this
          omega)
        (pairwise_stripBit false C hpw)
      have h1 := ih (C.filterMap (stripBit true))
        (fun t ht => by
          have := hlen _ (mem_filterMap_stripBit true C t ht)
          simp only [List.length_cons] at this
          omega)
        (pairwise_stripBit true C hpw)
      rw [pow_succ]
      omega

/-! ## The cost of the tree of an input -/

theorem Node.weight_inner (f : Nat) (l r : Node) :
    (Node.inner f l r).weight = l.weight + r.weight := by
  simp [Node.weight, Node.leaves]

/-- With codes that are the paths of the tree, the sum over the leaves of frequency times code
length is the cost of the tree, plus the weight of the tree for every turn before it. -/
theorem Node.cost_paths (n : Node) : ∀ (pre : List Bool) (c : Int → List Bool),
    (∀ s p, (s, p) ∈ n.paths pre → c s = p) →
    (n.leaves.map (fun e => e.2 * (c e.1).length)).sum = n.cost + n.weight * pre.length := by
  induction n with
  | leaf s f =>
    intro pre c hc
    have := hc s pre (by simp [Node.paths])
    simp [Node.leaves, Node.cost, Node.weight, this]
  | inner f l r ihl ihr =>
    intro pre c hc
    have hl := ihl (pre ++ [false]) c (fun s p hsp => hc s p (by
      simp only [Node.paths, List.mem_append]; exact Or.inl hsp))
    have hr := ihr (pre ++ [true]) c (fun s p hsp => hc s p (by
      simp only [Node.paths, List.mem_append]; exact Or.inr hsp))
    simp only [Node.leaves, List.map_append, List.sum_append, hl, hr, Node.cost,
      Node.weight_inner, List.length_append, List.length_singleton]
    ring

/-- A sum over the bytes of an input is the sum over the byte values present of the number of
occurrences times the summand. -/
theorem sum_map_eq_present (S : List Byte) (hU : S.length < U64) (h : Byte → Nat) :
    (S.map h).sum = ((presentSymbols (countFreq S)).map (fun b => S.count b * h b)).sum := by
  rw [Finset.sum_list_map_count, ← List.sum_toFinset _ (presentSymbols_nodup _)]
  have : (presentSymbols (countFreq S)).toFinset = S.toFinset := by
    ext b
    simp only [List.mem_toFinset]
    exact mem_presentSymbols_countFreq S hU b
  rw [this]
  simp only [smul_eq_mul]

/-- The sum of the code lengths over the bytes of an input with two distinct byte values is the
cost of the tree. -/
theorem sum_code_lengths_eq_cost (S : List Byte) (hU : S.length < U64)
    (h2 : ∃ a ∈ S, ∃ b ∈ S, a ≠ b) (root : Node) (hroot : buildTree (countFreq S) = some root) :
    (S.map (fun b => (codesOf S (b.val : Int)).length)).sum = root.cost := by
  have hleaf := two_distinct_inner S hU h2 root hroot
  have hne : presentSymbols (countFreq S) ≠ [] := by
    intro h0
    rw [buildTree_none _ h0] at hroot
    exact Option.noConfusion hroot
  obtain ⟨r, hr, hperm⟩ := buildTree_spec _ hne
  rw [hroot] at hr
  cases hr
  have hc : ∀ s p, (s, p) ∈ root.paths [] → codesOf S s = p := by
    intro s p hsp
    have hnd : ((root.paths []).map Prod.fst).Nodup := by
      rw [Node.paths_fst]; exact leaves_fst_nodup _ root hroot
    rw [codesOf_eq S root hroot, buildCodes_root, root.codePaths_of_inner hleaf]
    exact foldl_update_mem _ _ _ p hnd hsp
  have h1 := root.cost_paths [] (codesOf S) hc
  simp only [List.length_nil, Nat.mul_zero, Nat.add_zero] at h1
  rw [← h1, sum_map_eq_present S hU, ((hperm.map _).sum_eq), List.map_map]
  apply congrArg
  apply List.map_congr_left
  intro b _
  simp only [Function.comp_apply]
  rw [countFreq_get_of_lt S hU]

/-- The cost of the tree of an input is at most the cost of any code lengths for the byte values
present that satisfy the inequality of Kraft. -/
theorem buildTree_optimal (S : List Byte) (hU : S.length < U64) (root : Node)
    (hroot : buildTree (countFreq S) = some root) (N : Nat) (len : Byte → Nat)
    (hk : Kraft N ((presentSymbols (countFreq S)).map (fun b => (S.count b, len b)))) :
    root.cost ≤ ((presentSymbols (countFreq S)).map (fun b => S.count b * len b)).sum := by
  unfold buildTree at hroot
  cases hm : mergeLoop (fillQueue (countFreq S)).length (fillQueue (countFreq S)) with
  | none => rw [hm] at hroot; exact Option.noConfusion hroot
  | some r =>
    rw [hm] at hroot
    have hq : fillQueue (countFreq S) ≠ [] := by
      intro h0
      rw [h0] at hm
      simp only [List.length_nil, mergeLoop, gt_iff_lt, Nat.not_lt_zero, ↓reduceIte,
        Option.some.injEq] at hm
      subst hm
      exact Option.noConfusion hroot
    obtain ⟨r', hr', -⟩ := mergeLoop_spec _ _ hq (Nat.le_succ _)
    rw [hm] at hr'
    cases hr'
    have hroot' : root = r' := by
      simp only [Option.bind_eq_bind, Option.some_bind, PQ.top, Option.some.injEq] at hroot
      exact hroot.symm
    subst hroot'
    have hwq : ((fillQueue (countFreq S)).map Node.weight).Perm
        ((presentSymbols (countFreq S)).map (fun b => S.count b)) := by
      refine ((fillQueue_perm _).map _).trans ?_
      rw [List.map_map]
      apply List.Perm.of_eq
      apply List.map_congr_left
      intro b _
      simp [Node.weight, Node.leaves, countFreq_get_of_lt S hU]
    have hcq : ((fillQueue (countFreq S)).map Node.cost).sum = 0 := by
      apply List.sum_eq_zero
      intro x hx
      obtain ⟨n, hn, rfl⟩ := List.mem_map.1 hx
      rw [(fillQueue_perm _).mem_iff] at hn
      obtain ⟨b, -, rfl⟩ := List.mem_map.1 hn
      rfl
    have hopt := mergeLoop_optimal N _ _ root (fillQueue_isHeap _)
      (fun n hn => by
        rw [(fillQueue_perm _).mem_iff] at hn
        obtain ⟨b, -, rfl⟩ := List.mem_map.1 hn
        exact Node.exact_leaf _ _)
      (by rw [hwq.sum_eq, sum_present_counts S hU]; exact hU) hm _ hk
      (by rw [List.map_map]; exact hwq.symm)
    rw [hcq, Nat.zero_add] at hopt
    refine hopt.trans (le_of_eq ?_)
    simp only [lenCost, List.map_map]
    rfl

theorem sum_code_lengths (S : List Byte) :
    (codeBits (codesOf S) S).length = (S.map (fun b => (codesOf S (b.val : Int)).length)).sum := by
  unfold codeBits
  rw [List.length_flatMap]
  simp only [Function.comp_def]

/-- The sum of the code lengths over the bytes of a non-empty input is at most the cost of any
code lengths of at least one bit that satisfy the inequality of Kraft. -/
theorem code_lengths_le_of_kraft (S : List Byte) (hU : S.length < U64) (hne : S ≠ [])
    (N : Nat) (len : Byte → Nat) (hpos : ∀ b ∈ S, 1 ≤ len b)
    (hk : Kraft N ((presentSymbols (countFreq S)).map (fun b => (S.count b, len b)))) :
    (S.map (fun b => (codesOf S (b.val : Int)).length)).sum
      ≤ ((presentSymbols (countFreq S)).map (fun b => S.count b * len b)).sum := by
  obtain ⟨root, hroot, hcodes, -⟩ := encode_tree_facts S hU hne
  by_cases h2 : ∃ a ∈ S, ∃ b ∈ S, a ≠ b
  · rw [sum_code_lengths_eq_cost S hU h2 root hroot]
    exact buildTree_optimal S hU root hroot N len hk
  · -- one byte value: every code has one bit
    have hleaf : root.isLeaf = true := by
      by_contra hl
      have hl' : root.isLeaf = false := by simpa using hl
      cases root with
      | leaf s f => simp at hl'
      | inner f l r =>
        have hlen : 2 ≤ (Node.inner f l r).leaves.length := by
          have := l.leaves_length_pos
          have := r.leaves_length_pos
          simp only [Node.leaves, List.length_append]
          omega
        rw [leaves_length _ _ hroot] at hlen
        have hpres := mem_presentSymbols_countFreq S hU
        match hp : presentSymbols (countFreq S), hlen with
        | a :: b :: rest, _ =>
          have hnd := presentSymbols_nodup (countFreq S)
          rw [hp] at hnd
          have hab : a ≠ b := by
            intro h
            rw [h] at hnd
            exact (List.nodup_cons.1 hnd).1 (List.mem_cons_self _ _)
          have ha : a ∈ S := (hpres a).1 (by rw [hp]; exact List.mem_cons_self _ _)
          have hb : b ∈ S :=
            (hpres b).1 (by rw [hp]; exact List.mem_cons_of_mem _ (List.mem_cons_self _ _))
          exact h2 ⟨a, ha, b, hb, hab⟩
    have hone : ∀ b ∈ S, (codesOf S (b.val : Int)).length = 1 := by
      intro b hb
      have := hcodes b hb
      cases root with
      | inner f l r => simp at hleaf
      | leaf s f =>
        simp only [Node.codePaths, List.mem_singleton, Prod.mk.injEq] at this
        rw [this.2]
        rfl
    rw [sum_map_eq_present S hU]
    apply List.sum_le_sum
    intro b hb
    have hbS : b ∈ S := (mem_presentSymbols_countFreq S hU b).1 hb
    rw [hone b hbS]
    exact Nat.mul_le_mul_left _ (hpos b hbS)

/-- The code lengths of a prefix-free assignment of codes to the byte values present satisfy the
inequality of Kraft. -/
theorem kraft_of_assignment (S : List Byte) (hU : S.length < U64) (g : Byte → List Bool)
    (hg : ∀ a ∈ S, ∀ b ∈ S, a ≠ b → ¬ g a <+: g b) :
    ∃ N, Kraft N ((presentSymbols (countFreq S)).map (fun b => (S.count b, (g b).length))) := by
  have hpres := mem_presentSymbols_countFreq S hU
  by_cases hne : (presentSymbols (countFreq S)).map (fun b => (S.count b, (g b).length)) = []
  · exact ⟨0, by rw [hne]; exact ⟨fun e he => by simp at he, by simp [kraftSum]⟩⟩
  · obtain ⟨e0, -, hmax⟩ := exists_max_snd _ hne
    refine ⟨e0.2, hmax, ?_⟩
    have hpw : ((presentSymbols (countFreq S)).map g).Pairwise
        (fun c d => ¬ c <+: d ∧ ¬ d <+: c) := by
      rw [List.pairwise_map]
      refine List.Pairwise.imp_of_mem ?_ (presentSymbols_nodup (countFreq S))
      intro a b ha hb hab
      exact ⟨hg a ((hpres a).1 ha) b ((hpres b).1 hb) hab,
        hg b ((hpres b).1 hb) a ((hpres a).1 ha) (Ne.symm hab)⟩
    have hlen : ∀ c ∈ (presentSymbols (countFreq S)).map g, c.length ≤ e0.2 := by
      intro c hc
      obtain ⟨b, hb, rfl⟩ := List.mem_map.1 hc
      exact hmax (S.count b, (g b).length) (List.mem_map_of_mem _ hb)
    have := kraft_of_prefix_free e0.2 _ hlen hpw
    simp only [List.map_map] at this
    simp only [kraftSum, List.map_map]
    exact this

theorem sum_dedup_eq_present (S : List Byte) (hU : S.length < U64) (f : Byte → Nat) :
    (S.dedup.map f).sum = ((presentSymbols (countFreq S)).map f).sum :=
  (((presentSymbols_perm_dedup S hU).map f).sum_eq).symm

/-! ## The size of the container -/

theorem writeEntries_length (freq : FreqTable) :
    (writeEntries freq).length = 9 * (presentSymbols freq).length := by
  rw [writeEntries_eq]
  generalize presentSymbols freq = l
  induction l with
  | nil => rfl
  | cons a l ih =>
    rw [List.flatMap_cons, List.length_append, ih, List.length_cons, List.length_cons]
    have : (write_uint64 (freq.get a)).length = 8 := rfl
    omega

theorem container_length (freq : FreqTable) (totalBits : Nat) (payload : List Byte) :
    (container freq totalBits payload).length
      = 14 + 9 * countDistinct freq + payload.length := by
  unfold container
  simp only [List.length_append, writeEntries_length, countDistinct_eq]
  have h1 : magic.length = 4 := rfl
  have h2 : (write_uint16 (presentSymbols freq).length).length = 2 := rfl
  have h3 : (write_uint64 totalBits).length = 8 := rfl
  omega

theorem packData_length (codes : CodeTable) (data : List Byte) :
    (packData codes data).length = ((codeBits codes data).length + 7) / 8 := by
  have h := congrArg List.length (bitsOfBytes_packData codes data)
  rw [bitsOfBytes_length, List.length_append, List.length_replicate] at h
  omega

theorem sum_mul_le (l : List Byte) (f g : Byte → Nat) (k : Nat) (h : ∀ b ∈ l, g b ≤ k) :
    (l.map (fun b => f b * g b)).sum ≤ k * (l.map f).sum := by
  induction l with
  | nil => simp
  | cons a l ih =>
    have h1 := ih (fun b hb => h b (List.mem_cons_of_mem _ hb))
    have h2 : f a * g a ≤ k * f a := by
      rw [Nat.mul_comm k]
      exact Nat.mul_le_mul_left _ (h a (List.mem_cons_self _ _))
    simp only [List.map_cons, List.sum_cons, Nat.mul_add]
    omega

/-- The bit count of an input in which the byte value `a` dominates: one bit for every `a` and
at most nine bits for every other byte. -/
theorem sumBits_le_skewed (S : List Byte) (hlen : S.length < 2 ^ 56) (a : Byte) (ha : a ∈ S) :
    sumBits (codesOf S) S + 8 * S.count a ≤ 9 * S.length := by
  have hU : S.length < U64 := lt_trans hlen (by decide)
  have hne : S ≠ [] := List.ne_nil_of_mem ha
  obtain ⟨hsum, -, -⟩ := sumBits_of_lt S hlen hne
  have hap : a ∈ presentSymbols (countFreq S) := (mem_presentSymbols_countFreq S hU a).2 ha
  obtain ⟨rest, hp⟩ : ∃ rest, List.Perm (presentSymbols (countFreq S)) (a :: rest) :=
    ⟨_, List.perm_cons_erase hap⟩
  have hnd : (a :: rest).Nodup := hp.nodup_iff.1 (presentSymbols_nodup _)
  have hrest : ∀ b ∈ rest, b ≠ a := fun b hb h =>
    (List.nodup_cons.1 hnd).1 (h ▸ hb)
  have hrl : rest.length + 1 ≤ 256 := by
    have := hp.length_eq
    have := presentSymbols_length_le (countFreq S)
    simp only [List.length_cons] at *
    omega
  have hk : Kraft 9 ((presentSymbols (countFreq S)).map
      (fun b => (S.count b, if b = a then 1 else 9))) := by
    refine ⟨?_, ?_⟩
    · intro e he
      obtain ⟨b, -, rfl⟩ := List.mem_map.1 he
      simp only
      split <;> omega
    · rw [kraftSum_perm 9 (hp.map _)]
      simp only [List.map_cons, kraftSum_cons, ↓reduceIte]
      have : kraftSum 9 (rest.map (fun b => (S.count b, if b = a then 1 else 9)))
          ≤ rest.length := by
        unfold kraftSum
        rw [List.map_map]
        have h1 := List.sum_le_sum (l := rest)
          (f := (fun e : Nat × Nat => 2 ^ (9 - e.2)) ∘ fun b => (S.count b, if b = a then 1 else 9))
          (g := fun _ => 1) (fun b hb => by
            simp only [Function.comp_apply, hrest b hb, ↓reduceIte]
            decide)
        simpa using h1
      have h256 : (2 : Nat) ^ (9 - 1) = 256 := by decide
      have h512 : (2 : Nat) ^ 9 = 512 := by decide
      omega
  have h1 := code_lengths_le_of_kraft S hU hne 9 (fun b => if b = a then 1 else 9)
    (fun b _ => by simp only; split <;> omega) hk
  rw [← sum_code_lengths, ← hsum, ((hp.map _).sum_eq)] at h1
  simp only [List.map_cons, List.sum_cons, ↓reduceIte, Nat.mul_one] at h1
  have h2 := sum_mul_le rest (fun b => S.count b) (fun b => if b = a then 1 else 9) 9
    (fun b _ => by simp only; split <;> omega)
  simp only at h2
  have h3 := sum_present_counts S hU
  rw [((hp.map _).sum_eq)] at h3
  simp only [List.map_cons, List.sum_cons] at h3
  omega

/-- The function `compressFile` writes a container for every input: the tree construction never
takes the top of an empty queue. -/
theorem compressFile_total (data : List Byte) : ∃ c, compressFile data = some c := by
  by_cases h : presentSymbols (countFreq data) = []
  · have hq : fillQueue (countFreq data) = [] := fillQueue_eq_nil _ h
    refine ⟨magic ++ write_uint16 0 ++ write_uint64 0, ?_⟩
    unfold compressFile
    simp only [hq, List.isEmpty_nil, ↓reduceIte]
  · obtain ⟨root, hroot, -⟩ := buildTree_spec _ h
    exact ⟨_, compressFile_eq data root hroot⟩

/-! ## Codes and paths of any tree -/

theorem foldl_update_last {α β : Type} [DecidableEq α] (L1 L2 : List (α × β)) (c : α → β)
    (s : α) (v : β) (h : s ∉ L2.map Prod.fst) :
    ((L1 ++ (s, v) :: L2).foldl (fun c p => Function.update c p.1 p.2) c) s = v := by
  rw [List.foldl_append, List.foldl_cons, foldl_update_not_mem _ _ _ h, Function.update_same]

theorem Node.paths_ne_nil_of_inner (t : Node) (h : t.isLeaf = false) :
    ∀ s p, (s, p) ∈ t.paths [] → p ≠ [] := by
  cases t with
  | leaf s f => simp at h
  | inner f l r => exact fun s p hp => Node.paths_inner_ne_nil f l r s p hp

/-! # The claims -/

/-- C1. The round trip fails on the one-byte input `A` (`0x41`): `compressFile` writes the
24-byte container with one header entry, bit count 1 and the payload byte 0, and
`decompressFile` of that container, whose tree is a single leaf, takes the left child of the
root, which is a null pointer, and dereferences it; nothing is put. -/
theorem roundtrip_single_byte_fails :
    compressFile [65]
        = some [72, 70, 77, 49, 1, 0, 65, 1, 0, 0, 0, 0, 0, 0, 0, 1, 0, 0, 0, 0, 0, 0, 0, 0]
      ∧ decompressFile
          [72, 70, 77, 49, 1, 0, 65, 1, 0, 0, 0, 0, 0, 0, 0, 1, 0, 0, 0, 0, 0, 0, 0, 0]
        = Outcome.undefined UB.nullChild :=
  ⟨compressFile_replicate 1 65 (by decide) (by decide),
   decompressFile_replicate 1 65 (by decide) (by decide)⟩

/-- C2. Round trip under frequency ties: for every input `S` of fewer than `2 ^ 56` bytes (the
counters of the program are 64-bit) that contains at least two distinct byte values, whatever
the frequencies and their ties, `compressFile` produces a container and `decompressFile` of that
container succeeds with output `S`. -/
theorem roundtrip_two_distinct (S : List Byte) (hlen : S.length < 2 ^ 56)
    (h2 : ∃ a ∈ S, ∃ b ∈ S, a ≠ b) :
    ∃ c, compressFile S = some c ∧ decompressFile c = Outcome.success S := by
  have hU : S.length < U64 := lt_trans hlen (by decide)
  have hne : S ≠ [] := by
    obtain ⟨a, ha, -⟩ := h2
    exact List.ne_nil_of_mem ha
  obtain ⟨root, hroot, hcodes, -⟩ := encode_tree_facts S hU hne
  obtain ⟨hsum, hpos, hlt⟩ := sumBits_of_lt S hlen hne
  have hleaf := two_distinct_inner S hU h2 root hroot
  rw [root.codePaths_of_inner hleaf] at hcodes
  refine ⟨_, compressFile_eq S root hroot, ?_⟩
  rw [hsum, decompressFile_container _ _ _ (countFreq_lt S) hlt]
  have hc : ¬ ((presentSymbols (countFreq S)).length = 0
      ∨ (codeBits (codesOf S) S).length = 0) := by
    have := leaves_length _ root hroot
    have := root.leaves_length_pos
    omega
  rw [if_neg hc, hroot]
  simp only
  rw [walkBytes_packData S root hleaf hcodes]

/-- C2 at the input `0, 1, 2, 3, 4, 5`, in which the six byte values occur equally often and
so do the three internal nodes made of two leaves. -/
theorem roundtrip_two_distinct_witness :
    ([0, 1, 2, 3, 4, 5] : List Byte).length < 2 ^ 56
      ∧ (∃ a ∈ ([0, 1, 2, 3, 4, 5] : List Byte), ∃ b ∈ ([0, 1, 2, 3, 4, 5] : List Byte),
          a ≠ b)
      ∧ ∃ c, compressFile [0, 1, 2, 3, 4, 5] = some c
          ∧ decompressFile c = Outcome.success [0, 1, 2, 3, 4, 5] :=
  ⟨by decide, ⟨0, by decide, 1, by decide, by decide⟩,
   roundtrip_two_distinct [0, 1, 2, 3, 4, 5] (by decide)
    ⟨0, by decide, 1, by decide, by decide⟩⟩

/-- C3. Single repeated byte: for every `n` with `1 ≤ n < 2 ^ 64` and every byte value `b`, on
the input of `n` copies of `b` the tree `compressFile` builds is the single leaf of `b` with
frequency `n`, the code of `b` is the one bit `0`, and the container is the tag, the count 1, the
entry of `b` with frequency `n`, the bit count `n`, and `⌈n / 8⌉` payload bytes that are all
zero. -/
theorem single_repeated_byte (n : Nat) (b : Byte) (h1 : 1 ≤ n) (hn : n < 2 ^ 64) :
    buildTree (countFreq (List.replicate n b)) = some (Node.leaf (b.val : Int) n)
      ∧ codesOf (List.replicate n b) (b.val : Int) = [false]
      ∧ countDistinct (countFreq (List.replicate n b)) = 1
      ∧ sumBits (codesOf (List.replicate n b)) (List.replicate n b) = n
      ∧ packData (codesOf (List.replicate n b)) (List.replicate n b)
          = List.replicate ((n + 7) / 8) 0
      ∧ compressFile (List.replicate n b)
          = some (magic ++ write_uint16 1 ++ (b :: write_uint64 n) ++ write_uint64 n
              ++ List.replicate ((n + 7) / 8) 0) := by
  refine ⟨buildTree_replicate n b h1 hn, ?_, ?_, sumBits_replicate n b h1 hn,
    packData_replicate n b h1 hn, compressFile_replicate n b h1 hn⟩
  · rw [codesOf_replicate n b h1 hn, Function.update_same]
  · rw [countDistinct_eq, presentSymbols_replicate n b h1 hn]
    rfl

/-- C3 at 1000 copies of the byte `0x41`: bit count 1000 and 125 zero bytes. -/
theorem single_repeated_byte_witness :
    1 ≤ 1000 ∧ 1000 < 2 ^ 64
      ∧ buildTree (countFreq (List.replicate 1000 65)) = some (Node.leaf 65 1000)
      ∧ codesOf (List.replicate 1000 65) 65 = [false]
      ∧ countDistinct (countFreq (List.replicate 1000 65)) = 1
      ∧ sumBits (codesOf (List.replicate 1000 65)) (List.replicate 1000 65) = 1000
      ∧ packData (codesOf (List.replicate 1000 65)) (List.replicate 1000 65)
          = List.replicate 125 0
      ∧ compressFile (List.replicate 1000 65)
          = some (magic ++ write_uint16 1 ++ (65 :: write_uint64 1000) ++ write_uint64 1000
              ++ List.replicate 125 0) :=
  ⟨by decide, by decide, single_repeated_byte 1000 65 (by decide) (by decide)⟩

/-- C4. Empty input: `compressFile` of the empty input is the 14-byte container made of the tag,
the count 0 and the bit count 0, with no entry and no payload byte; `decompressFile` reads these
header fields from it and succeeds with the empty output. -/
theorem empty_input :
    compressFile [] = some (magic ++ write_uint16 0 ++ write_uint64 0)
      ∧ magic ++ write_uint16 0 ++ write_uint64 0
          = [72, 70, 77, 49, 0, 0, 0, 0, 0, 0, 0, 0, 0, 0]
      ∧ readHeader (magic ++ write_uint16 0 ++ write_uint64 0)
          = Except.ok (⟨0, zeroFreq, 0⟩, [])
      ∧ decompressFile (magic ++ write_uint16 0 ++ write_uint64 0) = Outcome.success [] := by
  refine ⟨compressFile_nil, rfl, rfl, ?_⟩
  rw [← container_zeroFreq, decompressFile_container _ _ _ (fun b => by rw [zeroFreq_get]; decide)
    (by decide)]
  simp

/-- C5. Prefix-free property: for every input `S` of fewer than `2 ^ 64` bytes with at least two
distinct byte values, and every two different byte values `a`, `b` that occur in `S`, the code of
`a` is not a prefix of the code of `b`; in particular the two codes differ. -/
theorem codes_prefix_free (S : List Byte) (hlen : S.length < 2 ^ 64)
    (h2 : ∃ a ∈ S, ∃ b ∈ S, a ≠ b) :
    ∀ a ∈ S, ∀ b ∈ S, a ≠ b →
      ¬ (codesOf S (a.val : Int) <+: codesOf S (b.val : Int))
        ∧ codesOf S (a.val : Int) ≠ codesOf S (b.val : Int) := by
  have hne : S ≠ [] := by
    obtain ⟨a, ha, -⟩ := h2
    exact List.ne_nil_of_mem ha
  obtain ⟨root, hroot, hcodes, -⟩ := encode_tree_facts S hlen hne
  have hleaf := two_distinct_inner S hlen h2 root hroot
  rw [root.codePaths_of_inner hleaf] at hcodes
  intro a ha b hb hab
  have hsym : Symmetric (fun p q : Int × List Bool => ¬ p.2 <+: q.2 ∧ ¬ q.2 <+: p.2) :=
    fun p q h => ⟨h.2, h.1⟩
  have hpq : (((a.val : Int), codesOf S (a.val : Int)) : Int × List Bool)
      ≠ ((b.val : Int), codesOf S (b.val : Int)) := by
    intro h
    have h1 : ((a.val : Nat) : Int) = (b.val : Int) := congrArg Prod.fst h
    exact hab (Fin.ext (by omega))
  have h := (Node.paths_prefix_free root).forall hsym (hcodes a ha) (hcodes b hb) hpq
  simp only at h
  refine ⟨h.1, ?_⟩
  intro heq
  apply h.1
  rw [heq]

/-- C5 at the input `0, 1, 2, 3, 4, 5`. -/
theorem codes_prefix_free_witness :
    ([0, 1, 2, 3, 4, 5] : List Byte).length < 2 ^ 64
      ∧ (∃ a ∈ ([0, 1, 2, 3, 4, 5] : List Byte), ∃ b ∈ ([0, 1, 2, 3, 4, 5] : List Byte),
          a ≠ b)
      ∧ ∀ a ∈ ([0, 1, 2, 3, 4, 5] : List Byte), ∀ b ∈ ([0, 1, 2, 3, 4, 5] : List Byte),
          a ≠ b →
          ¬ (codesOf [0, 1, 2, 3, 4, 5] (a.val : Int)
              <+: codesOf [0, 1, 2, 3, 4, 5] (b.val : Int))
            ∧ codesOf [0, 1, 2, 3, 4, 5] (a.val : Int)
              ≠ codesOf [0, 1, 2, 3, 4, 5] (b.val : Int) :=
  ⟨by decide, ⟨0, by decide, 1, by decide, by decide⟩,
   codes_prefix_free [0, 1, 2, 3, 4, 5] (by decide)
    ⟨0, by decide, 1, by decide, by decide⟩⟩

/-- C6. Frequency conservation: for every input `S` of fewer than `2 ^ 64` bytes, the container
starts with the tag, the number of header entries and the header entries, each a symbol followed
by its 64-bit frequency; every stored frequency is the number of occurrences of its symbol in
`S`, and the stored frequencies add up to the length of `S`. -/
theorem frequency_conservation (S : List Byte) (hlen : S.length < 2 ^ 64) :
    (∃ rest, compressFile S
        = some (magic ++ write_uint16 (headerEntries (countFreq S)).length
            ++ (headerEntries (countFreq S)).flatMap (fun e => e.1 :: write_uint64 e.2) ++ rest))
      ∧ (∀ e ∈ headerEntries (countFreq S), e.2 = S.count e.1)
      ∧ ((headerEntries (countFreq S)).map Prod.snd).sum = S.length := by
  have hent : headerEntries (countFreq S)
      = (presentSymbols (countFreq S)).map (fun b => (b, S.count b)) := by
    unfold headerEntries
    congr 1
    funext b
    rw [countFreq_get_of_lt S hlen]
  refine ⟨?_, ?_, ?_⟩
  · by_cases hne : S = []
    · subst hne
      refine ⟨write_uint64 0, ?_⟩
      rw [compressFile_nil]
      have : headerEntries (countFreq []) = [] := by
        unfold headerEntries
        show (presentSymbols zeroFreq).map _ = []
        rw [presentSymbols_zeroFreq]
        rfl
      rw [this]
      rfl
    · refine ⟨write_uint64 (sumBits (codesOf S) S) ++ packData (codesOf S) S, ?_⟩
      rw [compressFile_layout S hlen hne, hent, List.length_map, List.flatMap_map]
      simp only [List.append_assoc]
  · intro e he
    rw [hent] at he
    obtain ⟨b, -, rfl⟩ := List.mem_map.1 he
    rfl
  · rw [hent, List.map_map]
    exact sum_present_counts S hlen

/-- C6 at the input `A, A, B, B, C, C`. -/
theorem frequency_conservation_witness :
    ([65, 65, 66, 66, 67, 67] : List Byte).length < 2 ^ 64
      ∧ (∃ rest, compressFile [65, 65, 66, 66, 67, 67]
          = some (magic
              ++ write_uint16 (headerEntries (countFreq [65, 65, 66, 66, 67, 67])).length
              ++ (headerEntries (countFreq [65, 65, 66, 66, 67, 67])).flatMap
                  (fun e => e.1 :: write_uint64 e.2) ++ rest))
      ∧ (∀ e ∈ headerEntries (countFreq [65, 65, 66, 66, 67, 67]),
          e.2 = ([65, 65, 66, 66, 67, 67] : List Byte).count e.1)
      ∧ ((headerEntries (countFreq [65, 65, 66, 66, 67, 67])).map Prod.snd).sum
          = ([65, 65, 66, 66, 67, 67] : List Byte).length :=
  ⟨by decide, frequency_conservation [65, 65, 66, 66, 67, 67] (by decide)⟩

/-- C7. Encoder and decoder build the same tree: for every non-empty input `S` of fewer than
`2 ^ 64` bytes, `decompressFile` reads from the container of `S` a frequency table that agrees
with the table `compressFile` counted on all 256 byte values; the fill loop of `decompressFile`
leaves the vector of its queue as the fill loop of `compressFile` left it, and the tree
`decompressFile` builds from the table it read, by the pushes and pops of the heap of the
library, is the tree `compressFile` built. The count `decompressFile` read is not zero, and for an
input of fewer than `2 ^ 56` bytes neither is the bit count, so that `decompressFile` does not
return before it builds the tree. -/
theorem decoder_tree_eq_encoder_tree (S : List Byte) (hne : S ≠ []) (hlen : S.length < 2 ^ 64) :
    ∃ c h payload root, compressFile S = some c
      ∧ readHeader c = Except.ok (h, payload)
      ∧ (∀ b : Byte, h.freq.get b = (countFreq S).get b)
      ∧ fillQueue h.freq = fillQueue (countFreq S)
      ∧ buildTree (countFreq S) = some root
      ∧ buildTree h.freq = some root
      ∧ h.distinct ≠ 0
      ∧ (S.length < 2 ^ 56 → h.totalBits ≠ 0) := by
  obtain ⟨root, hroot, -, -⟩ := encode_tree_facts S hlen hne
  have h1 := leaves_length _ root hroot
  have h2 := root.leaves_length_pos
  have h3 : (presentSymbols (countFreq S)).length ≠ 0 := by omega
  have h4 : S.length < 2 ^ 56 → sumBits (codesOf S) S ≠ 0 := by
    intro h56
    obtain ⟨hsum, hpos, -⟩ := sumBits_of_lt S h56 hne
    omega
  refine ⟨_, ⟨(presentSymbols (countFreq S)).length, countFreq S, sumBits (codesOf S) S⟩, _, root,
    compressFile_eq S root hroot,
    readHeader_container _ _ _ (countFreq_lt S) (sumBits_lt _ _), fun _ => rfl, rfl, hroot, hroot,
    ?_, ?_⟩
  · dsimp only
    exact h3
  · dsimp only
    exact h4

/-- C7 at the input `0, 1, 2, 3, 4, 5`. -/
theorem decoder_tree_eq_encoder_tree_witness :
    ([0, 1, 2, 3, 4, 5] : List Byte) ≠ []
      ∧ ([0, 1, 2, 3, 4, 5] : List Byte).length < 2 ^ 64
      ∧ ∃ c h payload root, compressFile [0, 1, 2, 3, 4, 5] = some c
          ∧ readHeader c = Except.ok (h, payload)
          ∧ (∀ b : Byte, h.freq.get b = (countFreq [0, 1, 2, 3, 4, 5]).get b)
          ∧ fillQueue h.freq = fillQueue (countFreq [0, 1, 2, 3, 4, 5])
          ∧ buildTree (countFreq [0, 1, 2, 3, 4, 5]) = some root
          ∧ buildTree h.freq = some root
          ∧ h.distinct ≠ 0
          ∧ (([0, 1, 2, 3, 4, 5] : List Byte).length < 2 ^ 56 → h.totalBits ≠ 0) :=
  ⟨by decide, by decide,
   decoder_tree_eq_encoder_tree [0, 1, 2, 3, 4, 5] (by decide) (by decide)⟩

/-- C8. Invalid format: on every input whose first four bytes are not the tag `HFM1`, inputs
shorter than four bytes included, `decompressFile` reports the invalid format and returns before
the output file is opened, whatever follows the first four bytes. -/
theorem invalid_format (file : List Byte) (h : file.take 4 ≠ magic) :
    decompressFile file = Outcome.invalidFormat := by
  unfold decompressFile readHeader
  rcases readMagic_of_take_ne file h with h0 | ⟨tag, rest, h1, h2⟩
  · rw [h0]
  · rw [h1]
    simp only [ne_eq, h2, not_false_eq_true, ↓reduceIte]

/-- C8 at the input `HFM2` followed by a well-formed header of an empty container. -/
theorem invalid_format_witness :
    ([72, 70, 77, 50, 0, 0, 0, 0, 0, 0, 0, 0, 0, 0] : List Byte).take 4 ≠ magic
      ∧ decompressFile [72, 70, 77, 50, 0, 0, 0, 0, 0, 0, 0, 0, 0, 0] = Outcome.invalidFormat :=
  ⟨by decide, invalid_format [72, 70, 77, 50, 0, 0, 0, 0, 0, 0, 0, 0, 0, 0] (by decide)⟩

/-- C9. Container layout: for every non-empty input `S` of fewer than `2 ^ 64` bytes there is a
list `syms` of byte values, strictly ascending, holding exactly the byte values that occur in
`S`, of at most 256 elements, as many as `S` has distinct byte values, such that the container
is the 4-byte tag `HFM1`, the 2-byte count `syms.length` (which a 16-bit field holds), for each
element of `syms` in order one byte for the symbol and 8 bytes for its number of occurrences,
the 8-byte bit count, and the payload. -/
theorem container_layout (S : List Byte) (hne : S ≠ []) (hlen : S.length < 2 ^ 64) :
    ∃ syms : List Byte,
      syms.Pairwise (· < ·) ∧ (∀ b, b ∈ syms ↔ 0 < S.count b)
      ∧ syms.length = S.dedup.length ∧ syms.length ≤ 256
      ∧ compressFile S
          = some (magic ++ write_uint16 syms.length
              ++ syms.flatMap (fun b => b :: write_uint64 (S.count b))
              ++ write_uint64 (sumBits (codesOf S) S) ++ packData (codesOf S) S)
      ∧ magic = [72, 70, 77, 49] ∧ (write_uint16 syms.length).length = 2
      ∧ (∀ rest, read_uint16 (write_uint16 syms.length ++ rest) = some (syms.length, rest))
      ∧ (∀ v, (write_uint64 v).length = 8) := by
  refine ⟨presentSymbols (countFreq S), presentSymbols_sorted _, ?_,
    (presentSymbols_perm_dedup S hlen).length_eq, presentSymbols_length_le _,
    compressFile_layout S hlen hne, rfl, rfl, ?_, fun _ => rfl⟩
  · intro b
    rw [mem_presentSymbols_countFreq S hlen, List.count_pos_iff]
  · intro rest
    exact read_write_uint16 _ _
      (lt_of_le_of_lt (presentSymbols_length_le _) (by decide))

/-- C9 at the input `0, 1, 2, 3, 4, 5`. -/
theorem container_layout_witness :
    ([0, 1, 2, 3, 4, 5] : List Byte) ≠ []
      ∧ ([0, 1, 2, 3, 4, 5] : List Byte).length < 2 ^ 64
      ∧ ∃ syms : List Byte,
          syms.Pairwise (· < ·)
          ∧ (∀ b, b ∈ syms ↔ 0 < ([0, 1, 2, 3, 4, 5] : List Byte).count b)
          ∧ syms.length = ([0, 1, 2, 3, 4, 5] : List Byte).dedup.length
          ∧ syms.length ≤ 256
          ∧ compressFile [0, 1, 2, 3, 4, 5]
              = some (magic ++ write_uint16 syms.length
                  ++ syms.flatMap
                      (fun b => b :: write_uint64 (([0, 1, 2, 3, 4, 5] : List Byte).count b))
                  ++ write_uint64 (sumBits (codesOf [0, 1, 2, 3, 4, 5])
                      [0, 1, 2, 3, 4, 5])
                  ++ packData (codesOf [0, 1, 2, 3, 4, 5]) [0, 1, 2, 3, 4, 5])
          ∧ magic = [72, 70, 77, 49] ∧ (write_uint16 syms.length).length = 2
          ∧ (∀ rest, read_uint16 (write_uint16 syms.length ++ rest) = some (syms.length, rest))
          ∧ (∀ v, (write_uint64 v).length = 8) :=
  ⟨by decide, by decide, container_layout [0, 1, 2, 3, 4, 5] (by decide) (by decide)⟩

/-- C10. Bit packing: for every non-empty input `S` of fewer than `2 ^ 56` bytes, the container
holds the bit count `totalBits` and the payload `payload` where `totalBits` is the sum over the
bytes of `S` of the lengths of their codes, `payload` has `⌈totalBits / 8⌉` bytes, for every
`j < totalBits` bit `7 - j % 8` of payload byte `j / 8` is the `j`-th bit of the concatenation,
in input order, of the codes of the bytes of `S`, and every payload bit at a position from
`totalBits` on is zero. -/
theorem bit_packing (S : List Byte) (hne : S ≠ []) (hlen : S.length < 2 ^ 56) :
    compressFile S
        = some (container (countFreq S) (sumBits (codesOf S) S) (packData (codesOf S) S))
      ∧ sumBits (codesOf S) S = (S.map (fun b => (codesOf S (b.val : Int)).length)).sum
      ∧ (packData (codesOf S) S).length = (sumBits (codesOf S) S + 7) / 8
      ∧ (∀ j, j < sumBits (codesOf S) S →
          ∃ bit, (codeBits (codesOf S) S)[j]? = some bit
            ∧ ((packData (codesOf S) S)[j / 8]?).map (fun x => x.val.testBit (7 - j % 8))
                = some bit)
      ∧ (∀ j, sumBits (codesOf S) S ≤ j → j < 8 * (packData (codesOf S) S).length →
          ((packData (codesOf S) S)[j / 8]?).map (fun x => x.val.testBit (7 - j % 8))
            = some false) := by
  have hU : S.length < U64 := lt_trans hlen (by decide)
  obtain ⟨root, hroot, -, -⟩ := encode_tree_facts S hU hne
  obtain ⟨hsum, -, -⟩ := sumBits_of_lt S hlen hne
  have hbits := bitsOfBytes_packData (codesOf S) S
  have hblen := congrArg List.length hbits
  rw [bitsOfBytes_length, List.length_append, List.length_replicate] at hblen
  refine ⟨compressFile_eq S root hroot, ?_, ?_, ?_, ?_⟩
  · rw [hsum]
    unfold codeBits
    rw [List.length_flatMap]
    simp only [Function.comp_def]
  · rw [hsum]; omega
  · intro j hj
    rw [hsum] at hj
    refine ⟨(codeBits (codesOf S) S)[j], List.getElem?_eq_getElem hj, ?_⟩
    rw [← bitsOfBytes_getElem?, hbits, List.getElem?_append_left hj, List.getElem?_eq_getElem hj]
  · intro j hj1 hj2
    rw [hsum] at hj1
    rw [← bitsOfBytes_getElem?, hbits, List.getElem?_append_right hj1,
      List.getElem?_replicate]
    have : j - (codeBits (codesOf S) S).length
        < (8 - (codeBits (codesOf S) S).length % 8) % 8 := by omega
    rw [if_pos this]

/-- C10 at the input `0, 1, 2, 3, 4, 5`. -/
theorem bit_packing_witness :
    ([0, 1, 2, 3, 4, 5] : List Byte) ≠ [] ∧ ([0, 1, 2, 3, 4, 5] : List Byte).length < 2 ^ 56
      ∧ compressFile [0, 1, 2, 3, 4, 5]
          = some (container (countFreq [0, 1, 2, 3, 4, 5])
              (sumBits (codesOf [0, 1, 2, 3, 4, 5]) [0, 1, 2, 3, 4, 5])
              (packData (codesOf [0, 1, 2, 3, 4, 5]) [0, 1, 2, 3, 4, 5]))
      ∧ sumBits (codesOf [0, 1, 2, 3, 4, 5]) [0, 1, 2, 3, 4, 5]
          = (([0, 1, 2, 3, 4, 5] : List Byte).map
              (fun b => (codesOf [0, 1, 2, 3, 4, 5] (b.val : Int)).length)).sum
      ∧ (packData (codesOf [0, 1, 2, 3, 4, 5]) [0, 1, 2, 3, 4, 5]).length
          = (sumBits (codesOf [0, 1, 2, 3, 4, 5]) [0, 1, 2, 3, 4, 5] + 7) / 8
      ∧ (∀ j, j < sumBits (codesOf [0, 1, 2, 3, 4, 5]) [0, 1, 2, 3, 4, 5] →
          ∃ bit, (codeBits (codesOf [0, 1, 2, 3, 4, 5]) [0, 1, 2, 3, 4, 5])[j]? = some bit
            ∧ ((packData (codesOf [0, 1, 2, 3, 4, 5]) [0, 1, 2, 3, 4, 5])[j / 8]?).map
                (fun x => x.val.testBit (7 - j % 8)) = some bit)
      ∧ (∀ j, sumBits (codesOf [0, 1, 2, 3, 4, 5]) [0, 1, 2, 3, 4, 5] ≤ j →
          j < 8 * (packData (codesOf [0, 1, 2, 3, 4, 5]) [0, 1, 2, 3, 4, 5]).length →
          ((packData (codesOf [0, 1, 2, 3, 4, 5]) [0, 1, 2, 3, 4, 5])[j / 8]?).map
            (fun x => x.val.testBit (7 - j % 8)) = some false) :=
  ⟨by decide, by decide, bit_packing [0, 1, 2, 3, 4, 5] (by decide) (by decide)⟩

/-- C11. The bit count is authoritative: for every frequency table with 64-bit entries of which
at least two are nonzero, every 64-bit bit count `totalBits` and every two payloads, of whatever
lengths (in particular of at least `⌈totalBits / 8⌉` bytes), whose first `totalBits` bits (most
significant bit first) are the same, `decompressFile` succeeds on both containers with the same
output: the bits from position `totalBits` on, in the last byte or in further bytes, do not
influence it. -/
theorem bit_count_authoritative (freq : FreqTable) (hfreq : ∀ b, freq.get b < 2 ^ 64)
    (h2 : ∃ a b, a ≠ b ∧ 0 < freq.get a ∧ 0 < freq.get b)
    (totalBits : Nat) (htb : totalBits < 2 ^ 64) (p1 p2 : List Byte)
    (hagree : (bitsOfBytes p1).take totalBits = (bitsOfBytes p2).take totalBits) :
    ∃ out, decompressFile (container freq totalBits p1) = Outcome.success out
      ∧ decompressFile (container freq totalBits p2) = Outcome.success out := by
  obtain ⟨a, b, hab, ha, hb⟩ := h2
  obtain ⟨root, hroot, hleaf⟩ := buildTree_inner freq (two_present_of_ne freq a b hab ha hb)
  obtain ⟨n1, out1, hw1, -, hd1⟩ :=
    decompressFile_walkList freq totalBits p1 hfreq htb root hroot hleaf
  obtain ⟨n2, out2, hw2, -, hd2⟩ :=
    decompressFile_walkList freq totalBits p2 hfreq htb root hroot hleaf
  rw [hagree, hw2] at hw1
  simp only [Option.some.injEq, Prod.mk.injEq] at hw1
  exact ⟨out1, hd1, by rw [hd2, hw1.2]⟩

/-- C11 for the table of the input `0, 1, 2, 3, 4, 5`, the bit count 13 and the payloads
`0xDE, 0x51` and `0xDE, 0x57, 0xFF`, which agree on the first 13 bits. -/
theorem bit_count_authoritative_witness :
    (∀ b, (countFreq [0, 1, 2, 3, 4, 5]).get b < 2 ^ 64)
      ∧ (∃ a b, a ≠ b ∧ 0 < (countFreq [0, 1, 2, 3, 4, 5]).get a
          ∧ 0 < (countFreq [0, 1, 2, 3, 4, 5]).get b)
      ∧ 13 < 2 ^ 64
      ∧ (bitsOfBytes [0xDE, 0x51]).take 13 = (bitsOfBytes [0xDE, 0x57, 0xFF]).take 13
      ∧ ∃ out, decompressFile (container (countFreq [0, 1, 2, 3, 4, 5]) 13 [0xDE, 0x51])
            = Outcome.success out
          ∧ decompressFile (container (countFreq [0, 1, 2, 3, 4, 5]) 13 [0xDE, 0x57, 0xFF])
            = Outcome.success out :=
  ⟨countFreq_lt [0, 1, 2, 3, 4, 5], ⟨0, 1, by decide, by decide, by decide⟩, by decide, by decide,
   bit_count_authoritative (countFreq [0, 1, 2, 3, 4, 5]) (countFreq_lt [0, 1, 2, 3, 4, 5])
    ⟨0, 1, by decide, by decide, by decide⟩ 13 (by decide) [0xDE, 0x51] [0xDE, 0x57, 0xFF]
    (by decide)⟩

/-- C15. Code assignment follows tree paths: for every tree `t` with at least two leaves, the
table `buildCodes` fills from the root holds for the symbol of a leaf exactly the turns from the
root to that leaf (`false` for left, `true` for right) whenever no leaf further right carries the
same symbol, hence for every leaf when the symbols of the leaves are distinct; these turns are
never empty, and a symbol that no leaf carries keeps the empty entry. For every input `S` of
fewer than `2 ^ 64` bytes with at least two distinct byte values, the tree `compressFile` builds
is such a tree, with distinct leaf symbols, its code table holds for the symbol of every leaf the
turns to that leaf, every byte value that occurs in `S` has a non-empty code and every byte value
that does not occur keeps the empty entry. -/
theorem codes_follow_paths (t : Node) (ht : 2 ≤ t.leaves.length) (S : List Byte)
    (hlen : S.length < 2 ^ 64) (h2 : ∃ a ∈ S, ∃ b ∈ S, a ≠ b) :
    (∀ L1 L2 s p, t.paths [] = L1 ++ (s, p) :: L2 → s ∉ L2.map Prod.fst →
        (buildCodes t (emptyCodes, [])).1 s = p)
      ∧ ((t.leaves.map Prod.fst).Nodup →
          ∀ s p, (s, p) ∈ t.paths [] → (buildCodes t (emptyCodes, [])).1 s = p)
      ∧ (∀ s p, (s, p) ∈ t.paths [] → p ≠ [])
      ∧ (∀ s, s ∉ t.leaves.map Prod.fst → (buildCodes t (emptyCodes, [])).1 s = [])
      ∧ ∃ root, buildTree (countFreq S) = some root ∧ 2 ≤ root.leaves.length
          ∧ (root.leaves.map Prod.fst).Nodup
          ∧ codesOf S = (buildCodes root (emptyCodes, [])).1
          ∧ (∀ s p, (s, p) ∈ root.paths [] → codesOf S s = p)
          ∧ (∀ b : Byte, b ∈ S → codesOf S (b.val : Int) ≠ [])
          ∧ (∀ b : Byte, b ∉ S → codesOf S (b.val : Int) = []) := by
  have htl := t.isLeaf_of_leaves ht
  refine ⟨?_, ?_, t.paths_ne_nil_of_inner htl, ?_, ?_⟩
  · intro L1 L2 s p hL hs
    rw [buildCodes_root, t.codePaths_of_inner htl, hL]
    exact foldl_update_last L1 L2 _ s p hs
  · intro hnd s p hsp
    rw [buildCodes_root, t.codePaths_of_inner htl]
    exact foldl_update_mem _ _ _ p (by rw [Node.paths_fst]; exact hnd) hsp
  · intro s hs
    rw [buildCodes_root, foldl_update_not_mem]
    · rfl
    · rw [Node.codePaths_fst]; exact hs
  · have hne : S ≠ [] := by
      obtain ⟨a, ha, -⟩ := h2
      exact List.ne_nil_of_mem ha
    obtain ⟨root, hroot, -, hbounds⟩ := encode_tree_facts S hlen hne
    have hleaf := two_distinct_inner S hlen h2 root hroot
    have hpres := mem_presentSymbols_countFreq S hlen
    have hnd := leaves_fst_nodup _ root hroot
    refine ⟨root, hroot, ?_, hnd, codesOf_eq S root hroot, ?_, ?_, ?_⟩
    · obtain ⟨a, ha, b, hb, hab⟩ := h2
      rw [leaves_length _ root hroot]
      exact two_le_length_of_mem _ a b ((hpres a).2 ha) ((hpres b).2 hb) hab
    · intro s p hsp
      rw [codesOf_eq S root hroot, buildCodes_root, root.codePaths_of_inner hleaf]
      exact foldl_update_mem _ _ _ p (by rw [Node.paths_fst]; exact hnd) hsp
    · intro b hb h0
      have := (hbounds b hb).1
      rw [h0] at this
      simp at this
    · intro b hb
      rw [codesOf_eq S root hroot]
      exact codes_not_present _ root hroot b (fun h => hb ((hpres b).1 h))

/-- C15 at the tree made of the leaves `A` and `B` and at the input `0, 1, 2, 3, 4, 5`. -/
theorem codes_follow_paths_witness :
    2 ≤ (Node.leaves (Node.merge (Node.leaf 65 1) (Node.leaf 66 1))).length
      ∧ ([0, 1, 2, 3, 4, 5] : List Byte).length < 2 ^ 64
      ∧ (∃ a ∈ ([0, 1, 2, 3, 4, 5] : List Byte), ∃ b ∈ ([0, 1, 2, 3, 4, 5] : List Byte), a ≠ b)
      ∧ (∀ L1 L2 s p,
          Node.paths (Node.merge (Node.leaf 65 1) (Node.leaf 66 1)) [] = L1 ++ (s, p) :: L2 →
          s ∉ L2.map Prod.fst →
          (buildCodes (Node.merge (Node.leaf 65 1) (Node.leaf 66 1)) (emptyCodes, [])).1 s = p)
      ∧ (((Node.leaves (Node.merge (Node.leaf 65 1) (Node.leaf 66 1))).map Prod.fst).Nodup →
          ∀ s p, (s, p) ∈ Node.paths (Node.merge (Node.leaf 65 1) (Node.leaf 66 1)) [] →
            (buildCodes (Node.merge (Node.leaf 65 1) (Node.leaf 66 1)) (emptyCodes, [])).1 s = p)
      ∧ (∀ s p, (s, p) ∈ Node.paths (Node.merge (Node.leaf 65 1) (Node.leaf 66 1)) [] → p ≠ [])
      ∧ (∀ s, s ∉ (Node.leaves (Node.merge (Node.leaf 65 1) (Node.leaf 66 1))).map Prod.fst →
          (buildCodes (Node.merge (Node.leaf 65 1) (Node.leaf 66 1)) (emptyCodes, [])).1 s = [])
      ∧ ∃ root, buildTree (countFreq [0, 1, 2, 3, 4, 5]) = some root
          ∧ 2 ≤ root.leaves.length
          ∧ (root.leaves.map Prod.fst).Nodup
          ∧ codesOf [0, 1, 2, 3, 4, 5] = (buildCodes root (emptyCodes, [])).1
          ∧ (∀ s p, (s, p) ∈ root.paths [] → codesOf [0, 1, 2, 3, 4, 5] s = p)
          ∧ (∀ b : Byte, b ∈ ([0, 1, 2, 3, 4, 5] : List Byte) →
              codesOf [0, 1, 2, 3, 4, 5] (b.val : Int) ≠ [])
          ∧ (∀ b : Byte, b ∉ ([0, 1, 2, 3, 4, 5] : List Byte) →
              codesOf [0, 1, 2, 3, 4, 5] (b.val : Int) = []) :=
  ⟨by decide, by decide, ⟨0, by decide, 1, by decide, by decide⟩,
   codes_follow_paths (Node.merge (Node.leaf 65 1) (Node.leaf 66 1)) (by decide)
    [0, 1, 2, 3, 4, 5] (by decide) ⟨0, by decide, 1, by decide, by decide⟩⟩

/-- C16. Truncated stream: for every input `S` of fewer than `2 ^ 56` bytes with at least two
distinct byte values and every `k` smaller than the number of payload bytes of its container,
`decompressFile` on the container with the payload cut to its first `k` bytes (header intact)
returns success, and its output is the first `j` bytes of `S` for some `j` smaller than the
length of `S`: the codes of these `j` bytes lie within the first `8 * k` payload bits and the
code of the next byte does not. -/
theorem truncated_stream (S : List Byte) (hlen : S.length < 2 ^ 56)
    (h2 : ∃ a ∈ S, ∃ b ∈ S, a ≠ b) (k : Nat) (hk : k < (packData (codesOf S) S).length) :
    compressFile S
        = some (container (countFreq S) (sumBits (codesOf S) S) (packData (codesOf S) S))
      ∧ ∃ j, j < S.length
          ∧ decompressFile
              (container (countFreq S) (sumBits (codesOf S) S) ((packData (codesOf S) S).take k))
            = Outcome.success (S.take j)
          ∧ (codeBits (codesOf S) (S.take j)).length ≤ 8 * k
          ∧ 8 * k < (codeBits (codesOf S) (S.take (j + 1))).length := by
  have hU : S.length < U64 := lt_trans hlen (by decide)
  have hne : S ≠ [] := by
    obtain ⟨a, ha, -⟩ := h2
    exact List.ne_nil_of_mem ha
  obtain ⟨root, hroot, hcodes, -⟩ := encode_tree_facts S hU hne
  obtain ⟨hsum, hpos, hlt⟩ := sumBits_of_lt S hlen hne
  have hleaf := two_distinct_inner S hU h2 root hroot
  rw [root.codePaths_of_inner hleaf] at hcodes
  refine ⟨compressFile_eq S root hroot, ?_⟩
  have hbits := bitsOfBytes_packData (codesOf S) S
  have hblen := congrArg List.length hbits
  rw [bitsOfBytes_length, List.length_append, List.length_replicate] at hblen
  have h8k : 8 * k < (codeBits (codesOf S) S).length := by omega
  obtain ⟨n, out, hw, -, hd⟩ := decompressFile_walkList (countFreq S) (sumBits (codesOf S) S)
    ((packData (codesOf S) S).take k) (countFreq_lt S) (sumBits_lt _ _) root hroot hleaf
  obtain ⟨j, n', hj, hw', h1, h3⟩ :=
    walkList_take_codeBits root (codesOf S) S [] (8 * k) hleaf hcodes
  have hbt : (bitsOfBytes ((packData (codesOf S) S).take k)).take (sumBits (codesOf S) S)
      = (codeBits (codesOf S) S).take (8 * k) := by
    rw [bitsOfBytes_take, hbits, hsum, List.take_take, Nat.min_eq_right (le_of_lt h8k),
      List.take_append_of_le_length (le_of_lt h8k)]
  rw [hbt, hw'] at hw
  simp only [Option.some.injEq, Prod.mk.injEq, List.nil_append] at hw
  have hjlt : j < S.length := by
    rcases Nat.lt_or_ge j S.length with h | h
    · exact h
    · have hj' : j = S.length := le_antisymm hj h
      rw [hj', List.take_length] at h1
      omega
  exact ⟨j, hjlt, by rw [hd, ← hw.2], h1, h3 hjlt⟩

set_option maxRecDepth 1000000 in
/-- C16 at the input `0, 1, 2, 3, 4, 5`, whose payload has two bytes, cut to one byte. -/
theorem truncated_stream_witness :
    ([0, 1, 2, 3, 4, 5] : List Byte).length < 2 ^ 56
      ∧ (∃ a ∈ ([0, 1, 2, 3, 4, 5] : List Byte), ∃ b ∈ ([0, 1, 2, 3, 4, 5] : List Byte),
          a ≠ b)
      ∧ 1 < (packData (codesOf [0, 1, 2, 3, 4, 5]) [0, 1, 2, 3, 4, 5]).length
      ∧ compressFile [0, 1, 2, 3, 4, 5]
          = some (container (countFreq [0, 1, 2, 3, 4, 5])
              (sumBits (codesOf [0, 1, 2, 3, 4, 5]) [0, 1, 2, 3, 4, 5])
              (packData (codesOf [0, 1, 2, 3, 4, 5]) [0, 1, 2, 3, 4, 5]))
      ∧ ∃ j, j < ([0, 1, 2, 3, 4, 5] : List Byte).length
          ∧ decompressFile
              (container (countFreq [0, 1, 2, 3, 4, 5])
                (sumBits (codesOf [0, 1, 2, 3, 4, 5]) [0, 1, 2, 3, 4, 5])
                ((packData (codesOf [0, 1, 2, 3, 4, 5]) [0, 1, 2, 3, 4, 5]).take 1))
            = Outcome.success (([0, 1, 2, 3, 4, 5] : List Byte).take j)
          ∧ (codeBits (codesOf [0, 1, 2, 3, 4, 5])
              (([0, 1, 2, 3, 4, 5] : List Byte).take j)).length ≤ 8 * 1
          ∧ 8 * 1 < (codeBits (codesOf [0, 1, 2, 3, 4, 5])
              (([0, 1, 2, 3, 4, 5] : List Byte).take (j + 1))).length :=
  have hk : 1 < (packData (codesOf [0, 1, 2, 3, 4, 5]) [0, 1, 2, 3, 4, 5]).length := by
    decide
  ⟨by decide, ⟨0, by decide, 1, by decide, by decide⟩, hk,
   truncated_stream [0, 1, 2, 3, 4, 5] (by decide)
    ⟨0, by decide, 1, by decide, by decide⟩ 1 hk⟩

/-- C17. Decoder walk is safe on full trees: for every frequency table with 64-bit entries of
which at least two are nonzero, every 64-bit bit count and every payload, the tree
`decompressFile` builds has an internal root, the walk over any sequence of bits from the root
never takes a missing child and leaves the cursor on an internal node after every bit, and
`decompressFile` returns success: the dereference of a null child is not reached. -/
theorem decoder_walk_safe (freq : FreqTable) (hfreq : ∀ b, freq.get b < 2 ^ 64)
    (h2 : ∃ a b, a ≠ b ∧ 0 < freq.get a ∧ 0 < freq.get b)
    (totalBits : Nat) (htb : totalBits < 2 ^ 64) (payload : List Byte) :
    ∃ root, buildTree freq = some root ∧ root.isLeaf = false
      ∧ (∀ bits : List Bool, ∃ n out,
          walkList root bits (root, []) = some (n, out)
            ∧ n.left.isSome = true ∧ n.right.isSome = true)
      ∧ (∃ st, walkBytes root totalBits payload ⟨root, 0, []⟩ = some st
          ∧ decompressFile (container freq totalBits payload) = Outcome.success st.out)
      ∧ decompressFile (container freq totalBits payload) ≠ Outcome.undefined UB.nullChild := by
  obtain ⟨a, b, hab, ha, hb⟩ := h2
  obtain ⟨root, hroot, hleaf⟩ := buildTree_inner freq (two_present_of_ne freq a b hab ha hb)
  obtain ⟨n, out, hw, -, hd⟩ :=
    decompressFile_walkList freq totalBits payload hfreq htb root hroot hleaf
  refine ⟨root, hroot, hleaf, ?_, ?_, ?_⟩
  · intro bits
    obtain ⟨n', out', hw', hn'⟩ := walkList_inner root hleaf bits root [] hleaf
    refine ⟨n', out', hw', ?_⟩
    cases n' with
    | leaf s f => simp at hn'
    | inner f l r => exact ⟨rfl, rfl⟩
  · refine ⟨⟨n, 0 + min (8 * payload.length) (totalBits - 0), out⟩, ?_, hd⟩
    rw [walkBytes_eq]
    simp only [Nat.sub_zero, hw, Option.map_some']
  · rw [hd]
    exact fun h => Outcome.noConfusion h

/-- C17 for the table of the input `0, 1, 2, 3, 4, 5`, the bit count 16 and the payload
`0xA5, 0xFF`. -/
theorem decoder_walk_safe_witness :
    (∀ b, (countFreq [0, 1, 2, 3, 4, 5]).get b < 2 ^ 64)
      ∧ (∃ a b, a ≠ b ∧ 0 < (countFreq [0, 1, 2, 3, 4, 5]).get a
          ∧ 0 < (countFreq [0, 1, 2, 3, 4, 5]).get b)
      ∧ 16 < 2 ^ 64
      ∧ ∃ root, buildTree (countFreq [0, 1, 2, 3, 4, 5]) = some root ∧ root.isLeaf = false
          ∧ (∀ bits : List Bool, ∃ n out,
              walkList root bits (root, []) = some (n, out)
                ∧ n.left.isSome = true ∧ n.right.isSome = true)
          ∧ (∃ st, walkBytes root 16 [165, 255] ⟨root, 0, []⟩ = some st
              ∧ decompressFile (container (countFreq [0, 1, 2, 3, 4, 5]) 16 [165, 255])
                = Outcome.success st.out)
          ∧ decompressFile (container (countFreq [0, 1, 2, 3, 4, 5]) 16 [165, 255])
              ≠ Outcome.undefined UB.nullChild :=
  ⟨countFreq_lt [0, 1, 2, 3, 4, 5], ⟨0, 1, by decide, by decide, by decide⟩, by decide,
   decoder_walk_safe (countFreq [0, 1, 2, 3, 4, 5]) (countFreq_lt [0, 1, 2, 3, 4, 5])
    ⟨0, 1, by decide, by decide, by decide⟩ 16 (by decide) [165, 255]⟩

/-- C13. Tie-break rule: the queue is a heap when the merge loop starts and after every
iteration, and in every iteration, on a heap `q` of at least two nodes, the node `a` extracted
first is a minimum of the queue under ascending frequency and, for equal frequencies, ascending
symbol value; the node `b` extracted second is such a minimum of the remaining nodes; the loop
goes on with the other nodes and a new internal node whose left child is `a` and whose right
child is `b`. Two leaves of equal frequency are in this order exactly in ascending symbol order.
For the frequencies `A: 2, B: 2, C: 2` the leaves `A` and `B` are merged first and the codes are
`C = 0`, `A = 10`, `B = 11`. -/
theorem tie_break_rule (q : PQ) (hheap : PQ.IsHeap q) (hq : 2 ≤ q.length) :
    (∃ a b, PQ.top q = some a ∧ PQ.top (PQ.pop q) = some b
      ∧ List.Perm q (a :: b :: PQ.pop (PQ.pop q))
      ∧ (∀ y ∈ q, a.keyLe y) ∧ (∀ y ∈ PQ.pop q, b.keyLe y)
      ∧ (∀ fuel, mergeLoop (fuel + 1) q
          = mergeLoop fuel (PQ.push (PQ.pop (PQ.pop q)) (Node.merge a b)))
      ∧ PQ.IsHeap (PQ.push (PQ.pop (PQ.pop q)) (Node.merge a b))
      ∧ (Node.merge a b).left = some a ∧ (Node.merge a b).right = some b
      ∧ (Node.merge a b).symbol = -1)
    ∧ (∀ freq : FreqTable, PQ.IsHeap (fillQueue freq))
    ∧ (∀ s1 s2 : Int, ∀ f : Nat, (Node.leaf s1 f).keyLe (Node.leaf s2 f) ↔ s1 ≤ s2)
    ∧ buildTree (countFreq [65, 65, 66, 66, 67, 67])
        = some (Node.inner 6 (Node.leaf 67 2) (Node.inner 4 (Node.leaf 65 2) (Node.leaf 66 2)))
    ∧ codesOf [65, 65, 66, 66, 67, 67] 67 = [false]
    ∧ codesOf [65, 65, 66, 66, 67, 67] 65 = [true, false]
    ∧ codesOf [65, 65, 66, 66, 67, 67] 66 = [true, true] := by
  refine ⟨?_, fillQueue_isHeap, ?_, buildTree_example_ties, codes_example_ties⟩
  · obtain ⟨a, b, ha, hb, hpa, hpb, hmin, hloop⟩ := mergeLoop_step q hq
    obtain ⟨hmina, hminb, hheap'⟩ := hmin hheap
    exact ⟨a, b, ha, hb, hpa.trans (List.Perm.cons a hpb), hmina, hminb, hloop, hheap',
      rfl, rfl, rfl⟩
  · intro s1 s2 f
    simp [Node.keyLe, Node.freq, Node.symbol]

/-- C13 on the queue of the three leaves `A: 2, B: 2, C: 2`. -/
theorem tie_break_rule_witness :
    PQ.IsHeap [Node.leaf 65 2, Node.leaf 66 2, Node.leaf 67 2]
      ∧ 2 ≤ List.length [Node.leaf 65 2, Node.leaf 66 2, Node.leaf 67 2]
      ∧ (∃ a b, PQ.top [Node.leaf 65 2, Node.leaf 66 2, Node.leaf 67 2] = some a
          ∧ PQ.top (PQ.pop [Node.leaf 65 2, Node.leaf 66 2, Node.leaf 67 2]) = some b
          ∧ List.Perm [Node.leaf 65 2, Node.leaf 66 2, Node.leaf 67 2]
              (a :: b :: PQ.pop (PQ.pop [Node.leaf 65 2, Node.leaf 66 2, Node.leaf 67 2]))
          ∧ (∀ y ∈ [Node.leaf 65 2, Node.leaf 66 2, Node.leaf 67 2], a.keyLe y)
          ∧ (∀ y ∈ PQ.pop [Node.leaf 65 2, Node.leaf 66 2, Node.leaf 67 2], b.keyLe y)
          ∧ (∀ fuel, mergeLoop (fuel + 1) [Node.leaf 65 2, Node.leaf 66 2, Node.leaf 67 2]
              = mergeLoop fuel
                  (PQ.push (PQ.pop (PQ.pop [Node.leaf 65 2, Node.leaf 66 2, Node.leaf 67 2]))
                    (Node.merge a b)))
          ∧ PQ.IsHeap (PQ.push (PQ.pop (PQ.pop [Node.leaf 65 2, Node.leaf 66 2, Node.leaf 67 2]))
              (Node.merge a b))
          ∧ (Node.merge a b).left = some a ∧ (Node.merge a b).right = some b
          ∧ (Node.merge a b).symbol = -1)
      ∧ (∀ freq : FreqTable, PQ.IsHeap (fillQueue freq))
      ∧ (∀ s1 s2 : Int, ∀ f : Nat, (Node.leaf s1 f).keyLe (Node.leaf s2 f) ↔ s1 ≤ s2)
      ∧ buildTree (countFreq [65, 65, 66, 66, 67, 67])
          = some (Node.inner 6 (Node.leaf 67 2) (Node.inner 4 (Node.leaf 65 2) (Node.leaf 66 2)))
      ∧ codesOf [65, 65, 66, 66, 67, 67] 67 = [false]
      ∧ codesOf [65, 65, 66, 66, 67, 67] 65 = [true, false]
      ∧ codesOf [65, 65, 66, 66, 67, 67] 66 = [true, true] :=
  ⟨by decide, by decide,
   tie_break_rule [Node.leaf 65 2, Node.leaf 66 2, Node.leaf 67 2] (by decide) (by decide)⟩

/-- C18. Internal nodes win ties against leaves: when the queue, a heap whose leaves carry
symbols from 0 up, holds an internal node `i` and a leaf `l` of the same frequency, and no node
of the queue has a smaller frequency, the node extracted is an internal node of that frequency
and the leaf `l` stays in the queue. For the frequencies `A: 1, B: 1, C: 2` the left child of the
root is the merge of `A` and `B` and the right child is the leaf `C`; the codes are `A = 00`,
`B = 01`, `C = 1`. -/
theorem internal_before_leaf (q : PQ) (hheap : PQ.IsHeap q) (i l : Node) (hi : i ∈ q)
    (hl : l ∈ q) (hii : i.isLeaf = false) (hll : l.isLeaf = true)
    (hsym : ∀ n ∈ q, n.isLeaf = true → 0 ≤ n.symbol)
    (heq : i.freq = l.freq) (hmin : ∀ y ∈ q, i.freq ≤ y.freq) :
    (∃ t, PQ.top q = some t ∧ t.isLeaf = false ∧ t.symbol = -1 ∧ t.freq = l.freq
      ∧ l ∈ PQ.pop q)
    ∧ buildTree (countFreq [65, 66, 67, 67])
        = some (Node.inner 4 (Node.inner 2 (Node.leaf 65 1) (Node.leaf 66 1)) (Node.leaf 67 2))
    ∧ codesOf [65, 66, 67, 67] 65 = [false, false]
    ∧ codesOf [65, 66, 67, 67] 66 = [false, true]
    ∧ codesOf [65, 66, 67, 67] 67 = [true] := by
  refine ⟨?_, buildTree_example_inner, codes_example_inner⟩
  obtain ⟨t, ht, hp⟩ := PQ.top_pop q (List.ne_nil_of_mem hi)
  have htq : t ∈ q := hp.mem_iff.2 (List.mem_cons_self _ _)
  have hti := PQ.top_min q t hheap ht i hi
  have hit := hmin t htq
  have hisym : i.symbol = -1 := by
    cases i with
    | leaf s f => simp at hii
    | inner f a b => rfl
  have htleaf : t.isLeaf = false := by
    by_contra h
    have h' : t.isLeaf = true := by simpa using h
    have := hsym t htq h'
    unfold Node.keyLe at hti
    omega
  have htsym : t.symbol = -1 := by
    cases t with
    | leaf s f => simp at htleaf
    | inner f a b => rfl
  refine ⟨t, ht, htleaf, htsym, ?_, ?_⟩
  · unfold Node.keyLe at hti
    omega
  · have hlt : l ≠ t := by
      intro h
      rw [h, htleaf] at hll
      exact Bool.noConfusion hll
    rcases List.mem_cons.1 (hp.mem_iff.1 hl) with h | h
    · exact absurd h hlt
    · exact h

/-- C18 on the queue of the input `0, 1, 2, 3, 4, 5, 6, 6` after three iterations of the merge
loop, which holds the leaf `6: 2` and the merges of `2, 3`, of `0, 1` and of `4, 5`, each of
frequency 2. -/
theorem internal_before_leaf_witness :
    PQ.IsHeap [Node.merge (Node.leaf 2 1) (Node.leaf 3 1),
        Node.merge (Node.leaf 0 1) (Node.leaf 1 1), Node.leaf 6 2,
        Node.merge (Node.leaf 4 1) (Node.leaf 5 1)]
      ∧ Node.merge (Node.leaf 0 1) (Node.leaf 1 1)
        ∈ [Node.merge (Node.leaf 2 1) (Node.leaf 3 1),
            Node.merge (Node.leaf 0 1) (Node.leaf 1 1), Node.leaf 6 2,
            Node.merge (Node.leaf 4 1) (Node.leaf 5 1)]
      ∧ Node.leaf 6 2
        ∈ [Node.merge (Node.leaf 2 1) (Node.leaf 3 1),
            Node.merge (Node.leaf 0 1) (Node.leaf 1 1), Node.leaf 6 2,
            Node.merge (Node.leaf 4 1) (Node.leaf 5 1)]
      ∧ (Node.merge (Node.leaf 0 1) (Node.leaf 1 1)).isLeaf = false
      ∧ (Node.leaf 6 2).isLeaf = true
      ∧ (∀ n ∈ [Node.merge (Node.leaf 2 1) (Node.leaf 3 1),
            Node.merge (Node.leaf 0 1) (Node.leaf 1 1), Node.leaf 6 2,
            Node.merge (Node.leaf 4 1) (Node.leaf 5 1)],
          n.isLeaf = true → 0 ≤ n.symbol)
      ∧ (Node.merge (Node.leaf 0 1) (Node.leaf 1 1)).freq = (Node.leaf 6 2).freq
      ∧ (∀ y ∈ [Node.merge (Node.leaf 2 1) (Node.leaf 3 1),
            Node.merge (Node.leaf 0 1) (Node.leaf 1 1), Node.leaf 6 2,
            Node.merge (Node.leaf 4 1) (Node.leaf 5 1)],
          (Node.merge (Node.leaf 0 1) (Node.leaf 1 1)).freq ≤ y.freq)
      ∧ (∃ t, PQ.top [Node.merge (Node.leaf 2 1) (Node.leaf 3 1),
              Node.merge (Node.leaf 0 1) (Node.leaf 1 1), Node.leaf 6 2,
              Node.merge (Node.leaf 4 1) (Node.leaf 5 1)] = some t
          ∧ t.isLeaf = false ∧ t.symbol = -1 ∧ t.freq = (Node.leaf 6 2).freq
          ∧ Node.leaf 6 2 ∈ PQ.pop [Node.merge (Node.leaf 2 1) (Node.leaf 3 1),
              Node.merge (Node.leaf 0 1) (Node.leaf 1 1), Node.leaf 6 2,
              Node.merge (Node.leaf 4 1) (Node.leaf 5 1)])
      ∧ buildTree (countFreq [65, 66, 67, 67])
          = some (Node.inner 4 (Node.inner 2 (Node.leaf 65 1) (Node.leaf 66 1)) (Node.leaf 67 2))
      ∧ codesOf [65, 66, 67, 67] 65 = [false, false]
      ∧ codesOf [65, 66, 67, 67] 66 = [false, true]
      ∧ codesOf [65, 66, 67, 67] 67 = [true] :=
  ⟨by decide, by decide, by decide, by decide, by decide, by decide, by decide, by decide,
   internal_before_leaf [Node.merge (Node.leaf 2 1) (Node.leaf 3 1),
      Node.merge (Node.leaf 0 1) (Node.leaf 1 1), Node.leaf 6 2,
      Node.merge (Node.leaf 4 1) (Node.leaf 5 1)] (by decide)
    (Node.merge (Node.leaf 0 1) (Node.leaf 1 1)) (Node.leaf 6 2)
    (by decide) (by decide) (by decide) (by decide) (by decide) (by decide) (by decide)⟩

/-- C14. Tree invariants: for every non-empty input `S` of fewer than `2 ^ 64` bytes, the leaves
of the tree `compressFile` builds are, up to their order, one leaf for every distinct byte value
of `S`, carrying that value and its number of occurrences, and no other leaf; every internal node
of the tree has a left and a right child and its frequency is the sum of the frequencies of the
two; the frequency of the root is the length of `S`. -/
theorem tree_invariants (S : List Byte) (hne : S ≠ []) (hlen : S.length < 2 ^ 64) :
    ∃ root, buildTree (countFreq S) = some root
      ∧ List.Perm root.leaves (S.dedup.map (fun b => ((b.val : Int), S.count b)))
      ∧ (∀ n ∈ root.subtrees, n.isLeaf = false →
          ∃ l r, n.left = some l ∧ n.right = some r ∧ n.freq = l.freq + r.freq)
      ∧ root.freq = S.length := by
  have hpres := mem_presentSymbols_countFreq S hlen
  obtain ⟨a, ha⟩ := List.exists_mem_of_ne_nil S hne
  have hne' : presentSymbols (countFreq S) ≠ [] := List.ne_nil_of_mem ((hpres a).2 ha)
  obtain ⟨root, hroot, hperm⟩ := buildTree_spec _ hne'
  obtain ⟨hex, hw⟩ := buildTree_exact S hlen root hroot
  refine ⟨root, hroot, ?_, hex.2, by rw [hex.1, hw]⟩
  refine hperm.trans ?_
  have h1 : (presentSymbols (countFreq S)).map (fun b => ((b.val : Int), (countFreq S).get b))
      = (presentSymbols (countFreq S)).map (fun b => ((b.val : Int), S.count b)) := by
    apply List.map_congr_left
    intro b _
    rw [countFreq_get_of_lt S hlen]
  rw [h1]
  exact (presentSymbols_perm_dedup S hlen).map _

/-- C14 at the input `0, 1, 2, 3, 4, 5`. -/
theorem tree_invariants_witness :
    ([0, 1, 2, 3, 4, 5] : List Byte) ≠ []
      ∧ ([0, 1, 2, 3, 4, 5] : List Byte).length < 2 ^ 64
      ∧ ∃ root, buildTree (countFreq [0, 1, 2, 3, 4, 5]) = some root
          ∧ List.Perm root.leaves
              (([0, 1, 2, 3, 4, 5] : List Byte).dedup.map
                (fun b => ((b.val : Int), ([0, 1, 2, 3, 4, 5] : List Byte).count b)))
          ∧ (∀ n ∈ root.subtrees, n.isLeaf = false →
              ∃ l r, n.left = some l ∧ n.right = some r ∧ n.freq = l.freq + r.freq)
          ∧ root.freq = ([0, 1, 2, 3, 4, 5] : List Byte).length :=
  ⟨by decide, by decide, tree_invariants [0, 1, 2, 3, 4, 5] (by decide) (by decide)⟩

/-- C19. Optimality of the code: for every non-empty input `S` of fewer than `2 ^ 56` bytes and
every assignment `g` of non-empty bit strings to the byte values that occur in `S` such that the
string of one is never a prefix of the string of another, the bit count `compressFile` writes is
the sum over the distinct byte values of `S` of the number of occurrences times the code length,
and it is at most the same sum for `g`. -/
theorem huffman_optimal (S : List Byte) (hne : S ≠ []) (hlen : S.length < 2 ^ 56)
    (g : Byte → List Bool) (hg1 : ∀ b ∈ S, g b ≠ [])
    (hg2 : ∀ a ∈ S, ∀ b ∈ S, a ≠ b → ¬ g a <+: g b) :
    sumBits (codesOf S) S
        = (S.dedup.map (fun b => S.count b * (codesOf S (b.val : Int)).length)).sum
      ∧ sumBits (codesOf S) S ≤ (S.dedup.map (fun b => S.count b * (g b).length)).sum := by
  have hU : S.length < U64 := lt_trans hlen (by decide)
  obtain ⟨hsum, -, -⟩ := sumBits_of_lt S hlen hne
  obtain ⟨N, hk⟩ := kraft_of_assignment S hU g hg2
  have h1 := code_lengths_le_of_kraft S hU hne N (fun b => (g b).length)
    (fun b hb => List.length_pos.2 (hg1 b hb)) hk
  rw [hsum, sum_code_lengths, sum_dedup_eq_present S hU, sum_dedup_eq_present S hU]
  exact ⟨sum_map_eq_present S hU _, h1⟩

set_option maxRecDepth 100000 in
/-- C19 at the input `0, 1, 2, 3, 4, 5` against the assignment of the three low bits of each
byte value. -/
theorem huffman_optimal_witness :
    ([0, 1, 2, 3, 4, 5] : List Byte) ≠ [] ∧ ([0, 1, 2, 3, 4, 5] : List Byte).length < 2 ^ 56
      ∧ (∀ b ∈ ([0, 1, 2, 3, 4, 5] : List Byte),
          (fun b : Byte => [b.val.testBit 2, b.val.testBit 1, b.val.testBit 0]) b ≠ [])
      ∧ (∀ a ∈ ([0, 1, 2, 3, 4, 5] : List Byte), ∀ b ∈ ([0, 1, 2, 3, 4, 5] : List Byte), a ≠ b →
          ¬ (fun b : Byte => [b.val.testBit 2, b.val.testBit 1, b.val.testBit 0]) a
            <+: (fun b : Byte => [b.val.testBit 2, b.val.testBit 1, b.val.testBit 0]) b)
      ∧ sumBits (codesOf [0, 1, 2, 3, 4, 5]) [0, 1, 2, 3, 4, 5]
          = (([0, 1, 2, 3, 4, 5] : List Byte).dedup.map
              (fun b => ([0, 1, 2, 3, 4, 5] : List Byte).count b
                * (codesOf [0, 1, 2, 3, 4, 5] (b.val : Int)).length)).sum
      ∧ sumBits (codesOf [0, 1, 2, 3, 4, 5]) [0, 1, 2, 3, 4, 5]
          ≤ (([0, 1, 2, 3, 4, 5] : List Byte).dedup.map
              (fun b => ([0, 1, 2, 3, 4, 5] : List Byte).count b
                * ((fun b : Byte => [b.val.testBit 2, b.val.testBit 1, b.val.testBit 0])
                    b).length)).sum :=
  ⟨by decide, by decide, by decide, by decide,
   huffman_optimal [0, 1, 2, 3, 4, 5] (by decide) (by decide)
    (fun b : Byte => [b.val.testBit 2, b.val.testBit 1, b.val.testBit 0])
    (by decide) (by decide)⟩

/-- C12. Size sanity: there is a length `N`, namely 2700, such that for every input `S` of at
least `N` and fewer than `2 ^ 56` bytes in which one byte value accounts for at least 99% of the
bytes, the container `compressFile` writes has `14 + 9 * distinct + ⌈totalBits / 8⌉` bytes and is
strictly shorter than `S`. -/
theorem size_sanity (S : List Byte) (hN : 2700 ≤ S.length) (hlen : S.length < 2 ^ 56)
    (hdom : ∃ a, 99 * S.length ≤ 100 * S.count a) :
    ∃ c, compressFile S = some c
      ∧ c.length = 14 + 9 * countDistinct (countFreq S) + (sumBits (codesOf S) S + 7) / 8
      ∧ c.length < S.length := by
  obtain ⟨a, ha⟩ := hdom
  have hU : S.length < U64 := lt_trans hlen (by decide)
  have haS : a ∈ S := List.count_pos_iff.1 (by omega)
  have hne : S ≠ [] := List.ne_nil_of_mem haS
  obtain ⟨root, hroot, -, -⟩ := encode_tree_facts S hU hne
  obtain ⟨hsum, -, -⟩ := sumBits_of_lt S hlen hne
  have hsk := sumBits_le_skewed S hlen a haS
  have hd : countDistinct (countFreq S) ≤ 256 := by
    rw [countDistinct_eq]; exact presentSymbols_length_le _
  have hca : S.count a ≤ S.length := List.count_le_length _ _
  have hclen : (container (countFreq S) (sumBits (codesOf S) S) (packData (codesOf S) S)).length
      = 14 + 9 * countDistinct (countFreq S) + (sumBits (codesOf S) S + 7) / 8 := by
    rw [container_length, packData_length, hsum]
  refine ⟨_, compressFile_eq S root hroot, hclen, ?_⟩
  rw [hclen]
  omega

/-- C12 at the input of 2694 bytes `A` followed by the bytes `0, 1, 2, 3, 4, 5`, in which `A`
accounts for more than 99% of the bytes. -/
theorem size_sanity_witness :
    2700 ≤ (List.replicate 2694 (65 : Byte) ++ [0, 1, 2, 3, 4, 5]).length
      ∧ (List.replicate 2694 (65 : Byte) ++ [0, 1, 2, 3, 4, 5]).length < 2 ^ 56
      ∧ (∃ a, 99 * (List.replicate 2694 (65 : Byte) ++ [0, 1, 2, 3, 4, 5]).length
          ≤ 100 * (List.replicate 2694 (65 : Byte) ++ [0, 1, 2, 3, 4, 5]).count a)
      ∧ ∃ c, compressFile (List.replicate 2694 (65 : Byte) ++ [0, 1, 2, 3, 4, 5]) = some c
          ∧ c.length
            = 14 + 9 * countDistinct (countFreq
                  (List.replicate 2694 (65 : Byte) ++ [0, 1, 2, 3, 4, 5]))
              + (sumBits (codesOf (List.replicate 2694 (65 : Byte) ++ [0, 1, 2, 3, 4, 5]))
                  (List.replicate 2694 (65 : Byte) ++ [0, 1, 2, 3, 4, 5]) + 7) / 8
          ∧ c.length < (List.replicate 2694 (65 : Byte) ++ [0, 1, 2, 3, 4, 5]).length :=
  have h1 : 2700 ≤ (List.replicate 2694 (65 : Byte) ++ [0, 1, 2, 3, 4, 5]).length := by
    rw [List.length_append, List.length_replicate]
    decide
  have h2 : (List.replicate 2694 (65 : Byte) ++ [0, 1, 2, 3, 4, 5]).length < 2 ^ 56 := by
    rw [List.length_append, List.length_replicate]
    decide
  have h3 : ∃ a, 99 * (List.replicate 2694 (65 : Byte) ++ [0, 1, 2, 3, 4, 5]).length
      ≤ 100 * (List.replicate 2694 (65 : Byte) ++ [0, 1, 2, 3, 4, 5]).count a := by
    refine ⟨65, ?_⟩
    rw [List.length_append, List.length_replicate, List.count_append, List.count_replicate_self]
    decide
  ⟨h1, h2, h3, size_sanity (List.replicate 2694 (65 : Byte) ++ [0, 1, 2, 3, 4, 5]) h1 h2 h3⟩

end Huffman
